import Mathlib

/-!
The file quartztext.c : markup to styled runs, lines and planes.

A shallow embedding of `modules/misc/quartztext.c` (the Quartz text renderer
of VLC): the font stack (`PushFont`, `PopFont`, `PeekFont`), the style
resolution (`GetStyleFromFontStack`, `CreateStyle`), the run builder
(`ProcessNodes`), the line loop (`Compose`), the compositor (`RenderYUVA`)
and the two render calls (`RenderText`, `RenderHtml`), followed by theorems
about them.

Conventions of the embedding.

* C strings are Lean strings; a `char *` that may be `NULL` is an
  `Option String`.
* `int` values are `Int`, and their arithmetic is exact: signed overflow is
  undefined in C.  The places where the width of a machine integer matters
  are the clamping of `strtol` (a 32-bit `long`: Carbon and ATSUI exist for
  32-bit processes only), the masks `& 0x00ffffff`, `& 0xff`, which on two's
  complement integers are `% 2^24` and `% 2^8`, the cast `(uint8_t)`, which
  is `% 2^8`, the unsigned difference `i_end - i_start`, which is taken
  modulo `2^32`, and the cursor of the line loop, a 32-bit `Fixed`.
* A call that reads through a null pointer (`strlen( NULL )` in
  `CreateStyle`, `strdup( NULL )` in the `font` branch of `ProcessNodes`) does
  not return; the functions of the run builder give `none` then.
* The linked list `font_stack_t` is the list of its nodes from `*p_font`
  along `p_next`; the top of the stack is the LAST node, as in the source.
* `malloc`, `realloc` and `strdup` of a present string are taken to succeed,
  and so are the ATSUI calls of `CreateStyle` in the run builder.  What the
  other calls outside the sources give (the layout engine, the fixed-point
  conversions, the region allocator, the XML reader, and in `RenderText`
  whether a style is obtained) is a parameter of the model.
* A plane of a picture and the raster are the bytes they hold, by offset.
-/

namespace QuartzText

/-! ## Constants of the VLC headers -/

/-- Success code of `vlc/vlc.h` (`#define VLC_SUCCESS -0`). -/
def VLC_SUCCESS : Int := 0

/-- Generic error code of `vlc/vlc.h` (`#define VLC_EGENERIC -666`). -/
def VLC_EGENERIC : Int := -666

/-- Style flag of `vlc_osd.h`. -/
def STYLE_BOLD : Nat := 1

/-- Style flag of `vlc_osd.h`. -/
def STYLE_ITALIC : Nat := 2

/-- Style flag of `vlc_osd.h`. -/
def STYLE_UNDERLINE : Nat := 32

/-- Largest `long` of the 32-bit ABI. -/
def LONG_MAX : Int := 2147483647

/-- Smallest `long` of the 32-bit ABI. -/
def LONG_MIN : Int := -2147483648

/-! ## C library functions used by the run builder -/

/-- The C function `tolower` in the C locale, on a character code. -/
def tolower (c : Char) : Int :=
  if 65 ≤ c.toNat ∧ c.toNat ≤ 90 then (c.toNat : Int) + 32 else (c.toNat : Int)

/-- The comparison loop of `strcasecmp` on the characters of both strings:
the difference of the first pair of characters that differ after `tolower`,
the end of a string counting as the character 0. -/
def strcasecmpChars : List Char → List Char → Int
  | [], [] => 0
  | [], b :: _ => 0 - tolower b
  | a :: _, [] => tolower a
  | a :: as, b :: bs =>
    if tolower a = tolower b then strcasecmpChars as bs else tolower a - tolower b

/-- The C function `strcasecmp`: zero exactly when the strings are equal up
to the case of ASCII letters. -/
def strcasecmp (s1 s2 : String) : Int :=
  strcasecmpChars s1.data s2.data

/-- The C function `isspace` in the C locale. -/
def isspace (c : Char) : Bool :=
  c.toNat = 32 || (9 ≤ c.toNat && c.toNat ≤ 13)

/-- Value of a character as a digit of `strtol`: `0`..`9`, then letters of
either case from 10 on; `none` for every other character. -/
def digitValue (c : Char) : Option Nat :=
  if 48 ≤ c.toNat ∧ c.toNat ≤ 57 then some (c.toNat - 48)
  else if 97 ≤ c.toNat ∧ c.toNat ≤ 122 then some (c.toNat - 87)
  else if 65 ≤ c.toNat ∧ c.toNat ≤ 90 then some (c.toNat - 55)
  else none

/-- The digit loop of `strtol`: accumulates the longest prefix of digits
that are valid in `base`, starting from `acc`. -/
def strtolDigits (base : Nat) : Nat → List Char → Nat
  | acc, [] => acc
  | acc, c :: cs =>
    match digitValue c with
    | some d => if d < base then strtolDigits base (acc * base + d) cs else acc
    | none => acc

/-- Sign of `strtol`: an optional `-` or `+` after the white space. -/
def strtolSign : List Char → Bool × List Char
  | '-' :: cs => (true, cs)
  | '+' :: cs => (false, cs)
  | cs => (false, cs)

/-- The optional `0x` or `0X` that `strtol` skips in base 16. -/
def strtolSkip0x (base : Nat) : List Char → List Char
  | '0' :: x :: cs => if base = 16 ∧ (x = 'x' ∨ x = 'X') then cs else '0' :: x :: cs
  | cs => cs

/-- The C function `strtol(nptr, NULL, base)` for a base from 2 to 36: white
space, optional sign, optional `0x` in base 16, the longest run of digits;
zero when there is no digit; clamped to `LONG_MIN`..`LONG_MAX`. -/
def strtol (nptr : List Char) (base : Nat) : Int :=
  let afterSpace := nptr.dropWhile isspace
  let signed := strtolSign afterSpace
  let magnitude := strtolDigits base 0 (strtolSkip0x base signed.2)
  if signed.1 then
    if (magnitude : Int) > -LONG_MIN then LONG_MIN else -(magnitude : Int)
  else
    if (magnitude : Int) > LONG_MAX then LONG_MAX else (magnitude : Int)

/-- The C function `atoi`, which is `(int)strtol(str, NULL, 10)`. -/
def atoi (str : String) : Int :=
  strtol str.data 10

/-- UTF-16 code units of one character: itself below 0x10000, a surrogate
pair from there on. -/
def utf16Units (c : Char) : List Nat :=
  if c.toNat < 65536 then [c.toNat]
  else [55296 + (c.toNat - 65536) / 1024, 56320 + (c.toNat - 65536) % 1024]

/-- The characters `CFStringGetCharacters` stores for a string, as
`ConvertToUTF16` obtains them. -/
def utf16Encode : List Char → List Nat
  | [] => []
  | c :: cs => utf16Units c ++ utf16Encode cs

/-- `ConvertToUTF16` with a non-NULL destination, as in `ProcessNodes`: the
string length it reports in `*pi_strlen` and the code units it stores at the
destination. -/
def ConvertToUTF16 (psz_utf8_str : String) : Nat × List Nat :=
  let chars := utf16Encode psz_utf8_str.data
  (chars.length, chars)

/-! ## Data model -/

/-- One node of the font stack (`struct font_stack_t` without `p_next`). -/
structure font_stack_t where
  psz_name : Option String
  i_size : Int
  i_color : Int
  i_alpha : Int
  deriving DecidableEq, Repr

/-- The linked list behind `font_stack_t *`: its nodes from the head along
`p_next`.  `NULL` is the empty list; the top of the stack is the last node. -/
abbrev FontStack := List font_stack_t

/-- The fields of `struct filter_sys_t`. -/
structure filter_sys_t where
  psz_font_name : String
  i_font_opacity : Nat
  i_font_color : Int
  i_font_size : Int
  deriving DecidableEq, Repr

/-- The fields of `text_style_t` (of `vlc_osd.h`) that `ProcessNodes` reads. -/
structure text_style_t where
  psz_fontname : Option String
  i_font_size : Int
  i_font_color : Int
  i_font_alpha : Int
  i_style_flags : Nat
  deriving DecidableEq, Repr

/-- What an `ATSUStyle` made by `CreateStyle` stands for: the arguments the
style was created from. -/
structure ATSUStyle where
  psz_fontname : Option String
  i_font_size : Int
  i_font_color : Int
  i_font_alpha : Int
  b_bold : Bool
  b_italic : Bool
  b_uline : Bool
  deriving DecidableEq, Repr

/-- One node delivered by the XML reader: what `xml_ReaderNodeType`,
`xml_ReaderName`, `xml_ReaderValue` and the `xml_ReaderNextAttr` loop give
for it.  Names and values may be `NULL`. -/
inductive xml_node where
  | XML_READER_NONE : xml_node
  | XML_READER_STARTELEM (psz_node : Option String)
      (attrs : List (Option String × Option String)) : xml_node
  | XML_READER_ENDELEM (psz_node : Option String) : xml_node
  | XML_READER_TEXT (psz_node : Option String) : xml_node
  deriving DecidableEq, Repr

/-! ## The font stack -/

/-- The walk of `PushFont` to the last node, which links the new node after it. -/
def linkLast (p_new : font_stack_t) : FontStack → FontStack
  | [] => [p_new]
  | p_last :: rest => p_last :: linkLast p_new rest

/-- `PushFont` on a non-NULL `p_font`: the return code and the new list. -/
def PushFont (p_font : FontStack) (psz_name : Option String)
    (i_size i_color i_alpha : Int) : Int × FontStack :=
  let p_new : font_stack_t :=
    { psz_name := psz_name, i_size := i_size, i_color := i_color, i_alpha := i_alpha }
  (VLC_SUCCESS, linkLast p_new p_font)

/-- The walk of `PopFont` to the last node, which unlinks it. -/
def unlinkLast : FontStack → FontStack
  | [] => []
  | [_] => []
  | p_first :: p_second :: rest => p_first :: unlinkLast (p_second :: rest)

/-- `PopFont` on a non-NULL `p_font`: the return code and the new list. -/
def PopFont (p_font : FontStack) : Int × FontStack :=
  match p_font with
  | [] => (VLC_EGENERIC, [])
  | p_first :: rest => (VLC_SUCCESS, unlinkLast (p_first :: rest))

/-- The walk of `PeekFont` to the last node. -/
def lastNode : FontStack → Option font_stack_t
  | [] => none
  | [p_last] => some p_last
  | _ :: p_second :: rest => lastNode (p_second :: rest)

/-- `PeekFont` on a non-NULL `p_font`.  The four output parameters are given
as a record holding their values before the call; the result is the return
code and their values after it (unchanged when the stack is empty). -/
def PeekFont (p_font : FontStack) (out : font_stack_t) : Int × font_stack_t :=
  match lastNode p_font with
  | none => (VLC_EGENERIC, out)
  | some p_last => (VLC_SUCCESS, p_last)

/-! ## Style resolution -/

/-- `CreateStyle` when the ATSUI calls succeed: the style of its arguments.
The function calls `strlen( psz_fontname )` without a test, so for a `NULL`
font name it reads through the null pointer and does not return: that is the
outer `none`.  The inner option is the `ATSUStyle` it returns. -/
def CreateStyle (psz_fontname : Option String) (i_font_size i_font_color i_font_alpha : Int)
    (b_bold b_italic b_uline : Bool) : Option (Option ATSUStyle) :=
  match psz_fontname with
  | none => none
  | some name =>
    some (some { psz_fontname := some name, i_font_size := i_font_size,
                 i_font_color := i_font_color, i_font_alpha := i_font_alpha,
                 b_bold := b_bold, b_italic := b_italic, b_uline := b_uline })

/-- `GetStyleFromFontStack`: the inner `none` is the `NULL` style, the outer
`none` means that `CreateStyle` does not return. -/
def GetStyleFromFontStack (p_sys : filter_sys_t) (p_fonts : FontStack)
    (b_bold b_italic b_uline : Bool) : Option (Option ATSUStyle) :=
  let p_style : Option ATSUStyle := none
  let locals : font_stack_t :=
    { psz_name := none, i_size := p_sys.i_font_size,
      i_color := p_sys.i_font_color, i_alpha := 0 }
  let peeked := PeekFont p_fonts locals
  if peeked.1 = VLC_SUCCESS then
    CreateStyle peeked.2.psz_name peeked.2.i_size peeked.2.i_color peeked.2.i_alpha
      b_bold b_italic b_uline
  else some p_style

/-! ## The run builder -/

/-- The variables of `ProcessNodes` that change during the traversal: the
font stack, the three flags, the code units stored between `psz_text_orig`
and `psz_text`, and the caller's `*pi_runs`, `*ppi_run_lengths`,
`*ppp_styles` (which `RenderHtml` passes as 0, `NULL`, `NULL`). -/
structure run_state where
  p_fonts : FontStack
  b_bold : Bool
  b_italic : Bool
  b_uline : Bool
  psz_text : List Nat
  pi_runs : Nat
  pi_run_lengths : List Nat
  pp_styles : List (Option ATSUStyle)
  deriving DecidableEq, Repr

/-- Body of the `xml_ReaderNextAttr` loop of a `font` start element, on the
locals `psz_fontname`, `i_font_size`, `i_font_color`, `i_font_alpha`. -/
def fontAttribute (locals : font_stack_t)
    (attr : Option String × Option String) : font_stack_t :=
  match attr with
  | (some psz_name, some psz_value) =>
    if strcasecmp "face" psz_name = 0 then
      { locals with psz_name := some psz_value }
    else if strcasecmp "size" psz_name = 0 then
      { locals with i_size := atoi psz_value }
    else if strcasecmp "color" psz_name = 0 ∧ psz_value.data.head? = some '#' then
      { locals with i_color := strtol (psz_value.data.drop 1) 16 % 16777216 }
    else if strcasecmp "alpha" psz_name = 0 ∧ psz_value.data.head? = some '#' then
      { locals with i_alpha := strtol (psz_value.data.drop 1) 16 % 256 }
    else locals
  | _ => locals

/-- The locals of a `font` start element after `PeekFont` and the attribute
loop: the entry that is pushed.  When `PeekFont` succeeds the branch runs
`psz_fontname = strdup( psz_fontname )` on the name of the top entry; for a
`NULL` name `strdup` reads through the null pointer and does not return:
that is `none`.  When `PeekFont` fails the locals keep their initial values. -/
def fontLocals (p_fonts : FontStack)
    (attrs : List (Option String × Option String)) : Option font_stack_t :=
  let locals : font_stack_t :=
    { psz_name := none, i_color := 16777215, i_alpha := 0, i_size := 24 }
  let peeked := PeekFont p_fonts locals
  if peeked.1 = VLC_SUCCESS then
    match peeked.2.psz_name with
    | none => none
    | some psz_fontname =>
      some (attrs.foldl fontAttribute { peeked.2 with psz_name := some psz_fontname })
  else some (attrs.foldl fontAttribute peeked.2)

/-- The block that `ProcessNodes` runs for a `br` start element and for a
text node: convert the string, advance `psz_text`, count the run, store its
style and its length.  `none` when `GetStyleFromFontStack` does not return. -/
def appendRun (p_sys : filter_sys_t) (st : run_state) (psz_utf8_str : String) :
    Option run_state :=
  let converted := ConvertToUTF16 psz_utf8_str
  match GetStyleFromFontStack p_sys st.p_fonts st.b_bold st.b_italic st.b_uline with
  | none => none
  | some p_style =>
    some { st with
      psz_text := st.psz_text ++ converted.2
      pi_runs := st.pi_runs + 1
      pp_styles := st.pp_styles ++ [p_style]
      pi_run_lengths := st.pi_run_lengths ++ [converted.1] }

/-- One turn of the `while` loop of `ProcessNodes`: the `switch` on the node
type.  `none` when the turn does not return. -/
def processNode (p_sys : filter_sys_t) (st : run_state) : xml_node → Option run_state
  | xml_node.XML_READER_NONE => some st
  | xml_node.XML_READER_ENDELEM none => some st
  | xml_node.XML_READER_ENDELEM (some psz_node) =>
    if strcasecmp "font" psz_node = 0 then
      some { st with p_fonts := (PopFont st.p_fonts).2 }
    else if strcasecmp "b" psz_node = 0 then
      some { st with b_bold := false }
    else if strcasecmp "i" psz_node = 0 then
      some { st with b_italic := false }
    else if strcasecmp "u" psz_node = 0 then
      some { st with b_uline := false }
    else some st
  | xml_node.XML_READER_STARTELEM none _ => some st
  | xml_node.XML_READER_STARTELEM (some psz_node) attrs =>
    if strcasecmp "font" psz_node = 0 then
      match fontLocals st.p_fonts attrs with
      | none => none
      | some locals =>
        some { st with p_fonts :=
          (PushFont st.p_fonts locals.psz_name locals.i_size locals.i_color
            locals.i_alpha).2 }
    else if strcasecmp "b" psz_node = 0 then
      some { st with b_bold := true }
    else if strcasecmp "i" psz_node = 0 then
      some { st with b_italic := true }
    else if strcasecmp "u" psz_node = 0 then
      some { st with b_uline := true }
    else if strcasecmp "br" psz_node = 0 then
      appendRun p_sys st "\n"
    else some st
  | xml_node.XML_READER_TEXT none => some st
  | xml_node.XML_READER_TEXT (some psz_node) => appendRun p_sys st psz_node

/-- The `while` loop of `ProcessNodes` over the nodes for which
`xml_ReaderRead` returns 1.  `none` when a turn does not return. -/
def processNodes (p_sys : filter_sys_t) : run_state → List xml_node → Option run_state
  | st, [] => some st
  | st, node :: rest =>
    match processNode p_sys st node with
    | none => none
    | some next => processNodes p_sys next rest

/-- The state of `ProcessNodes` when the `while` loop starts: the initial
push and the flags of the caller's style. -/
def initialState (p_sys : filter_sys_t) (p_font_style : Option text_style_t) : run_state :=
  match p_font_style with
  | some style =>
    { p_fonts := (PushFont [] style.psz_fontname style.i_font_size style.i_font_color
        style.i_font_alpha).2
      b_bold := style.i_style_flags &&& STYLE_BOLD != 0
      b_italic := style.i_style_flags &&& STYLE_ITALIC != 0
      b_uline := style.i_style_flags &&& STYLE_UNDERLINE != 0
      psz_text := [], pi_runs := 0, pi_run_lengths := [], pp_styles := [] }
  | none =>
    { p_fonts := (PushFont [] (some p_sys.psz_font_name) p_sys.i_font_size
        p_sys.i_font_color 0).2
      b_bold := false, b_italic := false, b_uline := false
      psz_text := [], pi_runs := 0, pi_run_lengths := [], pp_styles := [] }

/-- The loop `while( VLC_SUCCESS == PopFont( &p_fonts ) );`: the list it
leaves and the number of `PopFont` calls it made. -/
def cleanupLoop (p_fonts : FontStack) : FontStack × Nat :=
  if h : (PopFont p_fonts).1 = VLC_SUCCESS then
    let rest := cleanupLoop (PopFont p_fonts).2
    (rest.1, rest.2 + 1)
  else ((PopFont p_fonts).2, 1)
termination_by p_fonts.length
decreasing_by
  have key : ∀ s : FontStack, s ≠ [] → (unlinkLast s).length < s.length := by
    intro s
    induction s with
    | nil => intro hs; exact absurd rfl hs
    | cons a t ih =>
      intro _
      cases t with
      | nil => simp [unlinkLast]
      | cons b r =>
        have hlt := ih (by simp)
        simp only [unlinkLast, List.length_cons] at hlt ⊢
        omega
  cases p_fonts with
  | nil => simp [PopFont, VLC_SUCCESS, VLC_EGENERIC] at h
  | cons a t => exact key (a :: t) (by simp)

/-- What `ProcessNodes` leaves behind: the text buffer, `*pi_len`,
`*pi_runs`, the two arrays, the local `p_fonts` after the cleanup loop and
the number of `PopFont` calls of that loop. -/
structure run_result where
  psz_text : List Nat
  pi_len : Int
  pi_runs : Nat
  pi_run_lengths : List Nat
  pp_styles : List (Option ATSUStyle)
  p_fonts : FontStack
  i_pops : Nat
  deriving DecidableEq, Repr

/-- `ProcessNodes` on the nodes the reader delivers.  `none` when a turn of
the traversal does not return: then nothing is stored in `*pi_len` and the
cleanup loop is not reached. -/
def ProcessNodes (p_sys : filter_sys_t) (p_font_style : Option text_style_t)
    (nodes : List xml_node) : Option run_result :=
  match processNodes p_sys (initialState p_sys p_font_style) nodes with
  | none => none
  | some st =>
    let cleaned := cleanupLoop st.p_fonts
    some { psz_text := st.psz_text
           pi_len := (st.psz_text.length : Int)
           pi_runs := st.pi_runs
           pi_run_lengths := st.pi_run_lengths
           pp_styles := st.pp_styles
           p_fonts := cleaned.1
           i_pops := cleaned.2 }

/-! ## What a turn leaves when it returns

The functions of this section are not in the source.  They give the value a
call of the run builder leaves whenever it returns, without the question
whether it does: `processNode p_sys st node` is either `none` or
`some (nodeEffect p_sys st node)`.  The proofs go through them. -/

/-- The style `GetStyleFromFontStack` gives when it returns: the style of the
top entry and the flags, `NULL` on an empty stack. -/
def resolvedStyle (_p_sys : filter_sys_t) (p_fonts : FontStack)
    (b_bold b_italic b_uline : Bool) : Option ATSUStyle :=
  (lastNode p_fonts).map fun top =>
    { psz_fontname := top.psz_name, i_font_size := top.i_size, i_font_color := top.i_color,
      i_font_alpha := top.i_alpha, b_bold := b_bold, b_italic := b_italic,
      b_uline := b_uline }

/-- The entry a `font` start element pushes when the branch returns. -/
def pushedLocals (p_fonts : FontStack)
    (attrs : List (Option String × Option String)) : font_stack_t :=
  let locals : font_stack_t :=
    { psz_name := none, i_color := 16777215, i_alpha := 0, i_size := 24 }
  attrs.foldl fontAttribute (PeekFont p_fonts locals).2

/-- The state `appendRun` leaves when it returns. -/
def appendedRun (p_sys : filter_sys_t) (st : run_state) (psz_utf8_str : String) : run_state :=
  let converted := ConvertToUTF16 psz_utf8_str
  { st with
    psz_text := st.psz_text ++ converted.2
    pi_runs := st.pi_runs + 1
    pp_styles := st.pp_styles ++
      [resolvedStyle p_sys st.p_fonts st.b_bold st.b_italic st.b_uline]
    pi_run_lengths := st.pi_run_lengths ++ [converted.1] }

/-- The state one turn of the `while` loop leaves when it returns. -/
def nodeEffect (p_sys : filter_sys_t) (st : run_state) : xml_node → run_state
  | xml_node.XML_READER_NONE => st
  | xml_node.XML_READER_ENDELEM none => st
  | xml_node.XML_READER_ENDELEM (some psz_node) =>
    if strcasecmp "font" psz_node = 0 then
      { st with p_fonts := (PopFont st.p_fonts).2 }
    else if strcasecmp "b" psz_node = 0 then
      { st with b_bold := false }
    else if strcasecmp "i" psz_node = 0 then
      { st with b_italic := false }
    else if strcasecmp "u" psz_node = 0 then
      { st with b_uline := false }
    else st
  | xml_node.XML_READER_STARTELEM none _ => st
  | xml_node.XML_READER_STARTELEM (some psz_node) attrs =>
    if strcasecmp "font" psz_node = 0 then
      let locals := pushedLocals st.p_fonts attrs
      { st with p_fonts :=
          (PushFont st.p_fonts locals.psz_name locals.i_size locals.i_color locals.i_alpha).2 }
    else if strcasecmp "b" psz_node = 0 then
      { st with b_bold := true }
    else if strcasecmp "i" psz_node = 0 then
      { st with b_italic := true }
    else if strcasecmp "u" psz_node = 0 then
      { st with b_uline := true }
    else if strcasecmp "br" psz_node = 0 then
      appendedRun p_sys st "\n"
    else st
  | xml_node.XML_READER_TEXT none => st
  | xml_node.XML_READER_TEXT (some psz_node) => appendedRun p_sys st psz_node

/-- The state the `while` loop leaves when every turn returns. -/
def nodesEffect (p_sys : filter_sys_t) : run_state → List xml_node → run_state
  | st, [] => st
  | st, node :: rest => nodesEffect p_sys (nodeEffect p_sys st node) rest

/-- What `ProcessNodes` leaves behind when it returns. -/
def traversalEffect (p_sys : filter_sys_t) (p_font_style : Option text_style_t)
    (nodes : List xml_node) : run_result :=
  let st := nodesEffect p_sys (initialState p_sys p_font_style) nodes
  let cleaned := cleanupLoop st.p_fonts
  { psz_text := st.psz_text
    pi_len := (st.psz_text.length : Int)
    pi_runs := st.pi_runs
    pi_run_lengths := st.pi_run_lengths
    pp_styles := st.pp_styles
    p_fonts := cleaned.1
    i_pops := cleaned.2 }

/-- The top entry of the stack, when there is one, has a font name: neither
`CreateStyle` nor the `font` branch reads through a null pointer. -/
def topNamed (p_fonts : FontStack) : Bool :=
  match lastNode p_fonts with
  | some top => top.psz_name.isSome
  | none => true

/-- Every entry of the stack has a font name. -/
def allNamed (p_fonts : FontStack) : Bool :=
  p_fonts.all fun e => e.psz_name.isSome

/-- The initial entry has a font name: the caller's style is absent (the
renderer's own font name is used) or carries one. -/
def styleNamed (p_font_style : Option text_style_t) : Bool :=
  match p_font_style with
  | some style => style.psz_fontname.isSome
  | none => true

/-! ## Notions used in the statements -/

/-- A renderer configuration as `Create` sets it for a video 320 lines high:
Verdana, opaque, white, size 320 / 16 = 20. -/
def sys20 : filter_sys_t :=
  { psz_font_name := "Verdana", i_font_opacity := 255, i_font_color := 16777215,
    i_font_size := 20 }

/-- A caller's default style: Arial, size 20, white, alpha 0, no flag. -/
def style20 : text_style_t :=
  { psz_fontname := some "Arial", i_font_size := 20, i_font_color := 16777215,
    i_font_alpha := 0, i_style_flags := 0 }

/-- Number of UTF-16 code units of a string: one for each character of the
basic plane, two for each other character. -/
def utf16Length (s : String) : Nat :=
  (s.data.map fun c => if c.toNat < 65536 then 1 else 2).sum

/-- A start event of a `font` element (the name compared as `strcasecmp` does). -/
def isFontStart : xml_node → Bool
  | xml_node.XML_READER_STARTELEM (some psz_node) _ => decide (strcasecmp "font" psz_node = 0)
  | _ => false

/-- An end event of a `font` element. -/
def isFontEnd : xml_node → Bool
  | xml_node.XML_READER_ENDELEM (some psz_node) => decide (strcasecmp "font" psz_node = 0)
  | _ => false

/-- A start event of a `br` element. -/
def isBrStart : xml_node → Bool
  | xml_node.XML_READER_STARTELEM (some psz_node) _ => decide (strcasecmp "br" psz_node = 0)
  | _ => false

/-- What one event adds to the logical text: the UTF-16 length of the payload
of a text event, one for a `br` start event, nothing for any other event. -/
def nodeLength : xml_node → Nat
  | xml_node.XML_READER_TEXT (some psz_node) => utf16Length psz_node
  | node => if isBrStart node then 1 else 0

/-- Logical text length of a sequence of events. -/
def logicalLength (nodes : List xml_node) : Nat :=
  (nodes.map nodeLength).sum

/-- Proper nesting of the `font` events of a sequence read at nesting depth
`depth`: every `font` end event closes a `font` start event of the sequence,
and every `font` start event of the sequence is closed.  Events other than
`font` start and end events do not count. -/
def fontBalanced : Nat → List xml_node → Bool
  | depth, [] => depth == 0
  | depth, node :: rest =>
    if isFontStart node then fontBalanced (depth + 1) rest
    else if isFontEnd node then
      match depth with
      | 0 => false
      | d + 1 => fontBalanced d rest
    else fontBalanced depth rest

/-- Font name, size, colour and alpha of a style. -/
def resolvedFont (style : Option ATSUStyle) : Option font_stack_t :=
  style.map fun s =>
    { psz_name := s.psz_fontname, i_size := s.i_font_size, i_color := s.i_font_color,
      i_alpha := s.i_font_alpha }

/-- Font name, size, colour and alpha of the last run of a state. -/
def lastRunFont (st : run_state) : Option (Option font_stack_t) :=
  st.pp_styles.getLast?.map resolvedFont

/-- The events of `A<font color="#FF0000">B</font>C`. -/
def nodesABC : List xml_node :=
  [xml_node.XML_READER_TEXT (some "A"),
   xml_node.XML_READER_STARTELEM (some "font") [(some "color", some "#FF0000")],
   xml_node.XML_READER_TEXT (some "B"),
   xml_node.XML_READER_ENDELEM (some "font"),
   xml_node.XML_READER_TEXT (some "C")]

/-- What one attribute specifies for the key `key`: its value when its name
is `key` (compared as `strcasecmp` does) and its value is present, and, when
`hash` is set, the value starts with the character `#`. -/
def attrValue (key : String) (hash : Bool)
    (attr : Option String × Option String) : Option String :=
  match attr with
  | (some psz_name, some psz_value) =>
    if strcasecmp key psz_name = 0 ∧ (hash = true → psz_value.data.head? = some '#') then
      some psz_value
    else none
  | _ => none

/-- What a `font` start event specifies for the key `key`: the value of the
last attribute that specifies one. -/
def lastAttr (key : String) (hash : Bool)
    (attrs : List (Option String × Option String)) : Option String :=
  (attrs.filterMap (attrValue key hash)).getLast?

/-- Value of a string of digits read in base `base`, most significant digit
first. -/
def digitsValue (base : Nat) (cs : List Char) : Nat :=
  cs.foldl (fun acc c => acc * base + (digitValue c).getD 0) 0

/-- A decimal digit. -/
def isDecimalDigit (c : Char) : Bool :=
  48 ≤ c.toNat && c.toNat ≤ 57

/-- A hexadecimal digit of either case. -/
def isHexDigit (c : Char) : Bool :=
  (48 ≤ c.toNat && c.toNat ≤ 57) || (97 ≤ c.toNat && c.toNat ≤ 102) ||
    (65 ≤ c.toNat && c.toNat ≤ 70)

/-- A digit of the base `base`, as `strtol` reads digits. -/
def isDigitOf (base : Nat) (c : Char) : Bool :=
  match digitValue c with
  | some d => decide (d < base)
  | none => false

/-- A string that does not start with a number in base `base`: after its
leading white space and one optional sign, the string ends or goes on with a
character that is not a digit of the base. -/
def noLeadingNumber (base : Nat) (cs : List Char) : Bool :=
  match cs.dropWhile isspace with
  | [] => true
  | c :: rest =>
    match (if c = '-' ∨ c = '+' then rest else c :: rest) with
    | [] => true
    | d :: _ => !isDigitOf base d

/-- A caller's default style of size 40: Arial, white, alpha 0, no flag. -/
def style40 : text_style_t :=
  { psz_fontname := some "Arial", i_font_size := 40, i_font_color := 16777215,
    i_font_alpha := 0, i_style_flags := 0 }

/-- The start event of `<font color="#112233">`. -/
def fontColor112233 : xml_node :=
  xml_node.XML_READER_STARTELEM (some "font") [(some "color", some "#112233")]

/-- The events of `Line1<br>Line2`. -/
def nodesLines : List xml_node :=
  [xml_node.XML_READER_TEXT (some "Line1"),
   xml_node.XML_READER_STARTELEM (some "br") [],
   xml_node.XML_READER_TEXT (some "Line2")]

/-- The run lengths a sequence of events stands for, in order: the UTF-16
length of the payload for a text event with a payload, 1 for a `br` start
event, no run for any other event. -/
def runLengths : List xml_node → List Nat
  | [] => []
  | xml_node.XML_READER_TEXT (some psz_node) :: rest => utf16Length psz_node :: runLengths rest
  | node :: rest => if isBrStart node then 1 :: runLengths rest else runLengths rest

/-- A single text event whose payload is the empty string. -/
def nodesEmptyText : List xml_node :=
  [xml_node.XML_READER_TEXT (some "")]

/-- The font stacks at the moments a run is emitted: for every event of the
sequence that makes the run count grow, the stack the run's style is
resolved from; the list ends at a turn that does not return. -/
def stacksAtRuns (p_sys : filter_sys_t) : run_state → List xml_node → List FontStack
  | _, [] => []
  | st, node :: rest =>
    match processNode p_sys st node with
    | none => []
    | some next =>
      if next.pi_runs = st.pi_runs then stacksAtRuns p_sys next rest
      else st.p_fonts :: stacksAtRuns p_sys next rest

/-- The font stacks at the moments a run is emitted, when every turn returns. -/
def effectStacksAtRuns (p_sys : filter_sys_t) : run_state → List xml_node → List FontStack
  | _, [] => []
  | st, node :: rest =>
    if (nodeEffect p_sys st node).pi_runs = st.pi_runs then
      effectStacksAtRuns p_sys (nodeEffect p_sys st node) rest
    else st.p_fonts :: effectStacksAtRuns p_sys (nodeEffect p_sys st node) rest

/-- No stray `font` end event in a sequence read at nesting depth `depth`:
every `font` end event closes a `font` start event of the sequence (start
events may stay open). -/
def fontEndsMatched : Nat → List xml_node → Bool
  | _, [] => true
  | depth, node :: rest =>
    if isFontStart node then fontEndsMatched (depth + 1) rest
    else if isFontEnd node then
      match depth with
      | 0 => false
      | d + 1 => fontEndsMatched d rest
    else fontEndsMatched depth rest

/-- The events of `</font>x`: a stray `font` end event, then text. -/
def nodesStrayEnd : List xml_node :=
  [xml_node.XML_READER_ENDELEM (some "font"), xml_node.XML_READER_TEXT (some "x")]

/-- A caller's default style with the bold flag: Arial, size 20, white. -/
def styleBold : text_style_t :=
  { psz_fontname := some "Arial", i_font_size := 20, i_font_color := 16777215,
    i_font_alpha := 0, i_style_flags := STYLE_BOLD }

/-- The events of `<font color="#00FF00">Unclosed`. -/
def nodesUnclosed : List xml_node :=
  [xml_node.XML_READER_STARTELEM (some "font") [(some "color", some "#00FF00")],
   xml_node.XML_READER_TEXT (some "Unclosed")]

/-- The start event of `<font size="abc" color="#zz" alpha="#">`. -/
def fontUnparsable : xml_node :=
  xml_node.XML_READER_STARTELEM (some "font")
    [(some "size", some "abc"), (some "color", some "#zz"), (some "alpha", some "#")]

/-- A caller's default style of size 40, red, alpha 128: Arial, no flag. -/
def styleRed40 : text_style_t :=
  { psz_fontname := some "Arial", i_font_size := 40, i_font_color := 16711680,
    i_font_alpha := 128, i_style_flags := 0 }

/-- A `font` start event carries an attribute named `key` (the name compared
as `strcasecmp` does), whatever its value. -/
def carriesAttr (key : String) (attrs : List (Option String × Option String)) : Bool :=
  attrs.any fun attr =>
    match attr.1 with
    | some psz_name => decide (strcasecmp key psz_name = 0)
    | none => false

/-- Colour of an entry within 24 bits and alpha within 8 bits. -/
def entryInRange (e : font_stack_t) : Prop :=
  0 ≤ e.i_color ∧ e.i_color ≤ 16777215 ∧ 0 ≤ e.i_alpha ∧ e.i_alpha ≤ 255

instance : DecidablePred entryInRange := fun e => by
  unfold entryInRange
  infer_instance

/-- Every `size` attribute of every `font` start event of the sequence is
read by `atoi` as a positive number. -/
def sizeAttrsPositive (nodes : List xml_node) : Bool :=
  nodes.all fun node =>
    match node with
    | xml_node.XML_READER_STARTELEM (some psz_node) attrs =>
      !decide (strcasecmp "font" psz_node = 0) ||
        attrs.all fun attr =>
          match attrValue "size" false attr with
          | some v => decide (0 < atoi v)
          | none => true
    | _ => true

/-- The events of `<font size="0">x`. -/
def nodesSizeZero : List xml_node :=
  [xml_node.XML_READER_STARTELEM (some "font") [(some "size", some "0")],
   xml_node.XML_READER_TEXT (some "x")]

/-! ## The compositor -/

/-- Rows left transparent above and below the text (`#define VERTICAL_MARGIN 3`). -/
def VERTICAL_MARGIN : Nat := 3

/-- Left margin of the text (`#define HORIZONTAL_MARGIN 10`). -/
def HORIZONTAL_MARGIN : Nat := 10

/-- The C function `abs` on an `int`. -/
def abs (x : Int) : Int :=
  if x < 0 then -x else x

/-- The macro `__MIN` of the VLC headers. -/
def __MIN (a b : Int) : Int :=
  if a < b then a else b

/-- The cast `(uint8_t)` of an `int`. -/
def toUInt8 (x : Int) : Int :=
  x % 256

/-- The sum of the luma expression of `RenderYUVA`. -/
def lumaSum (i_red i_green i_blue : Int) : Int :=
  2104 * i_red + 4130 * i_green + 802 * i_blue + 4096 + 131072

/-- The sum of the first chroma expression of `RenderYUVA`. -/
def chromaUSum (i_red i_green i_blue : Int) : Int :=
  -1214 * i_red + -2384 * i_green + 3598 * i_blue + 4096 + 1048576

/-- The sum of the second chroma expression of `RenderYUVA`. -/
def chromaVSum (i_red i_green i_blue : Int) : Int :=
  3598 * i_red + -3013 * i_green + -585 * i_blue + 4096 + 1048576

/-- The value `RenderYUVA` assigns to `i_y`. -/
def pixelY (i_red i_green i_blue : Int) : Int :=
  toUInt8 (__MIN (abs (lumaSum i_red i_green i_blue) >>> (13 : Nat)) 235)

/-- The value `RenderYUVA` assigns to `i_u`. -/
def pixelU (i_red i_green i_blue : Int) : Int :=
  toUInt8 (__MIN (abs (chromaUSum i_red i_green i_blue) >>> (13 : Nat)) 240)

/-- The value `RenderYUVA` assigns to `i_v`. -/
def pixelV (i_red i_green i_blue : Int) : Int :=
  toUInt8 (__MIN (abs (chromaVSum i_red i_green i_blue) >>> (13 : Nat)) 240)

/-- The fields of `offscreen_bitmap_t` the compositing loop reads; `p_data`
gives the byte stored at each offset. -/
structure offscreen_bitmap_t where
  p_data : Nat → Int
  i_bytesPerPixel : Nat
  i_bytesPerRow : Nat

/-- The picture of a YUVA region: the bytes of its four planes by offset
(`Y_PIXELS`, `U_PIXELS`, `V_PIXELS`, `A_PIXELS`) and the row stride of each
plane (`Y_PITCH`, `U_PITCH`, `V_PITCH`, `A_PITCH`). -/
structure picture_t where
  Y_PIXELS : Nat → Int
  U_PIXELS : Nat → Int
  V_PIXELS : Nat → Int
  A_PIXELS : Nat → Int
  Y_PITCH : Nat
  U_PITCH : Nat
  V_PITCH : Nat
  A_PITCH : Nat

/-- The assignment `p[i] = v` on the bytes of a plane. -/
def storeByte (p : Nat → Int) (i : Nat) (v : Int) : Nat → Int :=
  fun j => if j = i then v else p j

/-- Body of the inner loop of `RenderYUVA` for the pixel `(x, y)`, with the
current `i_offset`. -/
def compositePixel (p_offScreen : offscreen_bitmap_t) (i_offset y : Nat)
    (picture : picture_t) (x : Nat) : picture_t :=
  let i_alpha := p_offScreen.p_data
    (y * p_offScreen.i_bytesPerRow + x * p_offScreen.i_bytesPerPixel)
  let i_red := p_offScreen.p_data
    (y * p_offScreen.i_bytesPerRow + x * p_offScreen.i_bytesPerPixel + 1)
  let i_green := p_offScreen.p_data
    (y * p_offScreen.i_bytesPerRow + x * p_offScreen.i_bytesPerPixel + 2)
  let i_blue := p_offScreen.p_data
    (y * p_offScreen.i_bytesPerRow + x * p_offScreen.i_bytesPerPixel + 3)
  { picture with
    Y_PIXELS := storeByte picture.Y_PIXELS (i_offset + x) (pixelY i_red i_green i_blue)
    U_PIXELS := storeByte picture.U_PIXELS (i_offset + x) (pixelU i_red i_green i_blue)
    V_PIXELS := storeByte picture.V_PIXELS (i_offset + x) (pixelV i_red i_green i_blue)
    A_PIXELS := storeByte picture.A_PIXELS (i_offset + x) i_alpha }

/-- The inner loop of `RenderYUVA`: `for( x=0; x<i_width; x++ )`. -/
def compositeRow (p_offScreen : offscreen_bitmap_t) (i_width : Nat) (i_offset y : Nat)
    (picture : picture_t) : picture_t :=
  (List.range i_width).foldl (compositePixel p_offScreen i_offset y) picture

/-- The outer loop of `RenderYUVA` over the rows still to do, `i_offset`
growing by `i_pitch` after each row. -/
def compositeRows (p_offScreen : offscreen_bitmap_t) (i_width i_pitch : Nat) :
    List Nat → Nat → picture_t → picture_t
  | [], _, picture => picture
  | y :: rest, i_offset, picture =>
    compositeRows p_offScreen i_width i_pitch rest (i_offset + i_pitch)
      (compositeRow p_offScreen i_width i_offset y picture)

/-- The compositing loop of `RenderYUVA` with its initialisation:
`i_pitch = A_PITCH`, `i_offset = VERTICAL_MARGIN * i_pitch`, rows 0 to
`i_textblock_height - 1`. -/
def compositeLoop (p_offScreen : offscreen_bitmap_t) (i_width : Nat)
    (i_textblock_height : Int) (picture : picture_t) : picture_t :=
  compositeRows p_offScreen i_width picture.A_PITCH
    (List.range i_textblock_height.toNat) (VERTICAL_MARGIN * picture.A_PITCH) picture

/-- The integer `q` is an integer nearest to the exact quotient `num / den`
(for a positive `den`): the two differ by at most one half. -/
def isNearestInteger (num den q : Int) : Prop :=
  -den ≤ 2 * (q * den - num) ∧ 2 * (q * den - num) ≤ den

instance (num den q : Int) : Decidable (isNearestInteger num den q) := by
  unfold isNearestInteger
  infer_instance

/-- The value `clamp(q, lo, hi)`. -/
def clamp (q lo hi : Int) : Int :=
  if q < lo then lo else if hi < q then hi else q

/-- A raster of one row and one pixel, with the given alpha, red, green and
blue bytes. -/
def onePixel (i_alpha i_red i_green i_blue : Int) : offscreen_bitmap_t :=
  { p_data := fun i =>
      if i = 0 then i_alpha else if i = 1 then i_red else if i = 2 then i_green
      else if i = 3 then i_blue else 0
    i_bytesPerPixel := 4
    i_bytesPerRow := 4 }

/-- A picture whose four planes hold the byte `fill` everywhere, with the
given row strides for the Y, U, V and A planes. -/
def filledPicture (fill : Int) (y_pitch u_pitch v_pitch a_pitch : Nat) : picture_t :=
  { Y_PIXELS := fun _ => fill, U_PIXELS := fun _ => fill, V_PIXELS := fun _ => fill,
    A_PIXELS := fun _ => fill, Y_PITCH := y_pitch, U_PITCH := u_pitch,
    V_PITCH := v_pitch, A_PITCH := a_pitch }

/-- The four planes of a YUVA picture. -/
inductive plane_id where
  | Y : plane_id
  | U : plane_id
  | V : plane_id
  | A : plane_id
  deriving DecidableEq, Repr

/-- The bytes of one plane of a picture. -/
def planeOf : plane_id → picture_t → Nat → Int
  | plane_id.Y, picture => picture.Y_PIXELS
  | plane_id.U, picture => picture.U_PIXELS
  | plane_id.V, picture => picture.V_PIXELS
  | plane_id.A, picture => picture.A_PIXELS

/-- The row stride of one plane of a picture: that plane's own pitch. -/
def pitchOf : plane_id → picture_t → Nat
  | plane_id.Y, picture => picture.Y_PITCH
  | plane_id.U, picture => picture.U_PITCH
  | plane_id.V, picture => picture.V_PITCH
  | plane_id.A, picture => picture.A_PITCH

/-- The value computed for the raster pixel `(x, y)` and one plane: luma and
chroma of its red, green and blue bytes, or its alpha byte. -/
def sourceValue (plane : plane_id) (p_offScreen : offscreen_bitmap_t) (x y : Nat) : Int :=
  let i_alpha := p_offScreen.p_data
    (y * p_offScreen.i_bytesPerRow + x * p_offScreen.i_bytesPerPixel)
  let i_red := p_offScreen.p_data
    (y * p_offScreen.i_bytesPerRow + x * p_offScreen.i_bytesPerPixel + 1)
  let i_green := p_offScreen.p_data
    (y * p_offScreen.i_bytesPerRow + x * p_offScreen.i_bytesPerPixel + 2)
  let i_blue := p_offScreen.p_data
    (y * p_offScreen.i_bytesPerRow + x * p_offScreen.i_bytesPerPixel + 3)
  match plane with
  | plane_id.Y => pixelY i_red i_green i_blue
  | plane_id.U => pixelU i_red i_green i_blue
  | plane_id.V => pixelV i_red i_green i_blue
  | plane_id.A => i_alpha

/-! ## The line loop -/

/-- Status of a successful ATSUI call (`noErr` of the Carbon headers). -/
def noErr : Int := 0

/-- Status of `ATSUBreakLine` for a break inside a word
(`kATSULineBreakInWord` of the ATSUI headers). -/
def kATSULineBreakInWord : Int := -8808

/-- The two fixed-point conversions of Carbon that `Compose` calls, which are
not part of the sources: they are parameters of the model. -/
structure fixmath_t where
  Long2Fix : Int → Int
  Fix2Long : Int → Int

/-- What the layout engine answers in one turn of the line loop: the status
`ATSUBreakLine` returns and the offset it stores in `i_end`, and the ascent
and descent `ATSUGetLineControl` reports for the line. -/
structure line_answer where
  status : Int
  i_end : Nat
  ascent : Int
  descent : Int
  deriving DecidableEq, Repr

/-- The arguments of one `ATSUDrawText` call: offset and length of the line,
and the position it is painted at. -/
structure draw_call where
  i_start : Nat
  i_length : Nat
  x : Int
  y : Int
  deriving DecidableEq, Repr

/-- The variables of the line loop of `Compose`: the cursor `y` and
`i_start`, with the `ATSUDrawText` calls made so far and the number of
`ATSUBreakLine` requests made so far.  (`i_end` is written by each request
before it is read, so it is not part of the state.) -/
structure line_state where
  y : Int
  i_start : Nat
  draws : List draw_call
  i_requests : Nat
  deriving DecidableEq, Repr

/-- The values of the type `Fixed` of the Carbon headers, a signed 32-bit
integer. -/
def inFixed (v : Int) : Prop :=
  -2147483648 ≤ v ∧ v ≤ 2147483647

instance : DecidablePred inFixed := fun v => by
  unfold inFixed
  infer_instance

/-- The value a variable of type `Fixed` holds once `v` is stored in it: the
two's complement value of the low 32 bits, which is `v` itself when `v` is a
`Fixed`. -/
def toFixed (v : Int) : Int :=
  (v + 2147483648) % 4294967296 - 2147483648

/-- The `do ... while( i_end < i_text_len )` loop of `Compose`.  The layout
engine is the sequence of its answers, one for each request; `fuel` bounds
the number of turns, and `none` means the loop has not ended within it.
The cursor `y` is a `Fixed`: what `y -= ascent` and `y -= descent` store in
it is reduced to 32 bits (`toFixed`), as the processors do that the program
runs on; C leaves that overflow undefined, and every statement on the
position of a line assumes that the cursor stays in the range of `Fixed`. -/
def lineLoop (layout : Nat → line_answer) (x : Int) (i_text_len : Nat) :
    Nat → line_state → Option line_state
  | 0, _ => none
  | fuel + 1, st =>
    let answer := layout st.i_requests
    if answer.status = noErr ∨ answer.status = kATSULineBreakInWord then
      let y := toFixed (st.y - answer.ascent)
      let draw : draw_call :=
        { i_start := st.i_start
          i_length := (answer.i_end + 4294967296 - st.i_start) % 4294967296
          x := x
          y := y }
      let next : line_state :=
        { y := toFixed (y - answer.descent)
          i_start := answer.i_end
          draws := st.draws ++ [draw]
          i_requests := st.i_requests + 1 }
      if answer.i_end < i_text_len then lineLoop layout x i_text_len fuel next
      else some next
    else some { st with i_requests := st.i_requests + 1 }

/-- What the calls `Compose` makes outside the sources give: whether
`CreateOffScreenContext` obtains a context, the status of
`ATSUCreateTextLayoutWithTextPtr`, the answers of the layout engine, and the
bytes of the raster once the lines are drawn. -/
structure compose_env where
  context_ok : Bool
  layout_status : Int
  layout : Nat → line_answer
  p_data : Nat → Int

/-- The bitmap `CreateOffScreenContext` sets up for a width: 8 bits for each
of A, R, G, B. -/
def CreateOffScreenContext (p_data : Nat → Int) (i_width : Nat) : offscreen_bitmap_t :=
  let i_bitsPerChannel := 8
  let i_bitsPerPixel := 4 * i_bitsPerChannel
  let i_bytesPerPixel := i_bitsPerPixel / 8
  { p_data := p_data
    i_bytesPerPixel := i_bytesPerPixel
    i_bytesPerRow := i_width * i_bytesPerPixel }

/-- What `Compose` gives back: the bitmap, `*pi_textblock_height`, and the
state the line loop ended in when it was entered. -/
structure compose_result where
  p_offScreen : offscreen_bitmap_t
  pi_textblock_height : Int
  lines : Option line_state

/-- `Compose`: `pi_textblock_height` is the value of `*pi_textblock_height`
before the call; `none` means the line loop has not ended within `fuel`. -/
def Compose (fix : fixmath_t) (env : compose_env) (fuel : Nat) (i_text_len : Nat)
    (i_width i_height : Nat) (pi_textblock_height : Int) : Option compose_result :=
  let p_offScreen := CreateOffScreenContext env.p_data i_width
  if env.context_ok then
    if env.layout_status = noErr then
      let x := fix.Long2Fix (HORIZONTAL_MARGIN : Int)
      let y := toFixed (fix.Long2Fix (i_height : Int))
      match lineLoop env.layout x i_text_len fuel
          { y := y, i_start := 0, draws := [], i_requests := 0 } with
      | none => none
      | some st =>
        some { p_offScreen := p_offScreen
               pi_textblock_height := (i_height : Int) - fix.Fix2Long st.y
               lines := some st }
    else
      some { p_offScreen := p_offScreen, pi_textblock_height := pi_textblock_height,
             lines := none }
  else
    some { p_offScreen := p_offScreen, pi_textblock_height := pi_textblock_height,
           lines := none }

/-- What `RenderYUVA` leaves: its return code, the picture of the region
(`none` when no region could be created), the text-block height and the
state the line loop ended in. -/
structure yuva_result where
  code : Int
  picture : Option picture_t
  i_textblock_height : Int
  lines : Option line_state

/-- `RenderYUVA` for a non-NULL text of `i_text_len` code units.
`spu_CreateRegion` gives, for a width and a height, the picture of the new
region or `none` for `NULL`; `none` as a result means the line loop has not
ended within `fuel`. -/
def RenderYUVA (fix : fixmath_t) (env : compose_env)
    (spu_CreateRegion : Nat → Int → Option picture_t) (fuel : Nat)
    (i_width i_height : Nat) (i_text_len : Nat) : Option yuva_result :=
  match Compose fix env fuel i_text_len i_width i_height 0 with
  | none => none
  | some composed =>
    let i_textblock_height := composed.pi_textblock_height
    match spu_CreateRegion i_width (i_textblock_height + (VERTICAL_MARGIN : Int) * 2) with
    | none =>
      some { code := VLC_EGENERIC, picture := none,
             i_textblock_height := i_textblock_height, lines := composed.lines }
    | some picture =>
      some { code := VLC_SUCCESS
             picture := some (compositeLoop composed.p_offScreen i_width
               i_textblock_height picture)
             i_textblock_height := i_textblock_height
             lines := composed.lines }

/-- Extent of the first `k` lines: the sum of their ascents and descents. -/
def extentSum (layout : Nat → line_answer) : Nat → Int
  | 0 => 0
  | k + 1 => extentSum layout k + (layout k).ascent + (layout k).descent

/-- Offset at which the line `k` starts: 0 for the first line, the end of
the line before it for any other. -/
def lineStart (layout : Nat → line_answer) : Nat → Nat
  | 0 => 0
  | k + 1 => (layout k).i_end

/-- The cursor after `k` lines without error, from the cursor `h`: each
line takes its ascent, then its descent, off the 32-bit cursor. -/
def cursorAfter (layout : Nat → line_answer) (h : Int) : Nat → Int
  | 0 => h
  | k + 1 =>
    toFixed (toFixed (cursorAfter layout h k - (layout k).ascent) - (layout k).descent)

/-- The cursor stays in the range of `Fixed` over the first `n` lines, from
the fixed-point surface height `h`: the height itself, and what is left of it
above the baseline of each line and below each line, are values of `Fixed`. -/
def cursorInRange (layout : Nat → line_answer) (h : Int) (n : Nat) : Prop :=
  inFixed h ∧
  ∀ k, k < n →
    inFixed (h - extentSum layout k - (layout k).ascent) ∧
    inFixed (h - extentSum layout (k + 1))

instance (layout : Nat → line_answer) (h : Int) (n : Nat) :
    Decidable (cursorInRange layout h n) := by
  unfold cursorInRange
  infer_instance

/-- The `ATSUDrawText` call expected for the line `k`, with `x` the
horizontal position and `h` the cursor before the first line: the line is
painted at the height left by the lines before it, less its own ascent. -/
def expectedDraw (layout : Nat → line_answer) (x h : Int) (k : Nat) : draw_call :=
  { i_start := lineStart layout k
    i_length := ((layout k).i_end + 4294967296 - lineStart layout k) % 4294967296
    x := x
    y := toFixed (cursorAfter layout h k - (layout k).ascent) }

/-- The state expected after `k` lines without error. -/
def stateAfter (layout : Nat → line_answer) (x h : Int) (k : Nat) : line_state :=
  { y := cursorAfter layout h k
    i_start := lineStart layout k
    draws := (List.range k).map (expectedDraw layout x h)
    i_requests := k }

/-- A request answered without error: success, or a break inside a word. -/
def lineOk (answer : line_answer) : Bool :=
  decide (answer.status = noErr ∨ answer.status = kATSULineBreakInWord)

/-- Fixed-point conversions with 16 fractional bits, `Fix2Long` rounding to
the nearest integer. -/
def fix16 : fixmath_t :=
  { Long2Fix := fun a => a * 65536
    Fix2Long := fun f => (f + 32768) / 65536 }

/-- A layout engine that breaks a text of 10 code units into two lines, at
offsets 6 and 10, each of ascent 12 and descent 4 (in fixed point), and
fails on any further request. -/
def twoLines : Nat → line_answer
  | 0 => { status := 0, i_end := 6, ascent := 786432, descent := 262144 }
  | 1 => { status := -8808, i_end := 10, ascent := 786432, descent := 262144 }
  | _ => { status := -1, i_end := 0, ascent := 0, descent := 0 }

/-! ## The render calls -/

/-- The macro `__MAX` of the VLC headers. -/
def __MAX (a b : Int) : Int :=
  if a > b then a else b

/-- The loop of `EliminateCRLF` on the characters of the string: a carriage
return directly followed by a line feed is removed, and the scan goes on
after that line feed. -/
def EliminateCRLFChars : List Char → List Char
  | [] => []
  | [c] => [c]
  | c :: d :: rest =>
    if c = '\r' ∧ d = '\n' then d :: EliminateCRLFChars rest
    else c :: EliminateCRLFChars (d :: rest)

/-- `EliminateCRLF` on a non-NULL string. -/
def EliminateCRLF (psz_string : String) : String :=
  ⟨EliminateCRLFChars psz_string.data⟩

/-- The fields of `subpicture_region_t` the render calls read and write: the
text, the markup, the style, the anchor, and the picture with the height of
its format (`none` while the region has no picture). -/
structure subpicture_region_t where
  psz_text : Option String
  psz_html : Option String
  p_style : Option text_style_t
  i_x : Int
  i_y : Int
  fmt_i_height : Int
  picture : Option picture_t

/-- The fields of `filter_t` the render calls read. -/
structure filter_t where
  p_sys : filter_sys_t
  i_visible_width : Nat
  i_visible_height : Nat

/-- What the calls a render call makes outside the sources give: the
environment of `Compose`, the region `spu_CreateRegion` allocates for a width
and a height (`none` for `NULL`), whether `CreateStyle` obtains a style,
whether `stream_MemoryNew`, `xml_Create`, `xml_ReaderCreate` and the `calloc`
of the text buffer succeed, and the nodes the reader delivers. -/
structure render_env where
  compose : compose_env
  spu_CreateRegion : Nat → Int → Option picture_t
  style_ok : Bool
  stream_ok : Bool
  xml_ok : Bool
  reader_ok : Bool
  text_ok : Bool
  nodes : List xml_node

/-- What a render call leaves: its return code, the output region, the text
and the runs it handed to `RenderYUVA` (`none` when it did not call it), and
what `RenderYUVA` gave. -/
structure render_result where
  code : Int
  p_region_out : Option subpicture_region_t
  psz_utf16_str : Option (List Nat)
  pi_run_lengths : List Nat
  pp_styles : List (Option ATSUStyle)
  yuva : Option yuva_result

/-- The assignments `p_region->fmt = ...; p_region->picture = ...` of
`RenderYUVA`, made when the region could be created. -/
def storePicture (p_region : subpicture_region_t) (r : yuva_result) : subpicture_region_t :=
  match r.picture with
  | some picture =>
    { p_region with
      fmt_i_height := r.i_textblock_height + (VERTICAL_MARGIN : Int) * 2
      picture := some picture }
  | none => p_region

/-- `RenderText`.  The alignment, which only the layout engine reads, is not
modelled; `none` means the line loop has not ended within `fuel`.  (The font
name handed to `CreateStyle` is the renderer's own, which is present.) -/
def RenderText (fix : fixmath_t) (env : render_env) (fuel : Nat) (p_filter : filter_t)
    (p_region_out p_region_in : Option subpicture_region_t) : Option render_result :=
  match p_region_in, p_region_out with
  | some region_in, some region_out =>
    match region_in.psz_text with
    | none =>
      some { code := VLC_EGENERIC, p_region_out := p_region_out, psz_utf16_str := none,
             pi_run_lengths := [], pp_styles := [], yuva := none }
    | some psz_string =>
      if psz_string.data = [] then
        some { code := VLC_EGENERIC, p_region_out := p_region_out, psz_utf16_str := none,
               pi_run_lengths := [], pp_styles := [], yuva := none }
      else
        let i_font_color :=
          match region_in.p_style with
          | some style => __MAX (__MIN style.i_font_color 16777215) 0
          | none => p_filter.p_sys.i_font_color
        let i_font_alpha :=
          match region_in.p_style with
          | some style => __MAX (__MIN style.i_font_alpha 255) 0
          | none => 255 - (p_filter.p_sys.i_font_opacity : Int)
        let i_font_size :=
          match region_in.p_style with
          | some style => __MAX (__MIN style.i_font_size 255) 0
          | none => p_filter.p_sys.i_font_size
        let i_font_alpha :=
          if i_font_alpha = 0 then 255 - (p_filter.p_sys.i_font_opacity : Int)
          else i_font_alpha
        let converted := ConvertToUTF16 (EliminateCRLF psz_string)
        let region_out := { region_out with i_x := region_in.i_x, i_y := region_in.i_y }
        let p_style :=
          if env.style_ok then
            CreateStyle (some p_filter.p_sys.psz_font_name) i_font_size i_font_color
              i_font_alpha false false false
          else some none
        match p_style with
        | none => none
        | some (some style) =>
          match RenderYUVA fix env.compose env.spu_CreateRegion fuel
              p_filter.i_visible_width p_filter.i_visible_height converted.1 with
          | none => none
          | some r =>
            some { code := VLC_SUCCESS
                   p_region_out := some (storePicture region_out r)
                   psz_utf16_str := some converted.2
                   pi_run_lengths := [converted.1]
                   pp_styles := [some style]
                   yuva := some r }
        | some none =>
          some { code := VLC_SUCCESS, p_region_out := some region_out,
                 psz_utf16_str := none, pi_run_lengths := [], pp_styles := [],
                 yuva := none }
  | _, _ =>
    some { code := VLC_EGENERIC, p_region_out := p_region_out, psz_utf16_str := none,
           pi_run_lengths := [], pp_styles := [], yuva := none }

/-- `RenderHtml` with a non-NULL output region (the function dereferences it
without a test).  `none` means that `ProcessNodes` does not return or that
the line loop has not ended within `fuel`. -/
def RenderHtml (fix : fixmath_t) (env : render_env) (fuel : Nat) (p_filter : filter_t)
    (p_region_out : subpicture_region_t) (p_region_in : Option subpicture_region_t) :
    Option render_result :=
  let rv := VLC_SUCCESS
  match p_region_in with
  | none =>
    some { code := VLC_EGENERIC, p_region_out := some p_region_out, psz_utf16_str := none,
           pi_run_lengths := [], pp_styles := [], yuva := none }
  | some region_in =>
    match region_in.psz_html with
    | none =>
      some { code := VLC_EGENERIC, p_region_out := some p_region_out,
             psz_utf16_str := none, pi_run_lengths := [], pp_styles := [], yuva := none }
    | some _ =>
      if env.stream_ok && env.xml_ok && env.reader_ok && env.text_ok then
        match ProcessNodes p_filter.p_sys region_in.p_style env.nodes with
        | none => none
        | some processed =>
          let region_out := { p_region_out with i_x := region_in.i_x, i_y := region_in.i_y }
          match RenderYUVA fix env.compose env.spu_CreateRegion fuel
              p_filter.i_visible_width p_filter.i_visible_height processed.pi_len.toNat with
          | none => none
          | some r =>
            some { code := rv
                   p_region_out := some (storePicture region_out r)
                   psz_utf16_str := some processed.psz_text
                   pi_run_lengths := processed.pi_run_lengths
                   pp_styles := processed.pp_styles
                   yuva := some r }
      else
        some { code := rv, p_region_out := some p_region_out, psz_utf16_str := none,
               pi_run_lengths := [], pp_styles := [], yuva := none }

/-- A layout engine whose second request fails, after a first line of ascent
12 and descent 4 (in fixed point) that ends at offset 6 of 10. -/
def secondFails : Nat → line_answer
  | 0 => { status := 0, i_end := 6, ascent := 786432, descent := 262144 }
  | _ => { status := -1, i_end := 0, ascent := 0, descent := 0 }

/-- An environment of `Compose` in which the context and the layout are
obtained, with the given layout engine and a raster of zero bytes. -/
def envOf (layout : Nat → line_answer) : compose_env :=
  { context_ok := true, layout_status := 0, layout := layout, p_data := fun _ => 0 }

/-- A region allocator that gives, for every size, a picture of zero bytes
whose four strides are the width. -/
def allocZero (i_width : Nat) (_i_height : Int) : Option picture_t :=
  some (filledPicture 0 i_width i_width i_width i_width)

/-- An environment of a render call in which every outside call succeeds,
with the given layout engine and the given nodes. -/
def renderEnvOf (layout : Nat → line_answer) (nodes : List xml_node) : render_env :=
  { compose := envOf layout, spu_CreateRegion := allocZero, style_ok := true,
    stream_ok := true, xml_ok := true, reader_ok := true, text_ok := true, nodes := nodes }

/-- A filter for a video of 320 by 240 with the configuration `sys20`. -/
def filter320 : filter_t :=
  { p_sys := sys20, i_visible_width := 320, i_visible_height := 240 }

/-- A region without text, markup, style or picture, anchored at the origin. -/
def emptyRegion : subpicture_region_t :=
  { psz_text := none, psz_html := none, p_style := none, i_x := 0, i_y := 0,
    fmt_i_height := 0, picture := none }

/-- A region whose text is the empty string. -/
def emptyTextRegion : subpicture_region_t :=
  { emptyRegion with psz_text := some "" }

/-- A region whose markup is the empty string. -/
def emptyHtmlRegion : subpicture_region_t :=
  { emptyRegion with psz_html := some "" }

/-- A region whose text is `Hello`, a carriage return, a line feed, `World`. -/
def helloRegion : subpicture_region_t :=
  { emptyRegion with psz_text := some "Hello\r\nWorld" }

/-- A region allocator that finds no memory: `spu_CreateRegion` gives `NULL`. -/
def allocNone (_i_width : Nat) (_i_height : Int) : Option picture_t :=
  none

/-- An environment of a render call in which the region cannot be allocated
and every other outside call succeeds. -/
def envNoRegion (layout : Nat → line_answer) (nodes : List xml_node) : render_env :=
  { renderEnvOf layout nodes with spu_CreateRegion := allocNone }

/-- An environment of a render call in which `CreateStyle` obtains no style
and every other outside call succeeds. -/
def envNoStyle (layout : Nat → line_answer) (nodes : List xml_node) : render_env :=
  { renderEnvOf layout nodes with style_ok := false }

/-- A region whose text and whose markup are the single letter `x`. -/
def xRegion : subpicture_region_t :=
  { emptyRegion with psz_text := some "x", psz_html := some "x" }

/-- The string with the carriage return of every carriage return that is
immediately followed by a line feed deleted, and every other character kept
in its place. -/
def dropCRBeforeLF : List Char → List Char
  | [] => []
  | c :: rest =>
    if c = '\r' ∧ rest.head? = some '\n' then dropCRBeforeLF rest
    else c :: dropCRBeforeLF rest

/-- Number of carriage returns of a string that are immediately followed by
a line feed. -/
def countCRLF : List Char → Nat
  | [] => 0
  | c :: rest =>
    (if c = '\r' ∧ rest.head? = some '\n' then 1 else 0) + countCRLF rest

/-- A layout engine that puts any text of up to 100 code units on one line
of ascent 12 and descent 4 (in fixed point). -/
def oneLine (_k : Nat) : line_answer :=
  { status := 0, i_end := 100, ascent := 786432, descent := 262144 }

/-- The string contains a carriage return immediately followed by a line
feed. -/
def hasCRLF : List Char → Bool
  | [] => false
  | c :: rest => decide (c = '\r' ∧ rest.head? = some '\n') || hasCRLF rest

/-- The string contains two carriage returns in a row immediately followed
by a line feed. -/
def hasCRCRLF : List Char → Bool
  | [] => false
  | c :: rest =>
    decide (c = '\r' ∧ rest.head? = some '\r' ∧ rest.tail.head? = some '\n') ||
      hasCRCRLF rest

/-- What an event does to the flag of the element `key` (`b`, `i` or `u`):
a start event of that element sets it, an end event of that element clears
it, any other event says nothing. -/
def flagEvent (key : String) : xml_node → Option Bool
  | xml_node.XML_READER_STARTELEM (some psz_node) _ =>
    if strcasecmp key psz_node = 0 then some true else none
  | xml_node.XML_READER_ENDELEM (some psz_node) =>
    if strcasecmp key psz_node = 0 then some false else none
  | _ => none

/-- The most recent start-or-end event of the element `key` in a sequence:
`some true` when it is a start event, `some false` when it is an end event,
`none` when the sequence has no such event. -/
def lastFlagEvent (key : String) (nodes : List xml_node) : Option Bool :=
  (nodes.filterMap (flagEvent key)).getLast?

/-- The bold, italic and underline flags of a style. -/
def styleFlags (style : Option ATSUStyle) : Option (Bool × Bool × Bool) :=
  style.map fun s => (s.b_bold, s.b_italic, s.b_uline)

/-- The events of `<b><b>x</b>y</b>`. -/
def nodesNestedBold : List xml_node :=
  [xml_node.XML_READER_STARTELEM (some "b") [],
   xml_node.XML_READER_STARTELEM (some "b") [],
   xml_node.XML_READER_TEXT (some "x"),
   xml_node.XML_READER_ENDELEM (some "b"),
   xml_node.XML_READER_TEXT (some "y"),
   xml_node.XML_READER_ENDELEM (some "b")]

/-- A layout engine that puts one code unit on each line, every line of
ascent 12 and descent 4 (in fixed point): a text of `n` code units takes `n`
lines of 16 rows. -/
def manyLines (k : Nat) : line_answer :=
  { status := 0, i_end := k + 1, ascent := 786432, descent := 262144 }

/-- A caller's style without a font name (`psz_fontname` is `NULL`), as the
default text style of `vlc_osd.h` is: size 22, white, alpha 255, no flag. -/
def styleNoName : text_style_t :=
  { psz_fontname := none, i_font_size := 22, i_font_color := 16777215,
    i_font_alpha := 255, i_style_flags := 0 }

/-- The events of `</font><font size="12">x`: a stray `font` end event, a
`font` start event without `face`, then text. -/
def nodesReopened : List xml_node :=
  [xml_node.XML_READER_ENDELEM (some "font"),
   xml_node.XML_READER_STARTELEM (some "font") [(some "size", some "12")],
   xml_node.XML_READER_TEXT (some "x")]

/-- The events of `<font size="12"></font>`. -/
def nodesFontPair : List xml_node :=
  [xml_node.XML_READER_STARTELEM (some "font") [(some "size", some "12")],
   xml_node.XML_READER_ENDELEM (some "font")]

/-- The events of `</font><b>x`: a stray `font` end event, a `b` start event,
then text. -/
def nodesStrayBold : List xml_node :=
  [xml_node.XML_READER_ENDELEM (some "font"),
   xml_node.XML_READER_STARTELEM (some "b") [],
   xml_node.XML_READER_TEXT (some "x")]

/-- An event that emits a run: a text event with a payload, or a `br` start
event. -/
def emitsRun : xml_node → Bool
  | xml_node.XML_READER_TEXT (some _) => true
  | node => isBrStart node

/-- A layout engine that puts one code unit on each line, every line of
ascent 4000 (in fixed point) and descent 0: a text of 9 code units takes
36000 rows. -/
def tallLines (k : Nat) : line_answer :=
  { status := 0, i_end := k + 1, ascent := 262144000, descent := 0 }

/-! ## Name comparison -/

theorem strcasecmpChars_cons {a : Char} {as n : List Char}
    (h : strcasecmpChars (a :: as) n = 0) (ha : tolower a ≠ 0) :
    ∃ c cs, n = c :: cs ∧ tolower c = tolower a ∧ strcasecmpChars as cs = 0 := by
  cases n with
  | nil => exact absurd (by simpa [strcasecmpChars] using h) ha
  | cons c cs =>
    refine ⟨c, cs, rfl, ?_⟩
    by_cases hac : tolower a = tolower c
    · refine ⟨hac.symm, ?_⟩
      simpa [strcasecmpChars, hac] using h
    · simp only [strcasecmpChars, hac, if_false] at h
      exact absurd (by omega) hac

theorem strcasecmpChars_nil {n : List Char} (h : strcasecmpChars [] n = 0) :
    n = [] ∨ ∃ c cs, n = c :: cs ∧ tolower c = 0 := by
  cases n with
  | nil => exact Or.inl rfl
  | cons c cs =>
    refine Or.inr ⟨c, cs, rfl, ?_⟩
    simp only [strcasecmpChars] at h
    omega

/-- A name that `strcasecmp` equates with `br` is equated with none of
`font`, `b`, `i`, `u`. -/
theorem br_name_only {n : String} (h : strcasecmp "br" n = 0) :
    strcasecmp "font" n ≠ 0 ∧ strcasecmp "b" n ≠ 0 ∧ strcasecmp "i" n ≠ 0 ∧
      strcasecmp "u" n ≠ 0 := by
  have hbr : strcasecmpChars ['b', 'r'] n.data = 0 := h
  obtain ⟨c, cs, hn, hc, hrest⟩ := strcasecmpChars_cons hbr (by decide)
  obtain ⟨d, ds, hcs, hd, _⟩ := strcasecmpChars_cons hrest (by decide)
  have hb : tolower 'b' = 98 := by decide
  have hr : tolower 'r' = 114 := by decide
  refine ⟨?_, ?_, ?_, ?_⟩
  · intro hf
    have hf2 : strcasecmpChars ['f', 'o', 'n', 't'] n.data = 0 := hf
    obtain ⟨c2, cs2, hn2, hc2, _⟩ := strcasecmpChars_cons hf2 (by decide)
    have hf3 : tolower 'f' = 102 := by decide
    rw [hn] at hn2
    cases hn2
    omega
  · intro hf
    have hf2 : strcasecmpChars ['b'] n.data = 0 := hf
    obtain ⟨c2, cs2, hn2, _, hnil⟩ := strcasecmpChars_cons hf2 (by decide)
    rw [hn] at hn2
    cases hn2
    rcases strcasecmpChars_nil hnil with h0 | ⟨e, es, he, he0⟩
    · rw [hcs] at h0
      cases h0
    · rw [hcs] at he
      cases he
      omega
  · intro hf
    have hf2 : strcasecmpChars ['i'] n.data = 0 := hf
    obtain ⟨c2, cs2, hn2, hc2, _⟩ := strcasecmpChars_cons hf2 (by decide)
    have hf3 : tolower 'i' = 105 := by decide
    rw [hn] at hn2
    cases hn2
    omega
  · intro hf
    have hf2 : strcasecmpChars ['u'] n.data = 0 := hf
    obtain ⟨c2, cs2, hn2, hc2, _⟩ := strcasecmpChars_cons hf2 (by decide)
    have hf3 : tolower 'u' = 117 := by decide
    rw [hn] at hn2
    cases hn2
    omega

/-! ## The font stack as a list -/

theorem linkLast_eq (p_new : font_stack_t) (s : FontStack) : linkLast p_new s = s ++ [p_new] := by
  induction s with
  | nil => rfl
  | cons a t ih => simp [linkLast, ih]

theorem unlinkLast_eq (s : FontStack) : unlinkLast s = s.dropLast := by
  induction s with
  | nil => rfl
  | cons a t ih =>
    cases t with
    | nil => rfl
    | cons b r => simp [unlinkLast, ih]

theorem lastNode_eq (s : FontStack) : lastNode s = s.getLast? := by
  induction s with
  | nil => rfl
  | cons a t ih =>
    cases t with
    | nil => rfl
    | cons b r => simpa [lastNode, List.getLast?_cons_cons] using ih

theorem PushFont_snd (s : FontStack) (n : Option String) (a b c : Int) :
    (PushFont s n a b c).2 = s ++ [⟨n, a, b, c⟩] := by
  simp [PushFont, linkLast_eq]

theorem PopFont_snd (s : FontStack) : (PopFont s).2 = s.dropLast := by
  cases s with
  | nil => rfl
  | cons a t => simp [PopFont, unlinkLast_eq]

theorem PopFont_fst (s : FontStack) :
    (PopFont s).1 = if s = [] then VLC_EGENERIC else VLC_SUCCESS := by
  cases s with
  | nil => rfl
  | cons a t => simp [PopFont]

/-! ## Effect of one event on the runs -/

theorem utf16Encode_length (cs : List Char) :
    (utf16Encode cs).length = (cs.map fun c => if c.toNat < 65536 then 1 else 2).sum := by
  induction cs with
  | nil => rfl
  | cons c t ih =>
    simp only [utf16Encode, List.length_append, List.map_cons, List.sum_cons, ih, utf16Units]
    split <;> simp

theorem ConvertToUTF16_fst (s : String) : (ConvertToUTF16 s).1 = utf16Length s := by
  simp [ConvertToUTF16, utf16Length, utf16Encode_length]

theorem ConvertToUTF16_snd_length (s : String) :
    (ConvertToUTF16 s).2.length = utf16Length s := by
  simp [ConvertToUTF16, utf16Length, utf16Encode_length]

theorem ConvertToUTF16_newline : ConvertToUTF16 "\n" = (1, [10]) := by decide

theorem nodeEffect_br (p_sys : filter_sys_t) (st : run_state) (n : String)
    (attrs : List (Option String × Option String)) (h : strcasecmp "br" n = 0) :
    nodeEffect p_sys st (xml_node.XML_READER_STARTELEM (some n) attrs) =
      appendedRun p_sys st "\n" := by
  obtain ⟨h1, h2, h3, h4⟩ := br_name_only h
  simp [nodeEffect, h, h1, h2, h3, h4]

/-- An event that is neither a text event with a payload nor a `br` start
event leaves the text buffer, the run count and both arrays as they are. -/
theorem nodeEffect_no_run (p_sys : filter_sys_t) (st : run_state) (node : xml_node)
    (hbr : isBrStart node = false)
    (htext : ∀ s, node ≠ xml_node.XML_READER_TEXT (some s)) :
    (nodeEffect p_sys st node).psz_text = st.psz_text ∧
    (nodeEffect p_sys st node).pi_runs = st.pi_runs ∧
    (nodeEffect p_sys st node).pi_run_lengths = st.pi_run_lengths ∧
    (nodeEffect p_sys st node).pp_styles = st.pp_styles := by
  cases node with
  | XML_READER_NONE => simp [nodeEffect]
  | XML_READER_STARTELEM name attrs =>
    cases name with
    | none => simp [nodeEffect]
    | some n =>
      have hn : strcasecmp "br" n ≠ 0 := by simpa [isBrStart] using hbr
      simp only [nodeEffect]
      split_ifs <;> simp
  | XML_READER_ENDELEM name =>
    cases name with
    | none => simp [nodeEffect]
    | some n =>
      simp only [nodeEffect]
      split_ifs <;> simp
  | XML_READER_TEXT value =>
    cases value with
    | none => simp [nodeEffect]
    | some v => exact absurd rfl (htext v)

/-- Growth of the text buffer and of the run lengths by one event. -/
theorem nodeEffect_length (p_sys : filter_sys_t) (st : run_state) (node : xml_node) :
    (nodeEffect p_sys st node).psz_text.length = st.psz_text.length + nodeLength node ∧
    (nodeEffect p_sys st node).pi_run_lengths.sum =
      st.pi_run_lengths.sum + nodeLength node := by
  by_cases hbr : isBrStart node = true
  · cases node with
    | XML_READER_STARTELEM name attrs =>
      cases name with
      | none => simp [isBrStart] at hbr
      | some n =>
        have hn : strcasecmp "br" n = 0 := by simpa [isBrStart] using hbr
        rw [nodeEffect_br p_sys st n attrs hn]
        simp [appendedRun, ConvertToUTF16_newline, nodeLength, isBrStart, hn]
    | XML_READER_NONE => simp [isBrStart] at hbr
    | XML_READER_ENDELEM name => simp [isBrStart] at hbr
    | XML_READER_TEXT value => simp [isBrStart] at hbr
  · have hbr2 : isBrStart node = false := by simpa using hbr
    by_cases htext : ∃ s, node = xml_node.XML_READER_TEXT (some s)
    · obtain ⟨s, rfl⟩ := htext
      simp [nodeEffect, appendedRun, nodeLength, ConvertToUTF16_fst, ConvertToUTF16_snd_length]
    · have htext2 : ∀ s, node ≠ xml_node.XML_READER_TEXT (some s) :=
        fun s hs => htext ⟨s, hs⟩
      obtain ⟨h1, _, h3, _⟩ := nodeEffect_no_run p_sys st node hbr2 htext2
      have hlen : nodeLength node = 0 := by
        cases node with
        | XML_READER_TEXT value =>
          cases value with
          | none => simp [nodeLength, isBrStart]
          | some v => exact absurd rfl (htext2 v)
        | XML_READER_NONE => simp [nodeLength, isBrStart]
        | XML_READER_ENDELEM name => simp [nodeLength, isBrStart]
        | XML_READER_STARTELEM name attrs => simp [nodeLength, hbr2]
      rw [h1, h3, hlen]
      simp

theorem nodesEffect_length (p_sys : filter_sys_t) (nodes : List xml_node) (st : run_state) :
    (nodesEffect p_sys st nodes).psz_text.length =
      st.psz_text.length + logicalLength nodes ∧
    (nodesEffect p_sys st nodes).pi_run_lengths.sum =
      st.pi_run_lengths.sum + logicalLength nodes := by
  induction nodes generalizing st with
  | nil => simp [nodesEffect, logicalLength]
  | cons node rest ih =>
    obtain ⟨h1, h2⟩ := ih (nodeEffect p_sys st node)
    obtain ⟨g1, g2⟩ := nodeEffect_length p_sys st node
    simp only [nodesEffect, logicalLength, List.map_cons, List.sum_cons] at h1 h2 ⊢
    omega

theorem initialState_runs (p_sys : filter_sys_t) (p_font_style : Option text_style_t) :
    (initialState p_sys p_font_style).psz_text = [] ∧
    (initialState p_sys p_font_style).pi_runs = 0 ∧
    (initialState p_sys p_font_style).pi_run_lengths = [] ∧
    (initialState p_sys p_font_style).pp_styles = [] := by
  cases p_font_style <;> simp [initialState]

/-! ## The reported length -/

/-- When `ProcessNodes` returns, the length it reports is the sum of the run
lengths, which is the logical length of the sequence. -/
theorem traversalEffect_length (p_sys : filter_sys_t)
    (p_font_style : Option text_style_t) (nodes : List xml_node) :
    (traversalEffect p_sys p_font_style nodes).pi_len =
      ((traversalEffect p_sys p_font_style nodes).pi_run_lengths.sum : Int) ∧
    (traversalEffect p_sys p_font_style nodes).pi_run_lengths.sum = logicalLength nodes ∧
    (traversalEffect p_sys p_font_style nodes).psz_text.length = logicalLength nodes := by
  obtain ⟨h1, h2⟩ := nodesEffect_length p_sys nodes (initialState p_sys p_font_style)
  obtain ⟨i1, _, i3, _⟩ := initialState_runs p_sys p_font_style
  rw [i1] at h1
  rw [i3] at h2
  simp only [traversalEffect, List.length_nil, List.sum_nil, Nat.zero_add] at h1 h2 ⊢
  refine ⟨?_, h2, h1⟩
  rw [h1, h2]

/-! ## Effect of one event on the font stack -/

theorem nodeEffect_fontStart (p_sys : filter_sys_t) (st : run_state) (n : String)
    (attrs : List (Option String × Option String)) (h : strcasecmp "font" n = 0) :
    nodeEffect p_sys st (xml_node.XML_READER_STARTELEM (some n) attrs) =
      { st with p_fonts := st.p_fonts ++ [pushedLocals st.p_fonts attrs] } := by
  simp [nodeEffect, h, PushFont_snd]

theorem nodeEffect_fontEnd (p_sys : filter_sys_t) (st : run_state) (n : String)
    (h : strcasecmp "font" n = 0) :
    nodeEffect p_sys st (xml_node.XML_READER_ENDELEM (some n)) =
      { st with p_fonts := st.p_fonts.dropLast } := by
  simp [nodeEffect, h, PopFont_snd]

/-- Only `font` start and end events change the font stack. -/
theorem nodeEffect_stack_other (p_sys : filter_sys_t) (st : run_state) (node : xml_node)
    (hs : isFontStart node = false) (he : isFontEnd node = false) :
    (nodeEffect p_sys st node).p_fonts = st.p_fonts := by
  cases node with
  | XML_READER_NONE => simp [nodeEffect]
  | XML_READER_STARTELEM name attrs =>
    cases name with
    | none => simp [nodeEffect]
    | some n =>
      have hn : strcasecmp "font" n ≠ 0 := by simpa [isFontStart] using hs
      simp only [nodeEffect, hn, if_false]
      split_ifs <;> simp [appendedRun]
  | XML_READER_ENDELEM name =>
    cases name with
    | none => simp [nodeEffect]
    | some n =>
      have hn : strcasecmp "font" n ≠ 0 := by simpa [isFontEnd] using he
      simp only [nodeEffect, hn, if_false]
      split_ifs <;> simp
  | XML_READER_TEXT value =>
    cases value with
    | none => simp [nodeEffect]
    | some v => simp [nodeEffect, appendedRun]

theorem nodeEffect_stack_start (p_sys : filter_sys_t) (st : run_state) (node : xml_node)
    (hs : isFontStart node = true) :
    ∃ e, (nodeEffect p_sys st node).p_fonts = st.p_fonts ++ [e] := by
  cases node with
  | XML_READER_STARTELEM name attrs =>
    cases name with
    | none => simp [isFontStart] at hs
    | some n =>
      have hn : strcasecmp "font" n = 0 := by simpa [isFontStart] using hs
      exact ⟨pushedLocals st.p_fonts attrs, by rw [nodeEffect_fontStart p_sys st n attrs hn]⟩
  | XML_READER_NONE => simp [isFontStart] at hs
  | XML_READER_ENDELEM name => simp [isFontStart] at hs
  | XML_READER_TEXT value => simp [isFontStart] at hs

theorem nodeEffect_stack_end (p_sys : filter_sys_t) (st : run_state) (node : xml_node)
    (he : isFontEnd node = true) :
    (nodeEffect p_sys st node).p_fonts = st.p_fonts.dropLast := by
  cases node with
  | XML_READER_ENDELEM name =>
    cases name with
    | none => simp [isFontEnd] at he
    | some n =>
      have hn : strcasecmp "font" n = 0 := by simpa [isFontEnd] using he
      rw [nodeEffect_fontEnd p_sys st n hn]
  | XML_READER_NONE => simp [isFontEnd] at he
  | XML_READER_STARTELEM name attrs => simp [isFontEnd] at he
  | XML_READER_TEXT value => simp [isFontEnd] at he

/-- A sequence that is properly nested when read at depth `extra.length`
removes exactly the `extra.length` topmost entries. -/
theorem nodesEffect_balanced (p_sys : filter_sys_t) (nodes : List xml_node) :
    ∀ (st : run_state) (base extra : FontStack), st.p_fonts = base ++ extra →
      fontBalanced extra.length nodes = true →
      (nodesEffect p_sys st nodes).p_fonts = base := by
  induction nodes with
  | nil =>
    intro st base extra hst hbal
    have hlen : extra.length = 0 := by simpa [fontBalanced] using hbal
    have hnil : extra = [] := List.length_eq_zero.mp hlen
    simp [nodesEffect, hst, hnil]
  | cons node rest ih =>
    intro st base extra hst hbal
    simp only [nodesEffect]
    by_cases hs : isFontStart node = true
    · obtain ⟨e, hpush⟩ := nodeEffect_stack_start p_sys st node hs
      apply ih (nodeEffect p_sys st node) base (extra ++ [e])
      · rw [hpush, hst, List.append_assoc]
      · simpa [fontBalanced, hs] using hbal
    · have hs2 : isFontStart node = false := by simpa using hs
      by_cases he : isFontEnd node = true
      · have hpop := nodeEffect_stack_end p_sys st node he
        cases hx : extra.length with
        | zero => simp [fontBalanced, hs2, he, hx] at hbal
        | succ d =>
          have hne : extra ≠ [] := by
            intro hnil
            simp [hnil] at hx
          apply ih (nodeEffect p_sys st node) base extra.dropLast
          · rw [hpop, hst, List.dropLast_append_of_ne_nil _ hne]
          · have hd : extra.dropLast.length = d := by
              rw [List.length_dropLast, hx]
              rfl
            rw [hd]
            simpa [fontBalanced, hs2, he, hx] using hbal
      · have he2 : isFontEnd node = false := by simpa using he
        apply ih (nodeEffect p_sys st node) base extra
        · rw [nodeEffect_stack_other p_sys st node hs2 he2, hst]
        · simpa [fontBalanced, hs2, he2] using hbal

theorem nodeEffect_text (p_sys : filter_sys_t) (st : run_state) (t : String) :
    nodeEffect p_sys st (xml_node.XML_READER_TEXT (some t)) = appendedRun p_sys st t := rfl

theorem lastRunFont_appendRun (p_sys : filter_sys_t) (st : run_state) (t : String) :
    lastRunFont (appendedRun p_sys st t) =
      some (resolvedFont
        (resolvedStyle p_sys st.p_fonts st.b_bold st.b_italic st.b_uline)) := by
  simp [lastRunFont, appendedRun]

theorem resolvedFont_resolvedStyle (p_sys : filter_sys_t) (s : FontStack) (b i u : Bool) :
    resolvedFont (resolvedStyle p_sys s b i u) = lastNode s := by
  unfold resolvedStyle
  cases h : lastNode s <;> simp [resolvedFont]

/-- A properly nested sequence of `font` events, when every turn returns,
leaves the font stack as it found it. -/
theorem nodesEffect_balanced_restores (p_sys : filter_sys_t) (st : run_state)
    (nodes : List xml_node) (h : fontBalanced 0 nodes = true) :
    (nodesEffect p_sys st nodes).p_fonts = st.p_fonts ∧
    (∀ t : String,
      lastRunFont (nodeEffect p_sys (nodesEffect p_sys st nodes)
          (xml_node.XML_READER_TEXT (some t))) =
        lastRunFont (nodeEffect p_sys st (xml_node.XML_READER_TEXT (some t)))) ∧
    (traversalEffect sys20 (some style20) nodesABC).pi_run_lengths = [1, 1, 1] ∧
    (traversalEffect sys20 (some style20) nodesABC).psz_text = [65, 66, 67] ∧
    (traversalEffect sys20 (some style20) nodesABC).pp_styles.map resolvedFont =
      [some ⟨some "Arial", 20, 16777215, 0⟩, some ⟨some "Arial", 20, 16711680, 0⟩,
       some ⟨some "Arial", 20, 16777215, 0⟩] := by
  have hstack : (nodesEffect p_sys st nodes).p_fonts = st.p_fonts :=
    nodesEffect_balanced p_sys nodes st st.p_fonts [] (by simp) h
  refine ⟨hstack, ?_, by decide, by decide, by decide⟩
  intro t
  rw [nodeEffect_text, nodeEffect_text, lastRunFont_appendRun, lastRunFont_appendRun,
    resolvedFont_resolvedStyle, resolvedFont_resolvedStyle, hstack]

/-! ## The attribute loop of a `font` start element -/

theorem strcasecmpChars_first {a b : Char} {as bs n : List Char}
    (ha : tolower a ≠ 0) (hb : tolower b ≠ 0) (hab : tolower a ≠ tolower b)
    (h : strcasecmpChars (a :: as) n = 0) : strcasecmpChars (b :: bs) n ≠ 0 := by
  intro h2
  obtain ⟨c, cs, hn, hc, _⟩ := strcasecmpChars_cons h ha
  obtain ⟨c2, cs2, hn2, hc2, _⟩ := strcasecmpChars_cons h2 hb
  rw [hn] at hn2
  cases hn2
  exact hab (hc.symm.trans hc2)

/-- The four attribute names exclude each other. -/
theorem attr_names_exclusive (n : String) :
    (strcasecmp "face" n = 0 →
      strcasecmp "size" n ≠ 0 ∧ strcasecmp "color" n ≠ 0 ∧ strcasecmp "alpha" n ≠ 0) ∧
    (strcasecmp "size" n = 0 →
      strcasecmp "face" n ≠ 0 ∧ strcasecmp "color" n ≠ 0 ∧ strcasecmp "alpha" n ≠ 0) ∧
    (strcasecmp "color" n = 0 →
      strcasecmp "face" n ≠ 0 ∧ strcasecmp "size" n ≠ 0 ∧ strcasecmp "alpha" n ≠ 0) ∧
    (strcasecmp "alpha" n = 0 →
      strcasecmp "face" n ≠ 0 ∧ strcasecmp "size" n ≠ 0 ∧ strcasecmp "color" n ≠ 0) := by
  have hf : tolower 'f' = 102 := by decide
  have hs : tolower 's' = 115 := by decide
  have hc : tolower 'c' = 99 := by decide
  have ha : tolower 'a' = 97 := by decide
  have key : ∀ (a b : Char) (as bs : List Char), tolower a ≠ 0 → tolower b ≠ 0 →
      tolower a ≠ tolower b → strcasecmpChars (a :: as) n.data = 0 →
      strcasecmpChars (b :: bs) n.data ≠ 0 :=
    fun a b as bs h1 h2 h3 h4 => strcasecmpChars_first h1 h2 h3 h4
  refine ⟨fun h => ⟨?_, ?_, ?_⟩, fun h => ⟨?_, ?_, ?_⟩, fun h => ⟨?_, ?_, ?_⟩,
    fun h => ⟨?_, ?_, ?_⟩⟩
  · exact key 'f' 's' ['a', 'c', 'e'] ['i', 'z', 'e'] (by omega) (by omega) (by omega) h
  · exact key 'f' 'c' ['a', 'c', 'e'] ['o', 'l', 'o', 'r'] (by omega) (by omega) (by omega) h
  · exact key 'f' 'a' ['a', 'c', 'e'] ['l', 'p', 'h', 'a'] (by omega) (by omega) (by omega) h
  · exact key 's' 'f' ['i', 'z', 'e'] ['a', 'c', 'e'] (by omega) (by omega) (by omega) h
  · exact key 's' 'c' ['i', 'z', 'e'] ['o', 'l', 'o', 'r'] (by omega) (by omega) (by omega) h
  · exact key 's' 'a' ['i', 'z', 'e'] ['l', 'p', 'h', 'a'] (by omega) (by omega) (by omega) h
  · exact key 'c' 'f' ['o', 'l', 'o', 'r'] ['a', 'c', 'e'] (by omega) (by omega) (by omega) h
  · exact key 'c' 's' ['o', 'l', 'o', 'r'] ['i', 'z', 'e'] (by omega) (by omega) (by omega) h
  · exact key 'c' 'a' ['o', 'l', 'o', 'r'] ['l', 'p', 'h', 'a'] (by omega) (by omega) (by omega) h
  · exact key 'a' 'f' ['l', 'p', 'h', 'a'] ['a', 'c', 'e'] (by omega) (by omega) (by omega) h
  · exact key 'a' 's' ['l', 'p', 'h', 'a'] ['i', 'z', 'e'] (by omega) (by omega) (by omega) h
  · exact key 'a' 'c' ['l', 'p', 'h', 'a'] ['o', 'l', 'o', 'r'] (by omega) (by omega) (by omega) h

/-- One turn of the attribute loop, field by field, in terms of what the
attribute specifies. -/
theorem fontAttribute_fields (l : font_stack_t) (attr : Option String × Option String) :
    (fontAttribute l attr).psz_name =
      ((attrValue "face" false attr).map some).getD l.psz_name ∧
    (fontAttribute l attr).i_size =
      ((attrValue "size" false attr).map atoi).getD l.i_size ∧
    (fontAttribute l attr).i_color =
      ((attrValue "color" true attr).map
        fun v => strtol (v.data.drop 1) 16 % 16777216).getD l.i_color ∧
    (fontAttribute l attr).i_alpha =
      ((attrValue "alpha" true attr).map
        fun v => strtol (v.data.drop 1) 16 % 256).getD l.i_alpha := by
  obtain ⟨name, value⟩ := attr
  cases name with
  | none => simp [fontAttribute, attrValue]
  | some n =>
    cases value with
    | none => simp [fontAttribute, attrValue]
    | some v =>
      obtain ⟨e1, e2, e3, e4⟩ := attr_names_exclusive n
      by_cases hface : strcasecmp "face" n = 0
      · obtain ⟨x1, x2, x3⟩ := e1 hface
        simp [fontAttribute, attrValue, hface, x1, x2, x3]
      · by_cases hsize : strcasecmp "size" n = 0
        · obtain ⟨x1, x2, x3⟩ := e2 hsize
          simp [fontAttribute, attrValue, hsize, x1, x2, x3]
        · by_cases hcolor : strcasecmp "color" n = 0
          · obtain ⟨x1, x2, x3⟩ := e3 hcolor
            by_cases hhash : v.data.head? = some '#'
            · simp [fontAttribute, attrValue, hcolor, x1, x2, x3, hhash]
            · simp [fontAttribute, attrValue, hcolor, x1, x2, x3, hhash]
          · by_cases halpha : strcasecmp "alpha" n = 0
            · by_cases hhash : v.data.head? = some '#'
              · simp [fontAttribute, attrValue, hface, hsize, hcolor, halpha, hhash]
              · simp [fontAttribute, attrValue, hface, hsize, hcolor, halpha, hhash]
            · simp [fontAttribute, attrValue, hface, hsize, hcolor, halpha]

theorem lastAttr_nil (key : String) (hash : Bool) : lastAttr key hash [] = none := rfl

theorem lastAttr_concat (key : String) (hash : Bool)
    (attrs : List (Option String × Option String)) (attr : Option String × Option String) :
    lastAttr key hash (attrs ++ [attr]) =
      match attrValue key hash attr with
      | some v => some v
      | none => lastAttr key hash attrs := by
  unfold lastAttr
  rw [List.filterMap_append]
  cases h : attrValue key hash attr with
  | none => simp [List.filterMap, h]
  | some v => simp [List.filterMap, h]

/-- The attribute loop, field by field: each field is what the last
attribute specifying it gives, or the value the loop started from. -/
theorem fontAttribute_foldl (attrs : List (Option String × Option String))
    (l : font_stack_t) :
    (attrs.foldl fontAttribute l).psz_name =
      ((lastAttr "face" false attrs).map some).getD l.psz_name ∧
    (attrs.foldl fontAttribute l).i_size =
      ((lastAttr "size" false attrs).map atoi).getD l.i_size ∧
    (attrs.foldl fontAttribute l).i_color =
      ((lastAttr "color" true attrs).map
        fun v => strtol (v.data.drop 1) 16 % 16777216).getD l.i_color ∧
    (attrs.foldl fontAttribute l).i_alpha =
      ((lastAttr "alpha" true attrs).map
        fun v => strtol (v.data.drop 1) 16 % 256).getD l.i_alpha := by
  induction attrs using List.reverseRecOn with
  | nil => simp [lastAttr_nil]
  | append_singleton attrs attr ih =>
    obtain ⟨i1, i2, i3, i4⟩ := ih
    obtain ⟨f1, f2, f3, f4⟩ := fontAttribute_fields (attrs.foldl fontAttribute l) attr
    simp only [List.foldl_append, List.foldl_cons, List.foldl_nil, lastAttr_concat]
    refine ⟨?_, ?_, ?_, ?_⟩
    · rw [f1, i1]
      cases attrValue "face" false attr <;> simp
    · rw [f2, i2]
      cases attrValue "size" false attr <;> simp
    · rw [f3, i3]
      cases attrValue "color" true attr <;> simp
    · rw [f4, i4]
      cases attrValue "alpha" true attr <;> simp

theorem PeekFont_of_top (s : FontStack) (out top : font_stack_t)
    (h : lastNode s = some top) : PeekFont s out = (VLC_SUCCESS, top) := by
  simp [PeekFont, h]

theorem PeekFont_of_empty (out : font_stack_t) : PeekFont [] out = (VLC_EGENERIC, out) := rfl

/-! ## The number parsers -/

theorem strtolSign_of_ne (c : Char) (cs : List Char) (h1 : c ≠ '-') (h2 : c ≠ '+') :
    strtolSign (c :: cs) = (false, c :: cs) := by
  unfold strtolSign
  split
  · rename_i heq
    cases heq
    exact absurd rfl h1
  · rename_i heq
    cases heq
    exact absurd rfl h2
  · rfl

theorem strtolSign_snd (cs : List Char) :
    (strtolSign cs).2 =
      match cs with
      | [] => []
      | c :: rest => if c = '-' ∨ c = '+' then rest else c :: rest := by
  cases cs with
  | nil => rfl
  | cons c rest =>
    by_cases h1 : c = '-'
    · subst h1
      rfl
    · by_cases h2 : c = '+'
      · subst h2
        rfl
      · rw [strtolSign_of_ne c rest h1 h2]
        simp [h1, h2]

theorem strtolDigits_of_not_digit (base acc : Nat) (cs : List Char)
    (h : ∀ c rest, cs = c :: rest → isDigitOf base c = false) :
    strtolDigits base acc cs = acc := by
  cases cs with
  | nil => rfl
  | cons c rest =>
    have hc := h c rest rfl
    unfold strtolDigits
    unfold isDigitOf at hc
    cases hd : digitValue c with
    | none => rfl
    | some d =>
      rw [hd] at hc
      have : ¬ d < base := by simpa using hc
      simp [this]

theorem strtolSkip0x_cases (base : Nat) (cs : List Char) :
    strtolSkip0x base cs = cs ∨
      (base = 16 ∧ ∃ x rest, cs = '0' :: x :: rest ∧ (x = 'x' ∨ x = 'X') ∧
        strtolSkip0x base cs = rest) := by
  unfold strtolSkip0x
  split
  · rename_i x rest
    by_cases h : base = 16 ∧ (x = 'x' ∨ x = 'X')
    · right
      exact ⟨h.1, x, rest, rfl, h.2, by simp [h]⟩
    · left
      simp [h]
  · left
    rfl

theorem digitValue_ge {c : Char} {d : Nat} (h : digitValue c = some d) : 48 ≤ c.toNat := by
  unfold digitValue at h
  split_ifs at h <;> omega

theorem isDigitOf_ge {base : Nat} {c : Char} (h : isDigitOf base c = true) : 48 ≤ c.toNat := by
  unfold isDigitOf at h
  cases hd : digitValue c with
  | none => simp [hd] at h
  | some d => exact digitValue_ge hd

theorem isDigitOf_zero_16 : isDigitOf 16 '0' = true := by decide

/-- A string that does not start with a number is read as zero. -/
theorem strtol_noLeadingNumber (base : Nat) (cs : List Char)
    (h : noLeadingNumber base cs = true) : strtol cs base = 0 := by
  have hbody : ∀ c rest, (strtolSign (cs.dropWhile isspace)).2 = c :: rest →
      isDigitOf base c = false := by
    intro c rest hc
    rw [strtolSign_snd] at hc
    unfold noLeadingNumber at h
    cases hdrop : cs.dropWhile isspace with
    | nil => simp [hdrop] at hc
    | cons a t =>
      rw [hdrop] at hc h
      simp only at hc h
      rw [hc] at h
      simpa using h
  have hmag : strtolDigits base 0
      (strtolSkip0x base (strtolSign (cs.dropWhile isspace)).2) = 0 := by
    rcases strtolSkip0x_cases base (strtolSign (cs.dropWhile isspace)).2 with
      hsame | ⟨hb, x, rest, hshape, _, _⟩
    · rw [hsame]
      exact strtolDigits_of_not_digit base 0 _ hbody
    · have := hbody '0' (x :: rest) hshape
      rw [hb, isDigitOf_zero_16] at this
      cases this
  unfold strtol
  simp only [hmag]
  split_ifs <;> simp_all [LONG_MIN, LONG_MAX]

theorem strtolDigits_all (base : Nat) (cs : List Char) :
    ∀ acc : Nat, (∀ c ∈ cs, isDigitOf base c = true) →
      strtolDigits base acc cs =
        cs.foldl (fun a c => a * base + (digitValue c).getD 0) acc := by
  induction cs with
  | nil => intro acc _; rfl
  | cons c rest ih =>
    intro acc hall
    have hc : isDigitOf base c = true := hall c (List.mem_cons_self c rest)
    unfold isDigitOf at hc
    unfold strtolDigits
    cases hd : digitValue c with
    | none => simp [hd] at hc
    | some d =>
      rw [hd] at hc
      have hlt : d < base := by simpa using hc
      simp only [hlt, if_true, List.foldl_cons, hd, Option.getD_some]
      exact ih (acc * base + d) (fun x hx => hall x (List.mem_cons_of_mem c hx))

/-- A non-empty string of digits of the base, without the letter x, is read
as its value when that value fits a `long`. -/
theorem strtol_digits (base : Nat) (cs : List Char) (hne : cs ≠ [])
    (hall : ∀ c ∈ cs, isDigitOf base c = true) (hx : ∀ c ∈ cs, c ≠ 'x' ∧ c ≠ 'X')
    (hmax : (digitsValue base cs : Int) ≤ LONG_MAX) :
    strtol cs base = (digitsValue base cs : Int) := by
  cases cs with
  | nil => exact absurd rfl hne
  | cons c rest =>
    have hc : 48 ≤ c.toNat := isDigitOf_ge (hall c (List.mem_cons_self c rest))
    have hspace : isspace c = false := by
      simp only [isspace, Bool.or_eq_false_iff, decide_eq_false_iff_not, Bool.and_eq_false_iff]
      exact ⟨by omega, Or.inr (by omega)⟩
    have hminus : c ≠ '-' := by
      intro hm
      rw [hm] at hc
      revert hc
      decide
    have hplus : c ≠ '+' := by
      intro hm
      rw [hm] at hc
      revert hc
      decide
    have hdrop : (c :: rest).dropWhile isspace = c :: rest := by
      simp [List.dropWhile, hspace]
    have hskip : strtolSkip0x base (c :: rest) = c :: rest := by
      rcases strtolSkip0x_cases base (c :: rest) with hsame | ⟨_, x, t, hshape, hxx, _⟩
      · exact hsame
      · have hmem : x ∈ c :: rest := by
          rw [hshape]
          simp
        have := hx x hmem
        rcases hxx with h1 | h1
        · exact absurd h1 this.1
        · exact absurd h1 this.2
    have hval : strtolDigits base 0 (c :: rest) = digitsValue base (c :: rest) :=
      strtolDigits_all base (c :: rest) 0 hall
    have hnot : ¬ ((digitsValue base (c :: rest) : Nat) : Int) > LONG_MAX := by omega
    unfold strtol
    simp only [hdrop, strtolSign_of_ne c rest hminus hplus, hskip, hval]
    rw [if_neg (by simp), if_neg hnot]

theorem isDigitOf_decimal {c : Char} (h : isDecimalDigit c = true) :
    isDigitOf 10 c = true ∧ c ≠ 'x' ∧ c ≠ 'X' := by
  have hr : 48 ≤ c.toNat ∧ c.toNat ≤ 57 := by simpa [isDecimalDigit] using h
  refine ⟨?_, ?_, ?_⟩
  · have hd : digitValue c = some (c.toNat - 48) := by simp [digitValue, hr]
    simp only [isDigitOf, hd, decide_eq_true_eq]
    omega
  · intro hm
    rw [hm] at hr
    revert hr
    decide
  · intro hm
    rw [hm] at hr
    revert hr
    decide

theorem isDigitOf_hex {c : Char} (h : isHexDigit c = true) :
    isDigitOf 16 c = true ∧ c ≠ 'x' ∧ c ≠ 'X' := by
  have hr : (48 ≤ c.toNat ∧ c.toNat ≤ 57) ∨ (97 ≤ c.toNat ∧ c.toNat ≤ 102) ∨
      (65 ≤ c.toNat ∧ c.toNat ≤ 70) := by
    simpa [isHexDigit, or_assoc] using h
  refine ⟨?_, ?_, ?_⟩
  · rcases hr with hr | hr | hr
    · have hd : digitValue c = some (c.toNat - 48) := by simp [digitValue, hr]
      simp only [isDigitOf, hd, decide_eq_true_eq]
      omega
    · have h1 : ¬ (48 ≤ c.toNat ∧ c.toNat ≤ 57) := by omega
      have h2 : 97 ≤ c.toNat ∧ c.toNat ≤ 122 := by omega
      have hd : digitValue c = some (c.toNat - 87) := by simp [digitValue, h1, h2]
      simp only [isDigitOf, hd, decide_eq_true_eq]
      omega
    · have h1 : ¬ (48 ≤ c.toNat ∧ c.toNat ≤ 57) := by omega
      have h2 : ¬ (97 ≤ c.toNat ∧ c.toNat ≤ 122) := by omega
      have h3 : 65 ≤ c.toNat ∧ c.toNat ≤ 90 := by omega
      have hd : digitValue c = some (c.toNat - 55) := by simp [digitValue, h1, h2, h3]
      simp only [isDigitOf, hd, decide_eq_true_eq]
      omega
  · intro hm
    rw [hm] at hr
    revert hr
    decide
  · intro hm
    rw [hm] at hr
    revert hr
    decide

/-- `atoi` on a non-empty string of decimal digits whose value fits. -/
theorem atoi_decimal (v : String) (hne : v.data ≠ [])
    (hall : ∀ c ∈ v.data, isDecimalDigit c = true)
    (hmax : digitsValue 10 v.data ≤ 2147483647) :
    atoi v = (digitsValue 10 v.data : Int) :=
  strtol_digits 10 v.data hne (fun c hc => (isDigitOf_decimal (hall c hc)).1)
    (fun c hc => (isDigitOf_decimal (hall c hc)).2)
    (by simp only [LONG_MAX]; exact_mod_cast hmax)

/-- `strtol` in base 16 on a non-empty string of hexadecimal digits whose
value fits. -/
theorem strtol_hex (ds : List Char) (hne : ds ≠ [])
    (hall : ∀ c ∈ ds, isHexDigit c = true) (hmax : digitsValue 16 ds ≤ 2147483647) :
    strtol ds 16 = (digitsValue 16 ds : Int) :=
  strtol_digits 16 ds hne (fun c hc => (isDigitOf_hex (hall c hc)).1)
    (fun c hc => (isDigitOf_hex (hall c hc)).2)
    (by simp only [LONG_MAX]; exact_mod_cast hmax)

/-- The entry a `font` start event pushes on a non-empty stack, field by
field. -/
theorem pushedLocals_fields (s : FontStack) (top : font_stack_t)
    (attrs : List (Option String × Option String)) (htop : lastNode s = some top) :
    (pushedLocals s attrs).psz_name =
      ((lastAttr "face" false attrs).map some).getD top.psz_name ∧
    (pushedLocals s attrs).i_size =
      ((lastAttr "size" false attrs).map atoi).getD top.i_size ∧
    (pushedLocals s attrs).i_color =
      ((lastAttr "color" true attrs).map
        fun v => strtol (v.data.drop 1) 16 % 16777216).getD top.i_color ∧
    (pushedLocals s attrs).i_alpha =
      ((lastAttr "alpha" true attrs).map
        fun v => strtol (v.data.drop 1) 16 % 256).getD top.i_alpha := by
  unfold pushedLocals
  simp only [PeekFont_of_top s _ top htop]
  exact fontAttribute_foldl attrs top

/-- The entry a `font` start event pushes on a non-empty stack when the turn
returns: inherited where the event is silent, the value read otherwise. -/
theorem nodeEffect_font_start_fields (p_sys : filter_sys_t) (st : run_state)
    (n : String) (attrs : List (Option String × Option String)) (top : font_stack_t)
    (hfont : strcasecmp "font" n = 0) (htop : lastNode st.p_fonts = some top) :
    ∃ pushed : font_stack_t,
      (nodeEffect p_sys st (xml_node.XML_READER_STARTELEM (some n) attrs)).p_fonts =
        st.p_fonts ++ [pushed] ∧
      (lastAttr "face" false attrs = none → pushed.psz_name = top.psz_name) ∧
      (lastAttr "size" false attrs = none → pushed.i_size = top.i_size) ∧
      (lastAttr "color" true attrs = none → pushed.i_color = top.i_color) ∧
      (∀ v, lastAttr "face" false attrs = some v → pushed.psz_name = some v) ∧
      (∀ v, lastAttr "size" false attrs = some v → pushed.i_size = atoi v) ∧
      (∀ v, lastAttr "size" false attrs = some v → v.data ≠ [] →
        (∀ c ∈ v.data, isDecimalDigit c = true) → digitsValue 10 v.data ≤ 2147483647 →
        pushed.i_size = (digitsValue 10 v.data : Int)) ∧
      (∀ v, lastAttr "color" true attrs = some v →
        pushed.i_color = strtol (v.data.drop 1) 16 % 16777216) ∧
      (∀ v, lastAttr "color" true attrs = some v → v.data.drop 1 ≠ [] →
        (∀ c ∈ v.data.drop 1, isHexDigit c = true) →
        digitsValue 16 (v.data.drop 1) ≤ 2147483647 →
        pushed.i_color = (digitsValue 16 (v.data.drop 1) : Int) % 16777216) ∧
      (∀ t : String,
        lastRunFont (nodeEffect p_sys
            (nodeEffect p_sys st (xml_node.XML_READER_STARTELEM (some n) attrs))
            (xml_node.XML_READER_TEXT (some t))) = some (some pushed)) ∧
      (nodeEffect sys20 (initialState sys20 (some style40)) fontColor112233).p_fonts =
        [⟨some "Arial", 40, 16777215, 0⟩, ⟨some "Arial", 40, 1122867, 0⟩] := by
  obtain ⟨f1, f2, f3, _⟩ := pushedLocals_fields st.p_fonts top attrs htop
  have hstep := nodeEffect_fontStart p_sys st n attrs hfont
  refine ⟨pushedLocals st.p_fonts attrs, by rw [hstep], ?_, ?_, ?_, ?_, ?_, ?_, ?_, ?_, ?_,
    by decide⟩
  · intro h
    rw [f1, h]
    rfl
  · intro h
    rw [f2, h]
    rfl
  · intro h
    rw [f3, h]
    rfl
  · intro v h
    rw [f1, h]
    rfl
  · intro v h
    rw [f2, h]
    rfl
  · intro v h hne hall hmax
    rw [f2, h]
    exact atoi_decimal v hne hall hmax
  · intro v h
    rw [f3, h]
    rfl
  · intro v h hne hall hmax
    rw [f3, h]
    show strtol (v.data.drop 1) 16 % 16777216 = _
    rw [strtol_hex (v.data.drop 1) hne hall hmax]
  · intro t
    rw [hstep, nodeEffect_text, lastRunFont_appendRun, resolvedFont_resolvedStyle, lastNode_eq]
    simp

theorem resolvedStyle_of_top (p_sys : filter_sys_t) (s : FontStack) (top : font_stack_t)
    (b i u : Bool) (h : lastNode s = some top) :
    resolvedStyle p_sys s b i u =
      some ⟨top.psz_name, top.i_size, top.i_color, top.i_alpha, b, i, u⟩ := by
  simp [resolvedStyle, h]

theorem resolvedStyle_of_empty (p_sys : filter_sys_t) (b i u : Bool) :
    resolvedStyle p_sys [] b i u = none := by
  simp [resolvedStyle, lastNode]

/-- What a `br` start event leaves when the turn returns: one run of length
1, the newline, in the style resolved at that point. -/
theorem nodeEffect_br_fields (p_sys : filter_sys_t) (st : run_state) (n : String)
    (attrs : List (Option String × Option String)) (h : strcasecmp "br" n = 0) :
    (nodeEffect p_sys st (xml_node.XML_READER_STARTELEM (some n) attrs)).pi_runs =
      st.pi_runs + 1 ∧
    (nodeEffect p_sys st (xml_node.XML_READER_STARTELEM (some n) attrs)).pi_run_lengths =
      st.pi_run_lengths ++ [1] ∧
    (nodeEffect p_sys st (xml_node.XML_READER_STARTELEM (some n) attrs)).psz_text =
      st.psz_text ++ [10] ∧
    (nodeEffect p_sys st (xml_node.XML_READER_STARTELEM (some n) attrs)).pp_styles =
      st.pp_styles ++
        [resolvedStyle p_sys st.p_fonts st.b_bold st.b_italic st.b_uline] ∧
    (∀ top, lastNode st.p_fonts = some top →
      resolvedStyle p_sys st.p_fonts st.b_bold st.b_italic st.b_uline =
        some ⟨top.psz_name, top.i_size, top.i_color, top.i_alpha,
          st.b_bold, st.b_italic, st.b_uline⟩) ∧
    (nodeEffect p_sys st (xml_node.XML_READER_STARTELEM (some n) attrs)).p_fonts =
      st.p_fonts ∧
    (nodeEffect p_sys st (xml_node.XML_READER_STARTELEM (some n) attrs)).b_bold =
      st.b_bold ∧
    (nodeEffect p_sys st (xml_node.XML_READER_STARTELEM (some n) attrs)).b_italic =
      st.b_italic ∧
    (nodeEffect p_sys st (xml_node.XML_READER_STARTELEM (some n) attrs)).b_uline =
      st.b_uline ∧
    (traversalEffect sys20 none nodesLines).pi_run_lengths = [5, 1, 5] ∧
    (traversalEffect sys20 none nodesLines).psz_text =
      [76, 105, 110, 101, 49, 10, 76, 105, 110, 101, 50] ∧
    (traversalEffect sys20 none nodesLines).pp_styles =
      List.replicate 3 (some ⟨some "Verdana", 20, 16777215, 0, false, false, false⟩) := by
  rw [nodeEffect_br p_sys st n attrs h]
  refine ⟨?_, ?_, ?_, ?_, ?_, ?_, ?_, ?_, ?_, by decide, by decide, by decide⟩
  · simp [appendedRun]
  · simp [appendedRun, ConvertToUTF16_newline]
  · simp [appendedRun, ConvertToUTF16_newline]
  · simp [appendedRun]
  · intro top htop
    exact resolvedStyle_of_top p_sys st.p_fonts top _ _ _ htop
  · simp [appendedRun]
  · simp [appendedRun]
  · simp [appendedRun]
  · simp [appendedRun]

/-! ## Run lengths -/

theorem nodeEffect_run_lengths (p_sys : filter_sys_t) (st : run_state) (node : xml_node)
    (rest : List xml_node) :
    (nodeEffect p_sys st node).pi_run_lengths ++ runLengths rest =
      st.pi_run_lengths ++ runLengths (node :: rest) ∧
    (nodeEffect p_sys st node).pi_runs + (runLengths rest).length =
      st.pi_runs + (runLengths (node :: rest)).length := by
  by_cases hbr : isBrStart node = true
  · cases node with
    | XML_READER_STARTELEM name attrs =>
      cases name with
      | none => simp [isBrStart] at hbr
      | some n =>
        have hn : strcasecmp "br" n = 0 := by simpa [isBrStart] using hbr
        rw [nodeEffect_br p_sys st n attrs hn]
        simp [appendedRun, ConvertToUTF16_newline, runLengths, isBrStart, hn]
        omega
    | XML_READER_NONE => simp [isBrStart] at hbr
    | XML_READER_ENDELEM name => simp [isBrStart] at hbr
    | XML_READER_TEXT value => simp [isBrStart] at hbr
  · have hbr2 : isBrStart node = false := by simpa using hbr
    by_cases htext : ∃ s, node = xml_node.XML_READER_TEXT (some s)
    · obtain ⟨s, rfl⟩ := htext
      simp [nodeEffect, appendedRun, runLengths, ConvertToUTF16_fst]
      omega
    · have htext2 : ∀ s, node ≠ xml_node.XML_READER_TEXT (some s) :=
        fun s hs => htext ⟨s, hs⟩
      obtain ⟨_, h2, h3, _⟩ := nodeEffect_no_run p_sys st node hbr2 htext2
      have hrl : runLengths (node :: rest) = runLengths rest := by
        cases node with
        | XML_READER_TEXT value =>
          cases value with
          | none => simp [runLengths, isBrStart]
          | some v => exact absurd rfl (htext2 v)
        | XML_READER_NONE => simp [runLengths, isBrStart]
        | XML_READER_ENDELEM name => simp [runLengths, isBrStart]
        | XML_READER_STARTELEM name attrs => simp [runLengths, hbr2]
      rw [h2, h3, hrl]
      exact ⟨rfl, rfl⟩

theorem nodesEffect_run_lengths (p_sys : filter_sys_t) (nodes : List xml_node)
    (st : run_state) :
    (nodesEffect p_sys st nodes).pi_run_lengths = st.pi_run_lengths ++ runLengths nodes ∧
    (nodesEffect p_sys st nodes).pi_runs = st.pi_runs + (runLengths nodes).length := by
  induction nodes generalizing st with
  | nil => simp [nodesEffect, runLengths]
  | cons node rest ih =>
    obtain ⟨h1, h2⟩ := ih (nodeEffect p_sys st node)
    obtain ⟨g1, g2⟩ := nodeEffect_run_lengths p_sys st node rest
    simp only [nodesEffect]
    exact ⟨h1.trans g1, h2.trans g2⟩

theorem utf16Length_pos (s : String) (h : s ≠ "") : 1 ≤ utf16Length s := by
  obtain ⟨data⟩ := s
  cases data with
  | nil => exact absurd rfl h
  | cons c t =>
    simp only [utf16Length, List.map_cons, List.sum_cons]
    split <;> omega

theorem runLengths_pos (nodes : List xml_node)
    (h : ∀ node ∈ nodes, node ≠ xml_node.XML_READER_TEXT (some "")) :
    ∀ len ∈ runLengths nodes, 1 ≤ len := by
  induction nodes with
  | nil => intro len hlen; simp [runLengths] at hlen
  | cons node rest ih =>
    have ih2 := ih (fun x hx => h x (List.mem_cons_of_mem node hx))
    have hnode := h node (List.mem_cons_self node rest)
    intro len hlen
    cases node with
    | XML_READER_TEXT value =>
      cases value with
      | none =>
        simp only [runLengths, isBrStart] at hlen
        exact ih2 len (by simpa using hlen)
      | some v =>
        simp only [runLengths, List.mem_cons] at hlen
        rcases hlen with hl | hl
        · rw [hl]
          apply utf16Length_pos
          intro hv
          exact hnode (by rw [hv])
        · exact ih2 len hl
    | XML_READER_NONE =>
      simp only [runLengths, isBrStart] at hlen
      exact ih2 len (by simpa using hlen)
    | XML_READER_ENDELEM name =>
      simp only [runLengths, isBrStart] at hlen
      exact ih2 len (by simpa using hlen)
    | XML_READER_STARTELEM name attrs =>
      simp only [runLengths] at hlen
      split_ifs at hlen
      · simp only [List.mem_cons] at hlen
        rcases hlen with hl | hl
        · omega
        · exact ih2 len hl
      · exact ih2 len hlen

/-- Without a present but empty payload, every run left by a traversal that
returns has length at least 1. -/
theorem traversalEffect_runs_nonempty (p_sys : filter_sys_t)
    (p_font_style : Option text_style_t) (nodes : List xml_node)
    (h : ∀ node ∈ nodes, node ≠ xml_node.XML_READER_TEXT (some "")) :
    (∀ len ∈ (traversalEffect p_sys p_font_style nodes).pi_run_lengths, 1 ≤ len) ∧
    (traversalEffect p_sys p_font_style nodes).pi_runs =
      (traversalEffect p_sys p_font_style nodes).pi_run_lengths.length ∧
    (∀ st : run_state, nodeEffect p_sys st (xml_node.XML_READER_TEXT none) = st) ∧
    (∀ st : run_state,
      (nodeEffect p_sys st (xml_node.XML_READER_TEXT (some ""))).pi_runs = st.pi_runs + 1 ∧
      (nodeEffect p_sys st (xml_node.XML_READER_TEXT (some ""))).pi_run_lengths =
        st.pi_run_lengths ++ [0]) := by
  obtain ⟨h1, h2⟩ := nodesEffect_run_lengths p_sys nodes (initialState p_sys p_font_style)
  obtain ⟨_, i2, i3, _⟩ := initialState_runs p_sys p_font_style
  rw [i3] at h1
  rw [i2] at h2
  refine ⟨?_, ?_, fun st => rfl, fun st => ⟨rfl, ?_⟩⟩
  · intro len hlen
    have hmem : len ∈ runLengths nodes := by
      simpa [traversalEffect, h1] using hlen
    exact runLengths_pos nodes h len hmem
  · simp [traversalEffect, h1, h2]
  · simp [nodeEffect, appendedRun, ConvertToUTF16, utf16Encode]

/-! ## The initial entry -/

/-- While no `font` end event is stray, the entries below the open `font`
elements stay in place: they are under the stack at every run and at the end. -/
theorem nodesEffect_keeps_base (p_sys : filter_sys_t) (nodes : List xml_node) :
    ∀ (st : run_state) (base extra : FontStack), st.p_fonts = base ++ extra →
      fontEndsMatched extra.length nodes = true →
      (∀ s ∈ effectStacksAtRuns p_sys st nodes, ∃ e, s = base ++ e) ∧
      ∃ e, (nodesEffect p_sys st nodes).p_fonts = base ++ e := by
  induction nodes with
  | nil =>
    intro st base extra hst _
    exact ⟨by simp [effectStacksAtRuns], extra, by simpa [nodesEffect] using hst⟩
  | cons node rest ih =>
    intro st base extra hst hm
    have hnext : ∃ extra2, (nodeEffect p_sys st node).p_fonts = base ++ extra2 ∧
        fontEndsMatched extra2.length rest = true := by
      by_cases hs : isFontStart node = true
      · obtain ⟨e, hpush⟩ := nodeEffect_stack_start p_sys st node hs
        refine ⟨extra ++ [e], by rw [hpush, hst, List.append_assoc], ?_⟩
        simpa [fontEndsMatched, hs] using hm
      · have hs2 : isFontStart node = false := by simpa using hs
        by_cases he : isFontEnd node = true
        · have hpop := nodeEffect_stack_end p_sys st node he
          cases hx : extra.length with
          | zero => simp [fontEndsMatched, hs2, he, hx] at hm
          | succ d =>
            have hne : extra ≠ [] := by
              intro hnil
              simp [hnil] at hx
            refine ⟨extra.dropLast,
              by rw [hpop, hst, List.dropLast_append_of_ne_nil _ hne], ?_⟩
            have hd : extra.dropLast.length = d := by
              rw [List.length_dropLast, hx]
              rfl
            rw [hd]
            simpa [fontEndsMatched, hs2, he, hx] using hm
        · have he2 : isFontEnd node = false := by simpa using he
          refine ⟨extra, by rw [nodeEffect_stack_other p_sys st node hs2 he2, hst], ?_⟩
          simpa [fontEndsMatched, hs2, he2] using hm
    obtain ⟨extra2, hst2, hm2⟩ := hnext
    obtain ⟨ih1, ih2⟩ := ih (nodeEffect p_sys st node) base extra2 hst2 hm2
    refine ⟨?_, by simpa [nodesEffect] using ih2⟩
    intro s hs
    simp only [effectStacksAtRuns] at hs
    split_ifs at hs
    · exact ih1 s hs
    · rcases List.mem_cons.mp hs with h1 | h1
      · exact ⟨extra, by rw [h1, hst]⟩
      · exact ih1 s h1

theorem initialState_stack (p_sys : filter_sys_t) (p_font_style : Option text_style_t) :
    ∃ entry, (initialState p_sys p_font_style).p_fonts = [entry] := by
  cases p_font_style with
  | none => exact ⟨_, rfl⟩
  | some style => exact ⟨_, rfl⟩

/-- Without a stray `font` end event, the initial entry stays at the bottom
of the stack at every run and at the end, when every turn returns. -/
theorem nodesEffect_keeps_initial_entry (p_sys : filter_sys_t)
    (p_font_style : Option text_style_t) (nodes : List xml_node)
    (h : fontEndsMatched 0 nodes = true) :
    ∃ entry, (initialState p_sys p_font_style).p_fonts = [entry] ∧
      (∀ s ∈ effectStacksAtRuns p_sys (initialState p_sys p_font_style) nodes,
        s ≠ [] ∧ s.head? = some entry) ∧
      (nodesEffect p_sys (initialState p_sys p_font_style) nodes).p_fonts ≠ [] ∧
      (nodesEffect p_sys (initialState p_sys p_font_style) nodes).p_fonts.head? =
        some entry := by
  obtain ⟨entry, hentry⟩ := initialState_stack p_sys p_font_style
  obtain ⟨h1, e, h2⟩ := nodesEffect_keeps_base p_sys nodes (initialState p_sys p_font_style)
    [entry] [] (by simpa using hentry) h
  refine ⟨entry, hentry, ?_, ?_, ?_⟩
  · intro s hs
    obtain ⟨e2, he2⟩ := h1 s hs
    rw [he2]
    simp
  · rw [h2]
    simp
  · rw [h2]
    simp

/-! ## End events -/

/-- The element names `font`, `b`, `i`, `u` exclude each other. -/
theorem element_names_exclusive (n : String) :
    (strcasecmp "b" n = 0 → strcasecmp "font" n ≠ 0) ∧
    (strcasecmp "i" n = 0 → strcasecmp "font" n ≠ 0 ∧ strcasecmp "b" n ≠ 0) ∧
    (strcasecmp "u" n = 0 →
      strcasecmp "font" n ≠ 0 ∧ strcasecmp "b" n ≠ 0 ∧ strcasecmp "i" n ≠ 0) := by
  have hf : tolower 'f' = 102 := by decide
  have hb : tolower 'b' = 98 := by decide
  have hi : tolower 'i' = 105 := by decide
  have hu : tolower 'u' = 117 := by decide
  have key : ∀ (a b : Char) (as bs : List Char), tolower a ≠ 0 → tolower b ≠ 0 →
      tolower a ≠ tolower b → strcasecmpChars (a :: as) n.data = 0 →
      strcasecmpChars (b :: bs) n.data ≠ 0 :=
    fun a b as bs h1 h2 h3 h4 => strcasecmpChars_first h1 h2 h3 h4
  refine ⟨fun h => ?_, fun h => ⟨?_, ?_⟩, fun h => ⟨?_, ?_, ?_⟩⟩
  · exact key 'b' 'f' [] ['o', 'n', 't'] (by omega) (by omega) (by omega) h
  · exact key 'i' 'f' [] ['o', 'n', 't'] (by omega) (by omega) (by omega) h
  · exact key 'i' 'b' [] [] (by omega) (by omega) (by omega) h
  · exact key 'u' 'f' [] ['o', 'n', 't'] (by omega) (by omega) (by omega) h
  · exact key 'u' 'b' [] [] (by omega) (by omega) (by omega) h
  · exact key 'u' 'i' [] [] (by omega) (by omega) (by omega) h

/-- What an end event of `font`, `b`, `i` or `u` leaves. -/
theorem nodeEffect_end_event (p_sys : filter_sys_t) (st : run_state) (n : String) :
    (strcasecmp "font" n = 0 →
      nodeEffect p_sys st (xml_node.XML_READER_ENDELEM (some n)) =
        { st with p_fonts := st.p_fonts.dropLast } ∧
      (nodeEffect p_sys st (xml_node.XML_READER_ENDELEM (some n)) = st ↔
        st.p_fonts = [])) ∧
    (strcasecmp "b" n = 0 →
      nodeEffect p_sys st (xml_node.XML_READER_ENDELEM (some n)) =
        { st with b_bold := false } ∧
      (nodeEffect p_sys st (xml_node.XML_READER_ENDELEM (some n)) = st ↔
        st.b_bold = false)) ∧
    (strcasecmp "i" n = 0 →
      nodeEffect p_sys st (xml_node.XML_READER_ENDELEM (some n)) =
        { st with b_italic := false } ∧
      (nodeEffect p_sys st (xml_node.XML_READER_ENDELEM (some n)) = st ↔
        st.b_italic = false)) ∧
    (strcasecmp "u" n = 0 →
      nodeEffect p_sys st (xml_node.XML_READER_ENDELEM (some n)) =
        { st with b_uline := false } ∧
      (nodeEffect p_sys st (xml_node.XML_READER_ENDELEM (some n)) = st ↔
        st.b_uline = false)) := by
  obtain ⟨eb, ei, eu⟩ := element_names_exclusive n
  refine ⟨fun h => ?_, fun h => ?_, fun h => ?_, fun h => ?_⟩
  · have hstep := nodeEffect_fontEnd p_sys st n h
    refine ⟨hstep, ?_⟩
    rw [hstep]
    constructor
    · intro heq
      have hfonts : st.p_fonts.dropLast = st.p_fonts := congrArg run_state.p_fonts heq
      have hlen := congrArg List.length hfonts
      rw [List.length_dropLast] at hlen
      cases hs : st.p_fonts with
      | nil => rfl
      | cons a t =>
        rw [hs] at hlen
        simp at hlen
    · intro hnil
      cases st
      simp_all
  · have hf := eb h
    have hstep : nodeEffect p_sys st (xml_node.XML_READER_ENDELEM (some n)) =
        { st with b_bold := false } := by
      simp [nodeEffect, hf, h]
    refine ⟨hstep, ?_⟩
    rw [hstep]
    constructor
    · intro heq
      exact (congrArg run_state.b_bold heq).symm
    · intro hflag
      cases st
      simp_all
  · obtain ⟨hf, hb⟩ := ei h
    have hstep : nodeEffect p_sys st (xml_node.XML_READER_ENDELEM (some n)) =
        { st with b_italic := false } := by
      simp [nodeEffect, hf, hb, h]
    refine ⟨hstep, ?_⟩
    rw [hstep]
    constructor
    · intro heq
      exact (congrArg run_state.b_italic heq).symm
    · intro hflag
      cases st
      simp_all
  · obtain ⟨hf, hb, hi⟩ := eu h
    have hstep : nodeEffect p_sys st (xml_node.XML_READER_ENDELEM (some n)) =
        { st with b_uline := false } := by
      simp [nodeEffect, hf, hb, hi, h]
    refine ⟨hstep, ?_⟩
    rw [hstep]
    constructor
    · intro heq
      exact (congrArg run_state.b_uline heq).symm
    · intro hflag
      cases st
      simp_all

/-! ## The cleanup loop -/

theorem cleanupLoop_of_length (n : Nat) :
    ∀ s : FontStack, s.length = n → cleanupLoop s = ([], n + 1) := by
  induction n with
  | zero =>
    intro s hs
    have hnil : s = [] := List.length_eq_zero.mp hs
    subst hnil
    rw [cleanupLoop]
    simp [PopFont, VLC_SUCCESS, VLC_EGENERIC]
  | succ k ih =>
    intro s hs
    have hne : s ≠ [] := by
      intro hnil
      simp [hnil] at hs
    have hcode : (PopFont s).1 = VLC_SUCCESS := by
      rw [PopFont_fst, if_neg hne]
    have hrest : (PopFont s).2.length = k := by
      rw [PopFont_snd, List.length_dropLast, hs]
      rfl
    rw [cleanupLoop, dif_pos hcode, ih _ hrest]

/-- The cleanup loop empties every stack with one `PopFont` call more than
the stack has entries. -/
theorem traversalEffect_cleanup (p_sys : filter_sys_t)
    (p_font_style : Option text_style_t) (nodes : List xml_node) :
    (∀ s : FontStack, cleanupLoop s = ([], s.length + 1)) ∧
    (traversalEffect p_sys p_font_style nodes).p_fonts = [] ∧
    (traversalEffect p_sys p_font_style nodes).i_pops =
      (nodesEffect p_sys (initialState p_sys p_font_style) nodes).p_fonts.length + 1 ∧
    (nodesEffect sys20 (initialState sys20 none) nodesUnclosed).p_fonts =
      [⟨some "Verdana", 20, 16777215, 0⟩, ⟨some "Verdana", 20, 65280, 0⟩] ∧
    (traversalEffect sys20 none nodesUnclosed).i_pops = 3 ∧
    (traversalEffect sys20 none nodesUnclosed).p_fonts = [] ∧
    (traversalEffect sys20 none nodesUnclosed).pi_run_lengths = [8] ∧
    (traversalEffect sys20 none nodesUnclosed).pp_styles =
      [some ⟨some "Verdana", 20, 65280, 0, false, false, false⟩] := by
  have hloop : ∀ s : FontStack, cleanupLoop s = ([], s.length + 1) :=
    fun s => cleanupLoop_of_length s.length s rfl
  have hstack : (nodesEffect sys20 (initialState sys20 none) nodesUnclosed).p_fonts =
      [⟨some "Verdana", 20, 16777215, 0⟩, ⟨some "Verdana", 20, 65280, 0⟩] := by decide
  refine ⟨hloop, ?_, ?_, hstack, ?_, ?_, by decide, by decide⟩
  · simp [traversalEffect, hloop]
  · simp [traversalEffect, hloop]
  · simp [traversalEffect, hloop, hstack]
  · simp [traversalEffect, hloop]

/-! ## Unparsable attribute values -/

/-- What a `font` start event pushes on a non-empty stack, when the turn
returns, for attribute values that hold no number. -/
theorem nodeEffect_unparsable_values (p_sys : filter_sys_t) (st : run_state) (n : String)
    (attrs : List (Option String × Option String)) (top : font_stack_t)
    (hfont : strcasecmp "font" n = 0) (htop : lastNode st.p_fonts = some top) :
    ∃ pushed : font_stack_t,
      (nodeEffect p_sys st (xml_node.XML_READER_STARTELEM (some n) attrs)).p_fonts =
        st.p_fonts ++ [pushed] ∧
      (lastAttr "color" true attrs = none → pushed.i_color = top.i_color) ∧
      (lastAttr "alpha" true attrs = none → pushed.i_alpha = top.i_alpha) ∧
      (∀ v, lastAttr "size" false attrs = some v → noLeadingNumber 10 v.data = true →
        pushed.i_size = 0) ∧
      (∀ v, lastAttr "color" true attrs = some v →
        noLeadingNumber 16 (v.data.drop 1) = true → pushed.i_color = 0) ∧
      (∀ v, lastAttr "alpha" true attrs = some v →
        noLeadingNumber 16 (v.data.drop 1) = true → pushed.i_alpha = 0) := by
  obtain ⟨_, f2, f3, f4⟩ := pushedLocals_fields st.p_fonts top attrs htop
  have hstep := nodeEffect_fontStart p_sys st n attrs hfont
  refine ⟨pushedLocals st.p_fonts attrs, by rw [hstep], ?_, ?_, ?_, ?_, ?_⟩
  · intro h
    rw [f3, h]
    rfl
  · intro h
    rw [f4, h]
    rfl
  · intro v h hno
    rw [f2, h]
    exact strtol_noLeadingNumber 10 v.data hno
  · intro v h hno
    rw [f3, h]
    show strtol (v.data.drop 1) 16 % 16777216 = 0
    rw [strtol_noLeadingNumber 16 _ hno]
    rfl
  · intro v h hno
    rw [f4, h]
    show strtol (v.data.drop 1) 16 % 256 = 0
    rw [strtol_noLeadingNumber 16 _ hno]
    rfl

/-! ## The alpha of a pushed entry -/

theorem lastAttr_of_not_carried (key : String) (hash : Bool)
    (attrs : List (Option String × Option String)) (h : carriesAttr key attrs = false) :
    lastAttr key hash attrs = none := by
  have hall : ∀ attr ∈ attrs, attrValue key hash attr = none := by
    intro attr hmem
    obtain ⟨name, value⟩ := attr
    cases name with
    | none => simp [attrValue]
    | some n =>
      cases value with
      | none => simp [attrValue]
      | some v =>
        have hn : strcasecmp key n ≠ 0 := by
          intro h0
          have hany : carriesAttr key attrs = true := by
            simp only [carriesAttr, List.any_eq_true]
            exact ⟨(some n, some v), hmem, by simp [h0]⟩
          rw [h] at hany
          cases hany
        simp [attrValue, hn]
  have hnil : attrs.filterMap (attrValue key hash) = [] := by
    rw [List.filterMap_eq_nil_iff]
    exact hall
  simp [lastAttr, hnil]

theorem lastNode_nil_iff (s : FontStack) : lastNode s = none ↔ s = [] := by
  rw [lastNode_eq]
  cases s with
  | nil => simp
  | cons a t => simp [List.getLast?_eq_getLast _ (List.cons_ne_nil a t)]

/-- The entry a `font` start event pushes on an empty stack, field by field:
the attribute loop starts from the fixed defaults of the branch. -/
theorem pushedLocals_fields_empty (attrs : List (Option String × Option String)) :
    (pushedLocals [] attrs).psz_name = ((lastAttr "face" false attrs).map some).getD none ∧
    (pushedLocals [] attrs).i_size = ((lastAttr "size" false attrs).map atoi).getD 24 ∧
    (pushedLocals [] attrs).i_color =
      ((lastAttr "color" true attrs).map
        fun v => strtol (v.data.drop 1) 16 % 16777216).getD 16777215 ∧
    (pushedLocals [] attrs).i_alpha =
      ((lastAttr "alpha" true attrs).map
        fun v => strtol (v.data.drop 1) 16 % 256).getD 0 := by
  unfold pushedLocals
  simp only [PeekFont_of_empty]
  exact fontAttribute_foldl attrs _

/-- The alpha a `font` start event without `alpha` attribute pushes when the
turn returns. -/
theorem nodeEffect_missing_alpha (p_sys : filter_sys_t) (st : run_state) (n : String)
    (attrs : List (Option String × Option String))
    (hfont : strcasecmp "font" n = 0) (hno : carriesAttr "alpha" attrs = false) :
    ∃ pushed : font_stack_t,
      (nodeEffect p_sys st (xml_node.XML_READER_STARTELEM (some n) attrs)).p_fonts =
        st.p_fonts ++ [pushed] ∧
      (∀ top, lastNode st.p_fonts = some top → pushed.i_alpha = top.i_alpha) ∧
      (st.p_fonts = [] → pushed.i_alpha = 0) := by
  have hstep := nodeEffect_fontStart p_sys st n attrs hfont
  have hlast := lastAttr_of_not_carried "alpha" true attrs hno
  refine ⟨pushedLocals st.p_fonts attrs, by rw [hstep], ?_, ?_⟩
  · intro top htop
    obtain ⟨_, _, _, f4⟩ := pushedLocals_fields st.p_fonts top attrs htop
    rw [f4, hlast]
    rfl
  · intro hnil
    obtain ⟨_, _, _, f4⟩ := pushedLocals_fields_empty attrs
    rw [hnil, f4, hlast]
    rfl

/-! ## Invariants of the stack entries -/

theorem lastNode_mem {s : FontStack} {top : font_stack_t} (h : lastNode s = some top) :
    top ∈ s := by
  rw [lastNode_eq] at h
  exact List.mem_of_getLast?_eq_some h

theorem fontAttribute_foldl_inv (P : font_stack_t → Prop)
    (attrs : List (Option String × Option String))
    (h : ∀ attr ∈ attrs, ∀ e, P e → P (fontAttribute e attr)) :
    ∀ e0, P e0 → P (attrs.foldl fontAttribute e0) := by
  induction attrs with
  | nil => intro e0 h0; exact h0
  | cons a t ih =>
    intro e0 h0
    simp only [List.foldl_cons]
    exact ih (fun attr hattr => h attr (List.mem_cons_of_mem a hattr)) _
      (h a (List.mem_cons_self a t) e0 h0)

theorem pushedLocals_inv (P : font_stack_t → Prop) (hdef : P ⟨none, 24, 16777215, 0⟩)
    (s : FontStack) (hs : ∀ e ∈ s, P e) (attrs : List (Option String × Option String))
    (h : ∀ attr ∈ attrs, ∀ e, P e → P (fontAttribute e attr)) :
    P (pushedLocals s attrs) := by
  unfold pushedLocals
  apply fontAttribute_foldl_inv P attrs h
  cases htop : lastNode s with
  | none => simpa [PeekFont, htop] using hdef
  | some top => simpa [PeekFont, htop] using hs top (lastNode_mem htop)

/-- One event keeps a property of the stack entries and of the resolved
styles, when the defaults of the `font` branch have it and the attributes of
a `font` start event keep it. -/
theorem nodeEffect_inv (P : font_stack_t → Prop) (hdef : P ⟨none, 24, 16777215, 0⟩)
    (p_sys : filter_sys_t) (st : run_state) (node : xml_node)
    (hattr : ∀ n attrs, node = xml_node.XML_READER_STARTELEM (some n) attrs →
      strcasecmp "font" n = 0 → ∀ attr ∈ attrs, ∀ e, P e → P (fontAttribute e attr))
    (hst : ∀ e ∈ st.p_fonts, P e)
    (hsty : ∀ s ∈ st.pp_styles, ∀ e, resolvedFont s = some e → P e) :
    (∀ e ∈ (nodeEffect p_sys st node).p_fonts, P e) ∧
    (∀ s ∈ (nodeEffect p_sys st node).pp_styles, ∀ e, resolvedFont s = some e → P e) := by
  have hrun : ∀ t : String,
      (∀ e ∈ (appendedRun p_sys st t).p_fonts, P e) ∧
      (∀ s ∈ (appendedRun p_sys st t).pp_styles, ∀ e, resolvedFont s = some e → P e) := by
    intro t
    refine ⟨by simpa [appendedRun] using hst, ?_⟩
    intro s hs e he
    simp only [appendedRun, List.mem_append, List.mem_singleton] at hs
    rcases hs with hs | hs
    · exact hsty s hs e he
    · rw [hs, resolvedFont_resolvedStyle] at he
      exact hst e (lastNode_mem he)
  by_cases hs : isFontStart node = true
  · cases node with
    | XML_READER_STARTELEM name attrs =>
      cases name with
      | none => simp [isFontStart] at hs
      | some n =>
        have hn : strcasecmp "font" n = 0 := by simpa [isFontStart] using hs
        rw [nodeEffect_fontStart p_sys st n attrs hn]
        refine ⟨?_, hsty⟩
        intro e he
        simp only [List.mem_append, List.mem_singleton] at he
        rcases he with he | he
        · exact hst e he
        · rw [he]
          exact pushedLocals_inv P hdef st.p_fonts hst attrs (hattr n attrs rfl hn)
    | XML_READER_NONE => simp [isFontStart] at hs
    | XML_READER_ENDELEM name => simp [isFontStart] at hs
    | XML_READER_TEXT value => simp [isFontStart] at hs
  · have hs2 : isFontStart node = false := by simpa using hs
    by_cases he : isFontEnd node = true
    · cases node with
      | XML_READER_ENDELEM name =>
        cases name with
        | none => simp [isFontEnd] at he
        | some n =>
          have hn : strcasecmp "font" n = 0 := by simpa [isFontEnd] using he
          rw [nodeEffect_fontEnd p_sys st n hn]
          exact ⟨fun e hmem => hst e (List.mem_of_mem_dropLast hmem), hsty⟩
      | XML_READER_NONE => simp [isFontEnd] at he
      | XML_READER_STARTELEM name attrs => simp [isFontEnd] at he
      | XML_READER_TEXT value => simp [isFontEnd] at he
    · have he2 : isFontEnd node = false := by simpa using he
      by_cases hbr : isBrStart node = true
      · cases node with
        | XML_READER_STARTELEM name attrs =>
          cases name with
          | none => simp [isBrStart] at hbr
          | some n =>
            have hn : strcasecmp "br" n = 0 := by simpa [isBrStart] using hbr
            rw [nodeEffect_br p_sys st n attrs hn]
            exact hrun "\n"
        | XML_READER_NONE => simp [isBrStart] at hbr
        | XML_READER_ENDELEM name => simp [isBrStart] at hbr
        | XML_READER_TEXT value => simp [isBrStart] at hbr
      · have hbr2 : isBrStart node = false := by simpa using hbr
        by_cases htext : ∃ t, node = xml_node.XML_READER_TEXT (some t)
        · obtain ⟨t, rfl⟩ := htext
          rw [nodeEffect_text]
          exact hrun t
        · have htext2 : ∀ t, node ≠ xml_node.XML_READER_TEXT (some t) :=
            fun t ht => htext ⟨t, ht⟩
          obtain ⟨_, _, _, h4⟩ := nodeEffect_no_run p_sys st node hbr2 htext2
          rw [nodeEffect_stack_other p_sys st node hs2 he2, h4]
          exact ⟨hst, hsty⟩

theorem nodesEffect_inv (P : font_stack_t → Prop) (hdef : P ⟨none, 24, 16777215, 0⟩)
    (p_sys : filter_sys_t) (nodes : List xml_node)
    (hattr : ∀ node ∈ nodes, ∀ n attrs, node = xml_node.XML_READER_STARTELEM (some n) attrs →
      strcasecmp "font" n = 0 → ∀ attr ∈ attrs, ∀ e, P e → P (fontAttribute e attr)) :
    ∀ st : run_state, (∀ e ∈ st.p_fonts, P e) →
      (∀ s ∈ st.pp_styles, ∀ e, resolvedFont s = some e → P e) →
      (∀ e ∈ (nodesEffect p_sys st nodes).p_fonts, P e) ∧
      (∀ s ∈ (nodesEffect p_sys st nodes).pp_styles, ∀ e,
        resolvedFont s = some e → P e) := by
  induction nodes with
  | nil => intro st hst hsty; exact ⟨hst, hsty⟩
  | cons node rest ih =>
    intro st hst hsty
    obtain ⟨h1, h2⟩ := nodeEffect_inv P hdef p_sys st node
      (hattr node (List.mem_cons_self node rest)) hst hsty
    simp only [nodesEffect]
    exact ih (fun x hx => hattr x (List.mem_cons_of_mem node hx)) _ h1 h2

/-- An attribute leaves the colour within 24 bits and the alpha within 8
bits: the masks see to it. -/
theorem fontAttribute_inRange (attr : Option String × Option String) (e : font_stack_t)
    (h : entryInRange e) : entryInRange (fontAttribute e attr) := by
  obtain ⟨f1, f2, f3, f4⟩ := fontAttribute_fields e attr
  obtain ⟨h1, h2, h3, h4⟩ := h
  unfold entryInRange
  rw [f3, f4]
  refine ⟨?_, ?_, ?_, ?_⟩
  · cases attrValue "color" true attr with
    | none => simpa using h1
    | some v =>
      simp only [Option.map_some', Option.getD_some]
      omega
  · cases attrValue "color" true attr with
    | none => simpa using h2
    | some v =>
      simp only [Option.map_some', Option.getD_some]
      omega
  · cases attrValue "alpha" true attr with
    | none => simpa using h3
    | some v =>
      simp only [Option.map_some', Option.getD_some]
      omega
  · cases attrValue "alpha" true attr with
    | none => simpa using h4
    | some v =>
      simp only [Option.map_some', Option.getD_some]
      omega

/-- An attribute whose `size` value, if it has one, is read as a positive
number leaves the size positive. -/
theorem fontAttribute_size_pos (attr : Option String × Option String) (e : font_stack_t)
    (hattr : ∀ v, attrValue "size" false attr = some v → 0 < atoi v)
    (h : 0 < e.i_size) : 0 < (fontAttribute e attr).i_size := by
  obtain ⟨_, f2, _, _⟩ := fontAttribute_fields e attr
  rw [f2]
  cases hv : attrValue "size" false attr with
  | none => simpa using h
  | some v => simpa using hattr v hv

/-- Colours and alphas stay in range along a traversal that returns, and
sizes stay positive when every `size` attribute is read as positive. -/
theorem nodesEffect_in_range (p_sys : filter_sys_t)
    (p_font_style : Option text_style_t) (nodes : List xml_node)
    (hinit : ∀ e ∈ (initialState p_sys p_font_style).p_fonts, entryInRange e) :
    (∀ e ∈ (nodesEffect p_sys (initialState p_sys p_font_style) nodes).p_fonts,
      entryInRange e) ∧
    (∀ s ∈ (traversalEffect p_sys p_font_style nodes).pp_styles, ∀ e,
      resolvedFont s = some e → entryInRange e) ∧
    ((∀ e ∈ (initialState p_sys p_font_style).p_fonts, 0 < e.i_size) →
      sizeAttrsPositive nodes = true →
      (∀ e ∈ (nodesEffect p_sys (initialState p_sys p_font_style) nodes).p_fonts,
        0 < e.i_size) ∧
      (∀ s ∈ (traversalEffect p_sys p_font_style nodes).pp_styles, ∀ e,
        resolvedFont s = some e → 0 < e.i_size)) := by
  obtain ⟨_, _, _, i4⟩ := initialState_runs p_sys p_font_style
  have hrange := nodesEffect_inv entryInRange (by decide) p_sys nodes
    (fun _ _ _ _ _ _ attr _ e he => fontAttribute_inRange attr e he)
    (initialState p_sys p_font_style) hinit (by rw [i4]; simp)
  refine ⟨hrange.1, hrange.2, ?_⟩
  intro hsize hpos
  have hattr : ∀ node ∈ nodes, ∀ n attrs,
      node = xml_node.XML_READER_STARTELEM (some n) attrs → strcasecmp "font" n = 0 →
      ∀ attr ∈ attrs, ∀ e : font_stack_t, 0 < e.i_size →
        0 < (fontAttribute e attr).i_size := by
    intro node hnode n attrs hshape hfont attr hmem e he
    apply fontAttribute_size_pos attr e _ he
    intro v hv
    have hall := (List.all_eq_true.mp hpos) node hnode
    rw [hshape] at hall
    simp only [hfont, decide_True, Bool.not_true, Bool.false_or] at hall
    have hone := (List.all_eq_true.mp hall) attr hmem
    rw [hv] at hone
    simpa using hone
  have hres := nodesEffect_inv (fun e => 0 < e.i_size) (by decide) p_sys nodes hattr
    (initialState p_sys p_font_style) hsize (by rw [i4]; simp)
  exact ⟨hres.1, hres.2⟩

/-! ## The stack operations -/

theorem lastNode_append_singleton (s : FontStack) (e : font_stack_t) :
    lastNode (s ++ [e]) = some e := by
  rw [lastNode_eq]
  simp

theorem PeekFont_PushFont (s : FontStack) (psz_name : Option String)
    (i_size i_color i_alpha : Int) (out : font_stack_t) :
    PeekFont (PushFont s psz_name i_size i_color i_alpha).2 out =
      (VLC_SUCCESS, ⟨psz_name, i_size, i_color, i_alpha⟩) := by
  rw [PushFont_snd]
  exact PeekFont_of_top _ out _ (lastNode_append_singleton s _)

theorem PopFont_PushFont (s : FontStack) (psz_name : Option String)
    (i_size i_color i_alpha : Int) :
    PopFont (PushFont s psz_name i_size i_color i_alpha).2 = (VLC_SUCCESS, s) := by
  have h1 := PopFont_fst (PushFont s psz_name i_size i_color i_alpha).2
  have h2 := PopFont_snd (PushFont s psz_name i_size i_color i_alpha).2
  rw [PushFont_snd] at h1 h2
  rw [PushFont_snd]
  rw [if_neg (by simp)] at h1
  rw [List.dropLast_concat] at h2
  exact Prod.ext h1 h2

/-- `PushFont` stores an absent name as absent; the `font` start branch,
when it returns, pushes the name of the top entry where no `face` is given. -/
theorem nodeEffect_inherits_name (s : FontStack) (i_size i_color i_alpha : Int)
    (out : font_stack_t) :
    (PushFont s none i_size i_color i_alpha).2 = s ++ [⟨none, i_size, i_color, i_alpha⟩] ∧
    PeekFont (PushFont s none i_size i_color i_alpha).2 out =
      (VLC_SUCCESS, ⟨none, i_size, i_color, i_alpha⟩) ∧
    (∀ (p_sys : filter_sys_t) (st : run_state) (n : String)
      (attrs : List (Option String × Option String)) (top : font_stack_t),
      strcasecmp "font" n = 0 → lastNode st.p_fonts = some top →
      lastAttr "face" false attrs = none →
      ∃ pushed : font_stack_t,
        (nodeEffect p_sys st (xml_node.XML_READER_STARTELEM (some n) attrs)).p_fonts =
          st.p_fonts ++ [pushed] ∧
        pushed.psz_name = top.psz_name ∧
        (PeekFont
          (nodeEffect p_sys st (xml_node.XML_READER_STARTELEM (some n) attrs)).p_fonts
          out).2.psz_name = top.psz_name) := by
  refine ⟨PushFont_snd s none i_size i_color i_alpha,
    PeekFont_PushFont s none i_size i_color i_alpha out, ?_⟩
  intro p_sys st n attrs top hfont htop hface
  obtain ⟨f1, _, _, _⟩ := pushedLocals_fields st.p_fonts top attrs htop
  have hname : (pushedLocals st.p_fonts attrs).psz_name = top.psz_name := by
    rw [f1, hface]
    rfl
  have hstep := nodeEffect_fontStart p_sys st n attrs hfont
  refine ⟨pushedLocals st.p_fonts attrs, by rw [hstep], hname, ?_⟩
  rw [hstep]
  simp only
  rw [PeekFont_of_top _ out _ (lastNode_append_singleton st.p_fonts _)]
  exact hname

/-- C14: the stack is last in, first out.  For every stack and every entry
with a present name, `PushFont` succeeds and puts the entry after the entries
of the stack; `PeekFont` after it succeeds and returns exactly the name,
size, colour and alpha pushed (it only reads the stack); `PopFont` after it
succeeds and yields the stack as it was, entry for entry. -/
theorem C14_stack_is_lifo (s : FontStack) (name : String) (i_size i_color i_alpha : Int)
    (out : font_stack_t) :
    (PushFont s (some name) i_size i_color i_alpha).1 = VLC_SUCCESS ∧
    (PushFont s (some name) i_size i_color i_alpha).2 =
      s ++ [⟨some name, i_size, i_color, i_alpha⟩] ∧
    PeekFont (PushFont s (some name) i_size i_color i_alpha).2 out =
      (VLC_SUCCESS, ⟨some name, i_size, i_color, i_alpha⟩) ∧
    PopFont (PushFont s (some name) i_size i_color i_alpha).2 = (VLC_SUCCESS, s) :=
  ⟨rfl, PushFont_snd s (some name) i_size i_color i_alpha,
    PeekFont_PushFont s (some name) i_size i_color i_alpha out,
    PopFont_PushFont s (some name) i_size i_color i_alpha⟩



/-! ## The run builder and the effect of its turns -/

theorem allNamed_iff (s : FontStack) :
    allNamed s = true ↔ ∀ e ∈ s, e.psz_name.isSome = true := by
  simp [allNamed, List.all_eq_true]

theorem topNamed_of_allNamed {s : FontStack} (h : allNamed s = true) : topNamed s = true := by
  unfold topNamed
  cases htop : lastNode s with
  | none => rfl
  | some top => exact (allNamed_iff s).mp h top (lastNode_mem htop)

theorem topNamed_of_top {s : FontStack} {top : font_stack_t} (htop : lastNode s = some top)
    (hname : top.psz_name.isSome = true) : topNamed s = true := by
  simp [topNamed, htop, hname]

theorem topNamed_false_of_top {s : FontStack} {top : font_stack_t}
    (htop : lastNode s = some top) (hname : top.psz_name = none) : topNamed s = false := by
  simp [topNamed, htop, hname]

/-- `GetStyleFromFontStack` returns exactly when the top entry, if there is
one, has a font name, and then gives the style of that entry. -/
theorem GetStyleFromFontStack_eq (p_sys : filter_sys_t) (s : FontStack) (b i u : Bool) :
    GetStyleFromFontStack p_sys s b i u =
      if topNamed s = true then some (resolvedStyle p_sys s b i u) else none := by
  unfold GetStyleFromFontStack PeekFont topNamed resolvedStyle
  cases h : lastNode s with
  | none => simp [VLC_SUCCESS, VLC_EGENERIC]
  | some top =>
    cases hn : top.psz_name with
    | none => simp [CreateStyle, hn]
    | some name => simp [CreateStyle, hn]

/-- The `font` branch computes its locals exactly when the top entry, if
there is one, has a font name. -/
theorem fontLocals_eq (s : FontStack) (attrs : List (Option String × Option String)) :
    fontLocals s attrs = if topNamed s = true then some (pushedLocals s attrs) else none := by
  unfold fontLocals PeekFont topNamed pushedLocals PeekFont
  cases h : lastNode s with
  | none => simp [VLC_SUCCESS, VLC_EGENERIC]
  | some top =>
    obtain ⟨name, size, color, alpha⟩ := top
    cases name with
    | none => simp
    | some n => simp

theorem appendRun_eq (p_sys : filter_sys_t) (st : run_state) (t : String) :
    appendRun p_sys st t =
      if topNamed st.p_fonts = true then some (appendedRun p_sys st t) else none := by
  unfold appendRun appendedRun
  rw [GetStyleFromFontStack_eq]
  split_ifs <;> rfl

/-- A turn whose stack has a named top entry, or no entry, returns. -/
theorem processNode_returns (p_sys : filter_sys_t) (st : run_state) (node : xml_node)
    (h : topNamed st.p_fonts = true) :
    processNode p_sys st node = some (nodeEffect p_sys st node) := by
  cases node with
  | XML_READER_NONE => rfl
  | XML_READER_STARTELEM name attrs =>
    cases name with
    | none => rfl
    | some n =>
      simp only [processNode, nodeEffect, fontLocals_eq, appendRun_eq, h, if_true]
      split_ifs <;> rfl
  | XML_READER_ENDELEM name =>
    cases name with
    | none => rfl
    | some n =>
      simp only [processNode, nodeEffect]
      split_ifs <;> rfl
  | XML_READER_TEXT value =>
    cases value with
    | none => rfl
    | some v => simp only [processNode, nodeEffect, appendRun_eq, h, if_true]

/-- A turn either does not return or leaves its effect. -/
theorem processNode_none_or (p_sys : filter_sys_t) (st : run_state) (node : xml_node) :
    processNode p_sys st node = none ∨
      processNode p_sys st node = some (nodeEffect p_sys st node) := by
  by_cases h : topNamed st.p_fonts = true
  · exact Or.inr (processNode_returns p_sys st node h)
  · cases node with
    | XML_READER_NONE => exact Or.inr rfl
    | XML_READER_STARTELEM name attrs =>
      cases name with
      | none => exact Or.inr rfl
      | some n =>
        simp only [processNode, nodeEffect, fontLocals_eq, appendRun_eq, h, if_false]
        split_ifs <;> simp
    | XML_READER_ENDELEM name =>
      cases name with
      | none => exact Or.inr rfl
      | some n =>
        simp only [processNode, nodeEffect]
        split_ifs <;> simp
    | XML_READER_TEXT value =>
      cases value with
      | none => exact Or.inr rfl
      | some v =>
        simp only [processNode, nodeEffect, appendRun_eq, h, if_false]
        simp

theorem processNode_effect {p_sys : filter_sys_t} {st next : run_state} {node : xml_node}
    (h : processNode p_sys st node = some next) : next = nodeEffect p_sys st node := by
  rcases processNode_none_or p_sys st node with h0 | h1
  · rw [h0] at h
    cases h
  · rw [h1] at h
    exact (Option.some.inj h).symm

theorem processNodes_cons (p_sys : filter_sys_t) (st next : run_state) (node : xml_node)
    (rest : List xml_node) (h : processNode p_sys st node = some next) :
    processNodes p_sys st (node :: rest) = processNodes p_sys next rest := by
  simp only [processNodes, h]

theorem processNodes_cons_none (p_sys : filter_sys_t) (st : run_state) (node : xml_node)
    (rest : List xml_node) (h : processNode p_sys st node = none) :
    processNodes p_sys st (node :: rest) = none := by
  simp only [processNodes, h]

/-- When the traversal returns, each turn has returned. -/
theorem processNodes_head {p_sys : filter_sys_t} {st last : run_state} {node : xml_node}
    {rest : List xml_node} (h : processNodes p_sys st (node :: rest) = some last) :
    processNode p_sys st node = some (nodeEffect p_sys st node) ∧
    processNodes p_sys (nodeEffect p_sys st node) rest = some last := by
  rcases processNode_none_or p_sys st node with h0 | h1
  · rw [processNodes_cons_none p_sys st node rest h0] at h
    cases h
  · rw [processNodes_cons p_sys st _ node rest h1] at h
    exact ⟨h1, h⟩

theorem processNodes_effect (p_sys : filter_sys_t) (nodes : List xml_node) :
    ∀ (st last : run_state), processNodes p_sys st nodes = some last →
      last = nodesEffect p_sys st nodes := by
  induction nodes with
  | nil =>
    intro st last h
    exact (Option.some.inj h).symm
  | cons node rest ih =>
    intro st last h
    obtain ⟨_, h2⟩ := processNodes_head h
    exact ih _ _ h2

theorem stacksAtRuns_effect (p_sys : filter_sys_t) (nodes : List xml_node) :
    ∀ (st last : run_state), processNodes p_sys st nodes = some last →
      stacksAtRuns p_sys st nodes = effectStacksAtRuns p_sys st nodes := by
  induction nodes with
  | nil => intro st last _; rfl
  | cons node rest ih =>
    intro st last h
    obtain ⟨h1, h2⟩ := processNodes_head h
    simp only [stacksAtRuns, effectStacksAtRuns, h1, ih _ _ h2]

theorem ProcessNodes_of_processNodes (p_sys : filter_sys_t)
    (p_font_style : Option text_style_t) (nodes : List xml_node)
    (h : processNodes p_sys (initialState p_sys p_font_style) nodes =
      some (nodesEffect p_sys (initialState p_sys p_font_style) nodes)) :
    ProcessNodes p_sys p_font_style nodes =
      some (traversalEffect p_sys p_font_style nodes) := by
  simp only [ProcessNodes, h, traversalEffect]

/-- `ProcessNodes` either does not return or leaves the effect of its turns
and of the cleanup loop. -/
theorem ProcessNodes_effect {p_sys : filter_sys_t} {p_font_style : Option text_style_t}
    {nodes : List xml_node} {res : run_result}
    (h : ProcessNodes p_sys p_font_style nodes = some res) :
    res = traversalEffect p_sys p_font_style nodes ∧
    processNodes p_sys (initialState p_sys p_font_style) nodes =
      some (nodesEffect p_sys (initialState p_sys p_font_style) nodes) := by
  cases hst : processNodes p_sys (initialState p_sys p_font_style) nodes with
  | none =>
    simp only [ProcessNodes, hst] at h
    cases h
  | some last =>
    have hlast := processNodes_effect p_sys nodes _ _ hst
    subst hlast
    rw [ProcessNodes_of_processNodes p_sys p_font_style nodes hst] at h
    exact ⟨(Option.some.inj h).symm, rfl⟩

/-- One turn on a non-empty stack of named entries leaves named entries. -/
theorem nodeEffect_named (p_sys : filter_sys_t) (st : run_state) (node : xml_node)
    (hnamed : allNamed st.p_fonts = true) (hne : st.p_fonts ≠ []) :
    allNamed (nodeEffect p_sys st node).p_fonts = true := by
  rw [allNamed_iff] at hnamed ⊢
  by_cases hs : isFontStart node = true
  · cases node with
    | XML_READER_STARTELEM name attrs =>
      cases name with
      | none => simp [isFontStart] at hs
      | some n =>
        have hn : strcasecmp "font" n = 0 := by simpa [isFontStart] using hs
        rw [nodeEffect_fontStart p_sys st n attrs hn]
        intro e he
        rcases List.mem_append.mp he with h1 | h1
        · exact hnamed e h1
        · have he2 : e = pushedLocals st.p_fonts attrs := by simpa using h1
          cases htop : lastNode st.p_fonts with
          | none =>
            rw [lastNode_eq] at htop
            exact absurd (List.getLast?_eq_none_iff.mp htop) hne
          | some top =>
            obtain ⟨f1, _⟩ := pushedLocals_fields st.p_fonts top attrs htop
            rw [he2, f1]
            have htopn := hnamed top (lastNode_mem htop)
            cases lastAttr "face" false attrs with
            | none => simpa using htopn
            | some v => rfl
    | XML_READER_NONE => simp [isFontStart] at hs
    | XML_READER_ENDELEM name => simp [isFontStart] at hs
    | XML_READER_TEXT value => simp [isFontStart] at hs
  · have hs2 : isFontStart node = false := by simpa using hs
    by_cases he : isFontEnd node = true
    · rw [nodeEffect_stack_end p_sys st node he]
      intro e hmem
      exact hnamed e (List.mem_of_mem_dropLast hmem)
    · have he2 : isFontEnd node = false := by simpa using he
      rw [nodeEffect_stack_other p_sys st node hs2 he2]
      exact hnamed

/-- From a stack of named entries that is deeper than the open `font`
elements, a sequence without stray `font` end event is traversed to its end. -/
theorem processNodes_returns (p_sys : filter_sys_t) (nodes : List xml_node) :
    ∀ (st : run_state) (depth : Nat), allNamed st.p_fonts = true →
      depth < st.p_fonts.length → fontEndsMatched depth nodes = true →
      processNodes p_sys st nodes = some (nodesEffect p_sys st nodes) := by
  induction nodes with
  | nil => intro st depth _ _ _; rfl
  | cons node rest ih =>
    intro st depth hnamed hdepth hm
    have hne : st.p_fonts ≠ [] := by
      intro hnil
      rw [hnil] at hdepth
      exact Nat.not_lt_zero _ hdepth
    have hstep := processNode_returns p_sys st node (topNamed_of_allNamed hnamed)
    rw [processNodes_cons p_sys st _ node rest hstep]
    have hnamed2 := nodeEffect_named p_sys st node hnamed hne
    show processNodes p_sys (nodeEffect p_sys st node) rest =
      some (nodesEffect p_sys (nodeEffect p_sys st node) rest)
    by_cases hs : isFontStart node = true
    · obtain ⟨e, hpush⟩ := nodeEffect_stack_start p_sys st node hs
      apply ih _ (depth + 1) hnamed2
      · rw [hpush, List.length_append, List.length_singleton]
        omega
      · simpa [fontEndsMatched, hs] using hm
    · have hs2 : isFontStart node = false := by simpa using hs
      by_cases he : isFontEnd node = true
      · cases depth with
        | zero => simp [fontEndsMatched, hs2, he] at hm
        | succ d =>
          apply ih _ d hnamed2
          · rw [nodeEffect_stack_end p_sys st node he, List.length_dropLast]
            omega
          · simpa [fontEndsMatched, hs2, he] using hm
      · have he2 : isFontEnd node = false := by simpa using he
        apply ih _ depth hnamed2
        · rw [nodeEffect_stack_other p_sys st node hs2 he2]
          exact hdepth
        · simpa [fontEndsMatched, hs2, he2] using hm

theorem initialState_named (p_sys : filter_sys_t) (p_font_style : Option text_style_t)
    (h : styleNamed p_font_style = true) :
    allNamed (initialState p_sys p_font_style).p_fonts = true ∧
    0 < (initialState p_sys p_font_style).p_fonts.length := by
  cases p_font_style with
  | none => exact ⟨rfl, by simp [initialState, PushFont, linkLast]⟩
  | some style =>
    have hs : style.psz_fontname.isSome = true := h
    refine ⟨?_, by simp [initialState, PushFont, linkLast]⟩
    simp [initialState, PushFont, linkLast, allNamed, hs]

/-- `ProcessNodes` returns whenever the initial entry has a font name and no
`font` end event of the sequence is stray. -/
theorem ProcessNodes_returns (p_sys : filter_sys_t) (p_font_style : Option text_style_t)
    (nodes : List xml_node) (hstyle : styleNamed p_font_style = true)
    (hm : fontEndsMatched 0 nodes = true) :
    ProcessNodes p_sys p_font_style nodes =
      some (traversalEffect p_sys p_font_style nodes) := by
  obtain ⟨h1, h2⟩ := initialState_named p_sys p_font_style hstyle
  exact ProcessNodes_of_processNodes p_sys p_font_style nodes
    (processNodes_returns p_sys nodes _ 0 h1 h2 hm)

theorem fontEndsMatched_of_balanced (nodes : List xml_node) :
    ∀ depth : Nat, fontBalanced depth nodes = true → fontEndsMatched depth nodes = true := by
  induction nodes with
  | nil => intro depth _; rfl
  | cons node rest ih =>
    intro depth h
    simp only [fontBalanced, fontEndsMatched] at h ⊢
    split_ifs at h ⊢ with hs he
    · exact ih _ h
    · cases depth with
      | zero => cases h
      | succ d => exact ih _ h
    · exact ih _ h

/-- An end event always returns. -/
theorem processNode_endelem (p_sys : filter_sys_t) (st : run_state) (name : Option String) :
    processNode p_sys st (xml_node.XML_READER_ENDELEM name) =
      some (nodeEffect p_sys st (xml_node.XML_READER_ENDELEM name)) := by
  cases name with
  | none => rfl
  | some n =>
    simp only [processNode, nodeEffect]
    split_ifs <;> rfl

/-- The stacks at the runs of a traversal are among those of its effect. -/
theorem stacksAtRuns_subset (p_sys : filter_sys_t) (nodes : List xml_node) :
    ∀ (st : run_state), ∀ s ∈ stacksAtRuns p_sys st nodes,
      s ∈ effectStacksAtRuns p_sys st nodes := by
  induction nodes with
  | nil => intro st s hs; simp [stacksAtRuns] at hs
  | cons node rest ih =>
    intro st s hs
    rcases processNode_none_or p_sys st node with h0 | h1
    · simp [stacksAtRuns, h0] at hs
    · simp only [stacksAtRuns, h1] at hs
      simp only [effectStacksAtRuns]
      split_ifs at hs ⊢ with hruns
      · exact ih _ s hs
      · rcases List.mem_cons.mp hs with h2 | h2
        · exact List.mem_cons.mpr (Or.inl h2)
        · exact List.mem_cons.mpr (Or.inr (ih _ s h2))

/-! ## Claims on the run builder -/

/-- C6, at the input that refutes it: after a stray `font` end event the
run of the following text event is emitted on an empty stack, and its style
is `NULL`. -/
theorem C6_stray_font_end_empties_stack :
    stacksAtRuns sys20 (initialState sys20 none) nodesStrayEnd = [[]] ∧
    ¬ (∀ s ∈ stacksAtRuns sys20 (initialState sys20 none) nodesStrayEnd, s ≠ []) ∧
    (ProcessNodes sys20 none nodesStrayEnd).map (fun res => res.pp_styles) =
      some [none] := by
  have h0 : stacksAtRuns sys20 (initialState sys20 none) nodesStrayEnd = [[]] := by decide
  refine ⟨h0, ?_, by decide⟩
  intro hall
  exact hall [] (by rw [h0]; simp) rfl

/-- C6, amended: for every sequence of events without a stray `font` end
event, the font stack is non-empty at every moment a run is emitted, with the
initial entry at its bottom, and whenever the traversal returns the initial
entry is still at the bottom when it ends, so that only the cleanup removes
it; the traversal returns whenever the initial entry has a font name. -/
theorem C6_stack_nonempty_without_stray_font_end (p_sys : filter_sys_t)
    (p_font_style : Option text_style_t) (nodes : List xml_node)
    (h : fontEndsMatched 0 nodes = true) :
    ∃ entry, (initialState p_sys p_font_style).p_fonts = [entry] ∧
      (∀ s ∈ stacksAtRuns p_sys (initialState p_sys p_font_style) nodes,
        s ≠ [] ∧ s.head? = some entry) ∧
      (∀ last : run_state,
        processNodes p_sys (initialState p_sys p_font_style) nodes = some last →
        last.p_fonts ≠ [] ∧ last.p_fonts.head? = some entry) ∧
      (styleNamed p_font_style = true →
        ∃ last : run_state,
          processNodes p_sys (initialState p_sys p_font_style) nodes = some last) := by
  obtain ⟨entry, hentry, hruns, hne, hhead⟩ :=
    nodesEffect_keeps_initial_entry p_sys p_font_style nodes h
  refine ⟨entry, hentry, ?_, ?_, ?_⟩
  · intro s hs
    exact hruns s (stacksAtRuns_subset p_sys nodes _ s hs)
  · intro last hlast
    have := processNodes_effect p_sys nodes _ _ hlast
    subst this
    exact ⟨hne, hhead⟩
  · intro hstyle
    obtain ⟨h1, h2⟩ := initialState_named p_sys p_font_style hstyle
    exact ⟨_, processNodes_returns p_sys nodes _ 0 h1 h2 h⟩

/-- Witness of C6 (amended) on the events of `A<font color="#FF0000">B</font>C`. -/
theorem C6_stack_nonempty_without_stray_font_end_witness :
    fontEndsMatched 0 nodesABC = true ∧
    ∃ last : run_state,
      processNodes sys20 (initialState sys20 (some style20)) nodesABC = some last ∧
      last.p_fonts ≠ [] ∧
      (∀ s ∈ stacksAtRuns sys20 (initialState sys20 (some style20)) nodesABC, s ≠ []) := by
  obtain ⟨entry, _, hruns, hend, hret⟩ :=
    C6_stack_nonempty_without_stray_font_end sys20 (some style20) nodesABC (by decide)
  obtain ⟨last, hlast⟩ := hret rfl
  exact ⟨by decide, last, hlast, (hend last hlast).1, fun s hs => (hruns s hs).1⟩

/-- C7, at the inputs that refute it: with no start event before it, an end
event of `b` clears the bold flag taken from the caller's default style, and
an end event of `font` removes the initial entry. -/
theorem C7_unmatched_end_event_changes_state :
    (initialState sys20 (some styleBold)).b_bold = true ∧
    (processNode sys20 (initialState sys20 (some styleBold))
      (xml_node.XML_READER_ENDELEM (some "b"))).map (fun next => next.b_bold) =
      some false ∧
    (initialState sys20 none).p_fonts = [⟨some "Verdana", 20, 16777215, 0⟩] ∧
    (processNode sys20 (initialState sys20 none)
      (xml_node.XML_READER_ENDELEM (some "font"))).map (fun next => next.p_fonts) =
      some [] := by
  refine ⟨by decide, by decide, by decide, by decide⟩

/-- C7, amended: an end event of `font`, `b`, `i` or `u` never looks for a
matching start event, and always returns.  An end event of `font` removes the
top entry of the stack, whichever it is, and changes nothing else; it is a
no-op exactly when the stack is empty.  An end event of `b`, `i` or `u`
clears its flag and changes nothing else; it is a no-op exactly when the flag
is clear already. -/
theorem C7_end_event_effect (p_sys : filter_sys_t) (st : run_state) (n : String) :
    (strcasecmp "font" n = 0 →
      processNode p_sys st (xml_node.XML_READER_ENDELEM (some n)) =
        some { st with p_fonts := st.p_fonts.dropLast } ∧
      (processNode p_sys st (xml_node.XML_READER_ENDELEM (some n)) = some st ↔
        st.p_fonts = [])) ∧
    (strcasecmp "b" n = 0 →
      processNode p_sys st (xml_node.XML_READER_ENDELEM (some n)) =
        some { st with b_bold := false } ∧
      (processNode p_sys st (xml_node.XML_READER_ENDELEM (some n)) = some st ↔
        st.b_bold = false)) ∧
    (strcasecmp "i" n = 0 →
      processNode p_sys st (xml_node.XML_READER_ENDELEM (some n)) =
        some { st with b_italic := false } ∧
      (processNode p_sys st (xml_node.XML_READER_ENDELEM (some n)) = some st ↔
        st.b_italic = false)) ∧
    (strcasecmp "u" n = 0 →
      processNode p_sys st (xml_node.XML_READER_ENDELEM (some n)) =
        some { st with b_uline := false } ∧
      (processNode p_sys st (xml_node.XML_READER_ENDELEM (some n)) = some st ↔
        st.b_uline = false)) := by
  obtain ⟨g1, g2, g3, g4⟩ := nodeEffect_end_event p_sys st n
  rw [processNode_endelem]
  simp only [Option.some.injEq]
  exact ⟨g1, g2, g3, g4⟩

/-- Witness of C7 (amended): an end event of `b` on the initial state of a
bold default style clears the flag. -/
theorem C7_end_event_effect_witness :
    strcasecmp "b" "b" = 0 ∧
    processNode sys20 (initialState sys20 (some styleBold))
        (xml_node.XML_READER_ENDELEM (some "b")) =
      some { initialState sys20 (some styleBold) with b_bold := false } :=
  ⟨by decide,
   ((C7_end_event_effect sys20 (initialState sys20 (some styleBold)) "b").2.1
      (by decide)).1⟩

/-- C9, on the code: when the font stack is empty, `GetStyleFromFontStack`
returns the `NULL` style whatever the renderer's defaults and the flags are,
so the run of a text event after a stray `font` end event has no style. -/
theorem C9_empty_stack_gives_null_style (p_sys : filter_sys_t) (b_bold b_italic b_uline : Bool) :
    GetStyleFromFontStack p_sys [] b_bold b_italic b_uline = some none ∧
    (ProcessNodes sys20 none nodesStrayEnd).map (fun res => res.pi_runs) = some 1 ∧
    (ProcessNodes sys20 none nodesStrayEnd).map (fun res => res.pp_styles) =
      some [none] := by
  refine ⟨?_, by decide, by decide⟩
  have hnamed : topNamed ([] : FontStack) = true := rfl
  rw [GetStyleFromFontStack_eq, if_pos hnamed, resolvedStyle_of_empty]

/-- C10, at the input that refutes it: `<font size="abc" color="#zz"
alpha="#">` in a scope of size 40, red, alpha 128 pushes an entry of size 0,
colour 0 and alpha 0. -/
theorem C10_unparsable_values_give_zero :
    (initialState sys20 (some styleRed40)).p_fonts = [⟨some "Arial", 40, 16711680, 128⟩] ∧
    (processNode sys20 (initialState sys20 (some styleRed40)) fontUnparsable).map
        (fun next => next.p_fonts) =
      some [⟨some "Arial", 40, 16711680, 128⟩, ⟨some "Arial", 0, 0, 0⟩] := by
  refine ⟨by decide, by decide⟩

/-- C10, amended: for a `font` start event processed on a stack whose top
entry has a font name, a `color` or `alpha` attribute whose value lacks the
leading `#` is ignored, so that a field no attribute sets keeps the value of
the top entry; a `size` value that does not start with a decimal integer
gives size 0, and a `color` or `alpha` value whose `#` is not followed by a
hexadecimal number gives 0 for that field. -/
theorem C10_unparsable_value_effect (p_sys : filter_sys_t) (st : run_state) (n : String)
    (attrs : List (Option String × Option String)) (top : font_stack_t) (name : String)
    (hfont : strcasecmp "font" n = 0) (htop : lastNode st.p_fonts = some top)
    (hname : top.psz_name = some name) :
    ∃ (pushed : font_stack_t) (next : run_state),
      processNode p_sys st (xml_node.XML_READER_STARTELEM (some n) attrs) = some next ∧
      next.p_fonts = st.p_fonts ++ [pushed] ∧
      (lastAttr "color" true attrs = none → pushed.i_color = top.i_color) ∧
      (lastAttr "alpha" true attrs = none → pushed.i_alpha = top.i_alpha) ∧
      (∀ v, lastAttr "size" false attrs = some v → noLeadingNumber 10 v.data = true →
        pushed.i_size = 0) ∧
      (∀ v, lastAttr "color" true attrs = some v →
        noLeadingNumber 16 (v.data.drop 1) = true → pushed.i_color = 0) ∧
      (∀ v, lastAttr "alpha" true attrs = some v →
        noLeadingNumber 16 (v.data.drop 1) = true → pushed.i_alpha = 0) := by
  obtain ⟨pushed, hp, g1, g2, g3, g4, g5⟩ :=
    nodeEffect_unparsable_values p_sys st n attrs top hfont htop
  exact ⟨pushed, _,
    processNode_returns p_sys st _ (topNamed_of_top htop (by simp [hname])),
    hp, g1, g2, g3, g4, g5⟩

/-- Witness of C10 (amended): `<font size="abc" color="#zz" alpha="#">` on
the initial entry of a default style of size 40, red, alpha 128. -/
theorem C10_unparsable_value_effect_witness :
    strcasecmp "font" "font" = 0 ∧
    lastNode (initialState sys20 (some styleRed40)).p_fonts =
      some ⟨some "Arial", 40, 16711680, 128⟩ ∧
    ∃ (pushed : font_stack_t) (next : run_state),
      processNode sys20 (initialState sys20 (some styleRed40)) fontUnparsable = some next ∧
      next.p_fonts = (initialState sys20 (some styleRed40)).p_fonts ++ [pushed] ∧
      pushed.i_size = 0 ∧ pushed.i_color = 0 ∧ pushed.i_alpha = 0 :=
  ⟨by decide, by decide, by
    obtain ⟨pushed, next, hn, hp, _, _, hsize, hcolor, halpha⟩ :=
      C10_unparsable_value_effect sys20 (initialState sys20 (some styleRed40)) "font"
        [(some "size", some "abc"), (some "color", some "#zz"), (some "alpha", some "#")]
        ⟨some "Arial", 40, 16711680, 128⟩ "Arial" (by decide) (by decide) rfl
    exact ⟨pushed, next, hn, hp, hsize "abc" (by decide) (by decide),
      hcolor "#zz" (by decide) (by decide), halpha "#" (by decide) (by decide)⟩⟩

/-- C11, at the input that refutes it: `<font color="#112233">`, which has no
`alpha` attribute, in a scope of alpha 128 pushes an entry of alpha 128. -/
theorem C11_missing_alpha_is_inherited :
    carriesAttr "alpha" [(some "color", some "#112233")] = false ∧
    (initialState sys20 (some styleRed40)).p_fonts = [⟨some "Arial", 40, 16711680, 128⟩] ∧
    (processNode sys20 (initialState sys20 (some styleRed40)) fontColor112233).map
        (fun next => next.p_fonts) =
      some [⟨some "Arial", 40, 16711680, 128⟩, ⟨some "Arial", 40, 1122867, 128⟩] := by
  refine ⟨by decide, by decide, by decide⟩

/-- C11, amended: a `font` start event that carries no `alpha` attribute,
processed in a state whose top entry (if there is one) has a font name,
pushes an entry whose alpha is the alpha of the entry on top of the stack at
that moment; it is the baseline 0 only when the stack is empty. -/
theorem C11_missing_alpha_effect (p_sys : filter_sys_t) (st : run_state) (n : String)
    (attrs : List (Option String × Option String))
    (hfont : strcasecmp "font" n = 0) (hno : carriesAttr "alpha" attrs = false)
    (hnamed : topNamed st.p_fonts = true) :
    ∃ (pushed : font_stack_t) (next : run_state),
      processNode p_sys st (xml_node.XML_READER_STARTELEM (some n) attrs) = some next ∧
      next.p_fonts = st.p_fonts ++ [pushed] ∧
      (∀ top, lastNode st.p_fonts = some top → pushed.i_alpha = top.i_alpha) ∧
      (st.p_fonts = [] → pushed.i_alpha = 0) := by
  obtain ⟨pushed, hp, g1, g2⟩ := nodeEffect_missing_alpha p_sys st n attrs hfont hno
  exact ⟨pushed, _, processNode_returns p_sys st _ hnamed, hp, g1, g2⟩

/-- Witness of C11 (amended): `<font color="#112233">` on the initial entry
of a default style of alpha 128. -/
theorem C11_missing_alpha_effect_witness :
    strcasecmp "font" "font" = 0 ∧
    carriesAttr "alpha" [(some "color", some "#112233")] = false ∧
    topNamed (initialState sys20 (some styleRed40)).p_fonts = true ∧
    ∃ (pushed : font_stack_t) (next : run_state),
      processNode sys20 (initialState sys20 (some styleRed40)) fontColor112233 =
        some next ∧
      next.p_fonts = (initialState sys20 (some styleRed40)).p_fonts ++ [pushed] ∧
      pushed.i_alpha = 128 :=
  ⟨by decide, by decide, by decide, by
    obtain ⟨pushed, next, hn, hp, htop, _⟩ :=
      C11_missing_alpha_effect sys20 (initialState sys20 (some styleRed40)) "font"
        [(some "color", some "#112233")] (by decide) (by decide) (by decide)
    exact ⟨pushed, next, hn, hp, htop ⟨some "Arial", 40, 16711680, 128⟩ (by decide)⟩⟩

theorem shift13 (x : Int) : x >>> (13 : Nat) = x / 8192 := by
  rw [Int.shiftRight_eq_div_pow]
  rfl

/-- On bytes, the luma is the quotient of its sum by 8192, rounded down: the
absolute value, the clamp and the cast change nothing. -/
theorem pixelY_eq (r g b : Int) (hr : 0 ≤ r ∧ r ≤ 255) (hg : 0 ≤ g ∧ g ≤ 255)
    (hb : 0 ≤ b ∧ b ≤ 255) : pixelY r g b = lumaSum r g b / 8192 := by
  have hpos : 0 < lumaSum r g b := by unfold lumaSum; omega
  have hmax : lumaSum r g b ≤ 1929348 := by unfold lumaSum; omega
  have habs : abs (lumaSum r g b) = lumaSum r g b := by
    unfold abs
    rw [if_neg (by omega)]
  unfold pixelY
  rw [habs, shift13]
  unfold toUInt8 __MIN
  split_ifs <;> omega

theorem pixelU_eq (r g b : Int) (hr : 0 ≤ r ∧ r ≤ 255) (hg : 0 ≤ g ∧ g ≤ 255)
    (hb : 0 ≤ b ∧ b ≤ 255) : pixelU r g b = chromaUSum r g b / 8192 := by
  have hpos : 0 < chromaUSum r g b := by unfold chromaUSum; omega
  have hmax : chromaUSum r g b ≤ 1970162 := by unfold chromaUSum; omega
  have habs : abs (chromaUSum r g b) = chromaUSum r g b := by
    unfold abs
    rw [if_neg (by omega)]
  unfold pixelU
  rw [habs, shift13]
  unfold toUInt8 __MIN
  split_ifs <;> omega

theorem pixelV_eq (r g b : Int) (hr : 0 ≤ r ∧ r ≤ 255) (hg : 0 ≤ g ∧ g ≤ 255)
    (hb : 0 ≤ b ∧ b ≤ 255) : pixelV r g b = chromaVSum r g b / 8192 := by
  have hpos : 0 < chromaVSum r g b := by unfold chromaVSum; omega
  have hmax : chromaVSum r g b ≤ 1970162 := by unfold chromaVSum; omega
  have habs : abs (chromaVSum r g b) = chromaVSum r g b := by
    unfold abs
    rw [if_neg (by omega)]
  unfold pixelV
  rw [habs, shift13]
  unfold toUInt8 __MIN
  split_ifs <;> omega

/-- C15, at the input that refutes it: for the pixel of red 1, green 0,
blue 0 the luma sum is 137272, whose exact quotient by 8192 is 16.76 with 17
as its only nearest integer, and the compositing loop writes 16. -/
theorem C15_luma_is_rounded_down :
    lumaSum 1 0 0 = 137272 ∧
    (compositeLoop (onePixel 255 1 0 0) 1 1 (filledPicture 0 1 1 1 1)).Y_PIXELS 3 = 16 ∧
    ¬ ∃ q : Int, isNearestInteger (lumaSum 1 0 0) 8192 q ∧ clamp q 0 235 = 16 := by
  refine ⟨by decide, by decide, ?_⟩
  rintro ⟨q, ⟨h1, h2⟩, h3⟩
  have hsum : lumaSum 1 0 0 = 137272 := by decide
  rw [hsum] at h1 h2
  have hq : q = 17 := by omega
  rw [hq] at h3
  revert h3
  decide

/-- C15, amended: for a raster pixel whose alpha, red, green and blue bytes
are in 0..255, the body of the compositing loop writes, at `i_offset + x` of
the four planes, Y, U and V equal to the quotient by 8192 of the sums of the
claim, rounded down and clamped to [0, 235] and [0, 240], and A equal to the
source alpha byte; rounded down, each quotient is an integer nearest to the
quotient of the sum without its term 4096. -/
theorem C15_pixel_values (p_offScreen : offscreen_bitmap_t) (i_offset x y : Nat)
    (picture : picture_t) (a r g b : Int)
    (ha : p_offScreen.p_data
      (y * p_offScreen.i_bytesPerRow + x * p_offScreen.i_bytesPerPixel) = a)
    (hr : p_offScreen.p_data
      (y * p_offScreen.i_bytesPerRow + x * p_offScreen.i_bytesPerPixel + 1) = r)
    (hg : p_offScreen.p_data
      (y * p_offScreen.i_bytesPerRow + x * p_offScreen.i_bytesPerPixel + 2) = g)
    (hb : p_offScreen.p_data
      (y * p_offScreen.i_bytesPerRow + x * p_offScreen.i_bytesPerPixel + 3) = b)
    (hra : 0 ≤ r ∧ r ≤ 255) (hga : 0 ≤ g ∧ g ≤ 255) (hba : 0 ≤ b ∧ b ≤ 255) :
    (compositePixel p_offScreen i_offset y picture x).Y_PIXELS (i_offset + x) =
      clamp ((2104 * r + 4130 * g + 802 * b + 4096 + 131072) / 8192) 0 235 ∧
    (compositePixel p_offScreen i_offset y picture x).U_PIXELS (i_offset + x) =
      clamp ((-1214 * r - 2384 * g + 3598 * b + 4096 + 1048576) / 8192) 0 240 ∧
    (compositePixel p_offScreen i_offset y picture x).V_PIXELS (i_offset + x) =
      clamp ((3598 * r - 3013 * g - 585 * b + 4096 + 1048576) / 8192) 0 240 ∧
    (compositePixel p_offScreen i_offset y picture x).A_PIXELS (i_offset + x) = a ∧
    isNearestInteger (2104 * r + 4130 * g + 802 * b + 131072) 8192
      ((2104 * r + 4130 * g + 802 * b + 4096 + 131072) / 8192) ∧
    isNearestInteger (-1214 * r - 2384 * g + 3598 * b + 1048576) 8192
      ((-1214 * r - 2384 * g + 3598 * b + 4096 + 1048576) / 8192) ∧
    isNearestInteger (3598 * r - 3013 * g - 585 * b + 1048576) 8192
      ((3598 * r - 3013 * g - 585 * b + 4096 + 1048576) / 8192) := by
  have hy := pixelY_eq r g b hra hga hba
  have hu := pixelU_eq r g b hra hga hba
  have hv := pixelV_eq r g b hra hga hba
  simp only [compositePixel, storeByte, if_true, ha, hr, hg, hb, hy, hu, hv]
  unfold lumaSum chromaUSum chromaVSum clamp isNearestInteger
  refine ⟨?_, ?_, ?_, trivial, by omega, by omega, by omega⟩
  · split_ifs <;> omega
  · split_ifs <;> omega
  · split_ifs <;> omega

/-- Witness of C15 (amended): the pixel of alpha 255, red 1, green 0, blue 0. -/
theorem C15_pixel_values_witness :
    (compositePixel (onePixel 255 1 0 0) 3 0 (filledPicture 0 1 1 1 1) 0).Y_PIXELS (3 + 0) =
      clamp ((2104 * 1 + 4130 * 0 + 802 * 0 + 4096 + 131072) / 8192) 0 235 ∧
    (compositePixel (onePixel 255 1 0 0) 3 0 (filledPicture 0 1 1 1 1) 0).A_PIXELS (3 + 0) =
      255 :=
  ⟨(C15_pixel_values (onePixel 255 1 0 0) 3 0 0 (filledPicture 0 1 1 1 1) 255 1 0 0
      (by decide) (by decide) (by decide) (by decide) (by decide) (by decide)
      (by decide)).1,
   (C15_pixel_values (onePixel 255 1 0 0) 3 0 0 (filledPicture 0 1 1 1 1) 255 1 0 0
      (by decide) (by decide) (by decide) (by decide) (by decide) (by decide)
      (by decide)).2.2.2.1⟩

/-- C16: for red, green and blue in 0..255 the luma lies in [16, 235] and
both chroma values in [16, 240]; each of the three sums is positive and fits
a signed 32-bit integer, as do the products and partial sums it is made of,
so that the absolute value, the upper clamp and the cast to 8 bits each
return their argument; white gives Y = 235, U = V = 128 and black gives
Y = 16, U = V = 128. -/
theorem C16_luma_and_chroma_bounds (r g b : Int) (hr : 0 ≤ r ∧ r ≤ 255)
    (hg : 0 ≤ g ∧ g ≤ 255) (hb : 0 ≤ b ∧ b ≤ 255) :
    (16 ≤ pixelY r g b ∧ pixelY r g b ≤ 235) ∧
    (16 ≤ pixelU r g b ∧ pixelU r g b ≤ 240) ∧
    (16 ≤ pixelV r g b ∧ pixelV r g b ≤ 240) ∧
    (0 < lumaSum r g b ∧ lumaSum r g b < 2147483648) ∧
    (0 < chromaUSum r g b ∧ chromaUSum r g b < 2147483648) ∧
    (0 < chromaVSum r g b ∧ chromaVSum r g b < 2147483648) ∧
    (abs (lumaSum r g b) = lumaSum r g b ∧
      __MIN (lumaSum r g b >>> (13 : Nat)) 235 = lumaSum r g b >>> (13 : Nat) ∧
      toUInt8 (lumaSum r g b >>> (13 : Nat)) = lumaSum r g b >>> (13 : Nat)) ∧
    (abs (chromaUSum r g b) = chromaUSum r g b ∧
      __MIN (chromaUSum r g b >>> (13 : Nat)) 240 = chromaUSum r g b >>> (13 : Nat) ∧
      toUInt8 (chromaUSum r g b >>> (13 : Nat)) = chromaUSum r g b >>> (13 : Nat)) ∧
    (abs (chromaVSum r g b) = chromaVSum r g b ∧
      __MIN (chromaVSum r g b >>> (13 : Nat)) 240 = chromaVSum r g b >>> (13 : Nat) ∧
      toUInt8 (chromaVSum r g b >>> (13 : Nat)) = chromaVSum r g b >>> (13 : Nat)) ∧
    (∀ p ∈ [2104 * r, 4130 * g, 802 * b, 2104 * r + 4130 * g,
        2104 * r + 4130 * g + 802 * b, 2104 * r + 4130 * g + 802 * b + 4096,
        -1214 * r, -2384 * g, 3598 * b, -1214 * r + -2384 * g,
        -1214 * r + -2384 * g + 3598 * b, -1214 * r + -2384 * g + 3598 * b + 4096,
        3598 * r, -3013 * g, -585 * b, 3598 * r + -3013 * g,
        3598 * r + -3013 * g + -585 * b, 3598 * r + -3013 * g + -585 * b + 4096],
      -2147483648 ≤ p ∧ p ≤ 2147483647) ∧
    (pixelY 255 255 255 = 235 ∧ pixelU 255 255 255 = 128 ∧ pixelV 255 255 255 = 128) ∧
    (pixelY 0 0 0 = 16 ∧ pixelU 0 0 0 = 128 ∧ pixelV 0 0 0 = 128) := by
  have hy := pixelY_eq r g b hr hg hb
  have hu := pixelU_eq r g b hr hg hb
  have hv := pixelV_eq r g b hr hg hb
  have sy : lumaSum r g b = 2104 * r + 4130 * g + 802 * b + 4096 + 131072 := rfl
  have su : chromaUSum r g b = -1214 * r + -2384 * g + 3598 * b + 4096 + 1048576 := rfl
  have sv : chromaVSum r g b = 3598 * r + -3013 * g + -585 * b + 4096 + 1048576 := rfl
  refine ⟨by omega, by omega, by omega, by omega, by omega, by omega, ⟨?_, ?_, ?_⟩,
    ⟨?_, ?_, ?_⟩, ⟨?_, ?_, ?_⟩, ?_, by decide, by decide⟩
  rotate_right
  · intro p hp
    simp only [List.mem_cons, List.mem_singleton, List.not_mem_nil, or_false] at hp
    omega
  · unfold abs
    rw [if_neg (by omega)]
  · rw [shift13]
    unfold __MIN
    split_ifs <;> omega
  · rw [shift13]
    unfold toUInt8
    omega
  · unfold abs
    rw [if_neg (by omega)]
  · rw [shift13]
    unfold __MIN
    split_ifs <;> omega
  · rw [shift13]
    unfold toUInt8
    omega
  · unfold abs
    rw [if_neg (by omega)]
  · rw [shift13]
    unfold __MIN
    split_ifs <;> omega
  · rw [shift13]
    unfold toUInt8
    omega

/-- Witness of C16 at the pixel of red 255, green 0, blue 0. -/
theorem C16_luma_and_chroma_bounds_witness :
    ((0 : Int) ≤ 255 ∧ (255 : Int) ≤ 255) ∧ ((0 : Int) ≤ 0 ∧ (0 : Int) ≤ 255) ∧
    (16 ≤ pixelY 255 0 0 ∧ pixelY 255 0 0 ≤ 235) ∧
    (16 ≤ pixelU 255 0 0 ∧ pixelU 255 0 0 ≤ 240) ∧
    (16 ≤ pixelV 255 0 0 ∧ pixelV 255 0 0 ≤ 240) :=
  ⟨by decide, by decide,
   (C16_luma_and_chroma_bounds 255 0 0 (by decide) (by decide) (by decide)).1,
   (C16_luma_and_chroma_bounds 255 0 0 (by decide) (by decide) (by decide)).2.1,
   (C16_luma_and_chroma_bounds 255 0 0 (by decide) (by decide) (by decide)).2.2.1⟩

/-! ## The compositing loop -/

theorem compositePixel_plane (plane : plane_id) (p_offScreen : offscreen_bitmap_t)
    (i_offset y : Nat) (picture : picture_t) (x : Nat) :
    planeOf plane (compositePixel p_offScreen i_offset y picture x) =
      storeByte (planeOf plane picture) (i_offset + x)
        (sourceValue plane p_offScreen x y) := by
  cases plane <;> rfl

/-- One row of the loop: the cells `i_offset` to `i_offset + i_width - 1` of
each plane receive the values of the row, every other cell is kept. -/
theorem compositeRow_plane (plane : plane_id) (p_offScreen : offscreen_bitmap_t)
    (i_offset y : Nat) (picture : picture_t) (j : Nat) :
    ∀ i_width : Nat,
      planeOf plane (compositeRow p_offScreen i_width i_offset y picture) j =
        if i_offset ≤ j ∧ j < i_offset + i_width then
          sourceValue plane p_offScreen (j - i_offset) y
        else planeOf plane picture j := by
  intro i_width
  induction i_width with
  | zero =>
    simp only [compositeRow, List.range_zero, List.foldl_nil]
    rw [if_neg (by omega)]
  | succ w ih =>
    have hstep : compositeRow p_offScreen (w + 1) i_offset y picture =
        compositePixel p_offScreen i_offset y
          (compositeRow p_offScreen w i_offset y picture) w := by
      simp [compositeRow, List.range_succ, List.foldl_append]
    rw [hstep, compositePixel_plane]
    unfold storeByte
    by_cases hj : j = i_offset + w
    · rw [if_pos hj, if_pos (by omega)]
      have hx : j - i_offset = w := by omega
      rw [hx]
    · rw [if_neg hj, ih]
      by_cases hin : i_offset ≤ j ∧ j < i_offset + w
      · rw [if_pos hin, if_pos (by omega)]
      · rw [if_neg hin, if_neg (by omega)]

/-- The rows of the loop keep every cell that is not one of the cells
`i_offset + k * i_pitch + x` of a row `k` and a column `x` below the width. -/
theorem compositeRows_frame (plane : plane_id) (p_offScreen : offscreen_bitmap_t)
    (i_width i_pitch : Nat) (j : Nat) :
    ∀ (rows : List Nat) (i_offset : Nat) (picture : picture_t),
      (∀ k x, k < rows.length → x < i_width → j ≠ i_offset + k * i_pitch + x) →
      planeOf plane (compositeRows p_offScreen i_width i_pitch rows i_offset picture) j =
        planeOf plane picture j := by
  intro rows
  induction rows with
  | nil => intro i_offset picture _; rfl
  | cons y rest ih =>
    intro i_offset picture hj
    simp only [compositeRows]
    rw [ih (i_offset + i_pitch) _ ?_, compositeRow_plane]
    · rw [if_neg]
      intro hin
      have := hj 0 (j - i_offset) (by simp) (by omega)
      omega
    · intro k x hk hx
      have := hj (k + 1) x (by simpa using hk) hx
      rw [Nat.succ_mul] at this
      omega

/-- The rows of the loop, for a stride at least the width: the cell
`i_offset + k * i_pitch + x` of each plane holds the value computed for the
column `x` of the `k`-th row. -/
theorem compositeRows_written (plane : plane_id) (p_offScreen : offscreen_bitmap_t)
    (i_width i_pitch : Nat) (hw : i_width ≤ i_pitch) :
    ∀ (rows : List Nat) (i_offset : Nat) (picture : picture_t) (k x : Nat)
      (hk : k < rows.length), x < i_width →
      planeOf plane (compositeRows p_offScreen i_width i_pitch rows i_offset picture)
          (i_offset + k * i_pitch + x) =
        sourceValue plane p_offScreen x (rows.get ⟨k, hk⟩) := by
  intro rows
  induction rows with
  | nil => intro i_offset picture k x hk; simp at hk
  | cons y rest ih =>
    intro i_offset picture k x hk hx
    simp only [compositeRows]
    cases k with
    | zero =>
      rw [compositeRows_frame plane p_offScreen i_width i_pitch _ rest _ _ ?_,
        compositeRow_plane]
      · rw [if_pos (by omega)]
        have hsub : i_offset + 0 * i_pitch + x - i_offset = x := by omega
        rw [hsub]
        rfl
      · intro k2 x2 _ _
        have : 0 ≤ k2 * i_pitch := Nat.zero_le _
        omega
    | succ k2 =>
      have hk2 : k2 < rest.length := by simpa using hk
      have hidx : i_offset + (k2 + 1) * i_pitch + x = i_offset + i_pitch + k2 * i_pitch + x := by
        rw [Nat.succ_mul]
        omega
      rw [hidx, ih (i_offset + i_pitch) _ k2 x hk2 hx]
      rfl

/-- The compositing loop, for a stride of the alpha plane at least the
width: the value computed for the pixel `(x, y)` is in each plane at the
index `(VERTICAL_MARGIN + y) * A_PITCH + x`. -/
theorem compositeLoop_written (plane : plane_id) (p_offScreen : offscreen_bitmap_t)
    (i_width : Nat) (i_textblock_height : Int) (picture : picture_t)
    (hw : i_width ≤ picture.A_PITCH) (x y : Nat) (hx : x < i_width)
    (hy : (y : Int) < i_textblock_height) :
    planeOf plane (compositeLoop p_offScreen i_width i_textblock_height picture)
        ((VERTICAL_MARGIN + y) * picture.A_PITCH + x) =
      sourceValue plane p_offScreen x y := by
  have hk : y < (List.range i_textblock_height.toNat).length := by
    rw [List.length_range]
    omega
  have h := compositeRows_written plane p_offScreen i_width picture.A_PITCH hw
    (List.range i_textblock_height.toNat) (VERTICAL_MARGIN * picture.A_PITCH) picture y x hk hx
  have hidx : (VERTICAL_MARGIN + y) * picture.A_PITCH + x =
      VERTICAL_MARGIN * picture.A_PITCH + y * picture.A_PITCH + x := by
    rw [Nat.add_mul]
  rw [hidx]
  unfold compositeLoop
  rw [h]
  simp

/-- The compositing loop keeps every cell outside the rows `VERTICAL_MARGIN`
to `VERTICAL_MARGIN + i_textblock_height - 1` (counted in strides of the
alpha plane), for a stride at least the width. -/
theorem compositeLoop_frame (plane : plane_id) (p_offScreen : offscreen_bitmap_t)
    (i_width : Nat) (i_textblock_height : Int) (picture : picture_t)
    (hw : i_width ≤ picture.A_PITCH) (j : Nat)
    (hj : j < VERTICAL_MARGIN * picture.A_PITCH ∨
      (VERTICAL_MARGIN + i_textblock_height.toNat) * picture.A_PITCH ≤ j) :
    planeOf plane (compositeLoop p_offScreen i_width i_textblock_height picture) j =
      planeOf plane picture j := by
  unfold compositeLoop
  apply compositeRows_frame
  intro k x hk hx
  rw [List.length_range] at hk
  have h1 : (k + 1) * picture.A_PITCH ≤ i_textblock_height.toNat * picture.A_PITCH :=
    Nat.mul_le_mul_right _ (by omega)
  rw [Nat.succ_mul] at h1
  rw [Nat.add_mul] at hj
  omega

/-- C17, at the input that refutes it: a white pixel composited into a
picture whose Y plane has stride 2 while its alpha plane has stride 1.  The
luma 235 is stored at index 3 = (VERTICAL_MARGIN + 0) * A_PITCH + 0 of the Y
plane; index 6 = (VERTICAL_MARGIN + 0) * Y_PITCH + 0 keeps its old byte. -/
theorem C17_luma_index_uses_alpha_stride :
    sourceValue plane_id.Y (onePixel 255 255 255 255) 0 0 = 235 ∧
    planeOf plane_id.Y
        (compositeLoop (onePixel 255 255 255 255) 1 1 (filledPicture 0 2 1 1 1))
        ((VERTICAL_MARGIN + 0) * pitchOf plane_id.Y (filledPicture 0 2 1 1 1) + 0) = 0 ∧
    planeOf plane_id.Y
        (compositeLoop (onePixel 255 255 255 255) 1 1 (filledPicture 0 2 1 1 1))
        ((VERTICAL_MARGIN + 0) * (filledPicture 0 2 1 1 1).A_PITCH + 0) = 235 ∧
    ¬ (∀ (plane : plane_id) (x y : Nat), x < 1 → (y : Int) < 1 →
      planeOf plane
          (compositeLoop (onePixel 255 255 255 255) 1 1 (filledPicture 0 2 1 1 1))
          ((VERTICAL_MARGIN + y) * pitchOf plane (filledPicture 0 2 1 1 1) + x) =
        sourceValue plane (onePixel 255 255 255 255) x y) := by
  have h1 : sourceValue plane_id.Y (onePixel 255 255 255 255) 0 0 = 235 := by decide
  have h2 : planeOf plane_id.Y
      (compositeLoop (onePixel 255 255 255 255) 1 1 (filledPicture 0 2 1 1 1))
      ((VERTICAL_MARGIN + 0) * pitchOf plane_id.Y (filledPicture 0 2 1 1 1) + 0) = 0 := by
    decide
  refine ⟨h1, h2, by decide, ?_⟩
  intro hall
  have h3 := hall plane_id.Y 0 0 (by decide) (by decide)
  rw [h1] at h3
  have h4 : (0 : Int) = 235 := h2.symm.trans h3
  revert h4
  decide

/-- C17, amended: when the stride of the alpha plane is at least the width,
for every text pixel `(x, y)` and each of the four planes the value computed
for the pixel is in that plane at index (VERTICAL_MARGIN + y) * A_PITCH + x
after the loop: the stride of the alpha plane serves for all four planes,
and the index is the one of the plane's own stride when that stride equals
the stride of the alpha plane. -/
theorem C17_pixel_index (p_offScreen : offscreen_bitmap_t) (i_width : Nat)
    (i_textblock_height : Int) (picture : picture_t) (plane : plane_id) (x y : Nat)
    (hw : i_width ≤ picture.A_PITCH) (hx : x < i_width)
    (hy : (y : Int) < i_textblock_height) :
    planeOf plane (compositeLoop p_offScreen i_width i_textblock_height picture)
        ((VERTICAL_MARGIN + y) * picture.A_PITCH + x) =
      sourceValue plane p_offScreen x y ∧
    (pitchOf plane picture = picture.A_PITCH →
      planeOf plane (compositeLoop p_offScreen i_width i_textblock_height picture)
          ((VERTICAL_MARGIN + y) * pitchOf plane picture + x) =
        sourceValue plane p_offScreen x y) := by
  have h := compositeLoop_written plane p_offScreen i_width i_textblock_height picture
    hw x y hx hy
  refine ⟨h, ?_⟩
  intro hp
  rw [hp]
  exact h

/-- Witness of C17 (amended): the white pixel, in the Y plane of a picture
whose strides are all 1. -/
theorem C17_pixel_index_witness :
    (1 : Nat) ≤ (filledPicture 0 1 1 1 1).A_PITCH ∧
    planeOf plane_id.Y
        (compositeLoop (onePixel 255 255 255 255) 1 1 (filledPicture 0 1 1 1 1))
        ((VERTICAL_MARGIN + 0) * (filledPicture 0 1 1 1 1).A_PITCH + 0) =
      sourceValue plane_id.Y (onePixel 255 255 255 255) 0 0 :=
  ⟨by decide,
   (C17_pixel_index (onePixel 255 255 255 255) 1 1 (filledPicture 0 1 1 1 1) plane_id.Y 0 0
      (by decide) (by decide) (by decide)).1⟩

/-- C18, at the input that refutes it: a picture of seven rows of stride 1
whose planes hold 255 everywhere before the loop, and a text block of one
row.  After the loop the alpha cells of the first three rows (0, 1, 2) and of
the last three rows (4, 5, 6) still hold 255. -/
theorem C18_margins_keep_old_bytes :
    (∀ j ∈ [0, 1, 2, 4, 5, 6],
      (compositeLoop (onePixel 0 255 255 255) 1 1 (filledPicture 255 1 1 1 1)).A_PIXELS j =
        255) ∧
    (compositeLoop (onePixel 0 255 255 255) 1 1 (filledPicture 255 1 1 1 1)).A_PIXELS 3 = 0 := by
  refine ⟨by decide, by decide⟩

/-- C18, amended: when the stride of the alpha plane is at least the width,
the compositing loop writes no cell of the first VERTICAL_MARGIN rows nor of
any row from VERTICAL_MARGIN + text-block height on: after the loop every
such cell of every plane holds the byte it held before the loop, so an alpha
cell of a margin row is 0 exactly when it was 0 before the loop. -/
theorem C18_margins_untouched (p_offScreen : offscreen_bitmap_t) (i_width : Nat)
    (i_textblock_height : Int) (picture : picture_t) (j : Nat)
    (hw : i_width ≤ picture.A_PITCH)
    (hj : j < VERTICAL_MARGIN * picture.A_PITCH ∨
      (VERTICAL_MARGIN + i_textblock_height.toNat) * picture.A_PITCH ≤ j) :
    (∀ plane : plane_id,
      planeOf plane (compositeLoop p_offScreen i_width i_textblock_height picture) j =
        planeOf plane picture j) ∧
    ((compositeLoop p_offScreen i_width i_textblock_height picture).A_PIXELS j = 0 ↔
      picture.A_PIXELS j = 0) := by
  have h := fun plane => compositeLoop_frame plane p_offScreen i_width i_textblock_height
    picture hw j hj
  refine ⟨h, ?_⟩
  have ha : (compositeLoop p_offScreen i_width i_textblock_height picture).A_PIXELS j =
      picture.A_PIXELS j := h plane_id.A
  rw [ha]

/-- Witness of C18 (amended): the cell 5, in the lower margin of a text block
of one row, in a picture of stride 1 filled with 255. -/
theorem C18_margins_untouched_witness :
    (1 : Nat) ≤ (filledPicture 255 1 1 1 1).A_PITCH ∧
    (5 < VERTICAL_MARGIN * (filledPicture 255 1 1 1 1).A_PITCH ∨
      (VERTICAL_MARGIN + (1 : Int).toNat) * (filledPicture 255 1 1 1 1).A_PITCH ≤ 5) ∧
    ∀ plane : plane_id,
      planeOf plane
          (compositeLoop (onePixel 0 255 255 255) 1 1 (filledPicture 255 1 1 1 1)) 5 =
        planeOf plane (filledPicture 255 1 1 1 1) 5 :=
  ⟨by decide, by decide,
   (C18_margins_untouched (onePixel 0 255 255 255) 1 1 (filledPicture 255 1 1 1 1) 5
      (by decide) (by decide)).1⟩



/-! ## The line loop of `Compose` -/

theorem toFixed_of_inFixed {v : Int} (h : inFixed v) : toFixed v = v := by
  unfold inFixed at h
  unfold toFixed
  omega

theorem inFixed_toFixed (v : Int) : inFixed (toFixed v) := by
  unfold inFixed toFixed
  omega

/-- While the cursor stays in the range of `Fixed`, it is the surface height
less the ascents and descents of the lines painted. -/
theorem cursorAfter_exact (layout : Nat → line_answer) (h : Int) (n : Nat)
    (hr : cursorInRange layout h n) :
    ∀ k, k ≤ n → cursorAfter layout h k = h - extentSum layout k := by
  intro k
  induction k with
  | zero =>
    intro _
    simp [cursorAfter, extentSum]
  | succ k ih =>
    intro hk
    have hprev := ih (by omega)
    obtain ⟨h1, h2⟩ := hr.2 k (by omega)
    have hs : extentSum layout (k + 1) =
        extentSum layout k + (layout k).ascent + (layout k).descent := rfl
    simp only [cursorAfter]
    rw [hprev, toFixed_of_inFixed h1]
    have h3 : h - extentSum layout k - (layout k).ascent - (layout k).descent =
        h - extentSum layout (k + 1) := by
      rw [hs]
      omega
    rw [h3, toFixed_of_inFixed h2]

/-- While the cursor stays in the range of `Fixed`, the line `k` is painted
at the surface height less the lines before it less its own ascent. -/
theorem expectedDraw_exact (layout : Nat → line_answer) (x h : Int) (n k : Nat)
    (hr : cursorInRange layout h n) (hk : k < n) :
    expectedDraw layout x h k =
      { i_start := lineStart layout k
        i_length := ((layout k).i_end + 4294967296 - lineStart layout k) % 4294967296
        x := x
        y := h - extentSum layout k - (layout k).ascent } := by
  simp only [expectedDraw]
  rw [cursorAfter_exact layout h n hr k (by omega), toFixed_of_inFixed (hr.2 k hk).1]

theorem cursorInRange_mono (layout : Nat → line_answer) (h : Int) {m n : Nat} (hmn : m ≤ n)
    (hr : cursorInRange layout h n) : cursorInRange layout h m :=
  ⟨hr.1, fun k hk => hr.2 k (by omega)⟩

theorem stateAfter_succ (layout : Nat → line_answer) (x h : Int) (k : Nat) :
    ({ y := toFixed (toFixed ((stateAfter layout x h k).y - (layout k).ascent) -
         (layout k).descent)
       i_start := (layout k).i_end
       draws := (stateAfter layout x h k).draws ++
         [{ i_start := (stateAfter layout x h k).i_start
            i_length := ((layout k).i_end + 4294967296 -
              (stateAfter layout x h k).i_start) % 4294967296
            x := x
            y := toFixed ((stateAfter layout x h k).y - (layout k).ascent) }]
       i_requests := (stateAfter layout x h k).i_requests + 1 } : line_state) =
      stateAfter layout x h (k + 1) := by
  simp only [stateAfter, expectedDraw, cursorAfter, lineStart, List.range_succ,
    List.map_append, List.map_cons, List.map_nil]

/-- A line without error that ends before the end of the text: the loop
goes on from the state after one more line. -/
theorem lineLoop_continue (layout : Nat → line_answer) (x h : Int) (i_text_len fuel k : Nat)
    (hok : lineOk (layout k) = true) (hend : (layout k).i_end < i_text_len) :
    lineLoop layout x i_text_len (fuel + 1) (stateAfter layout x h k) =
      lineLoop layout x i_text_len fuel (stateAfter layout x h (k + 1)) := by
  have hstatus : (layout k).status = noErr ∨ (layout k).status = kATSULineBreakInWord := by
    simpa [lineOk] using hok
  have hreq : (stateAfter layout x h k).i_requests = k := rfl
  rw [lineLoop]
  simp only [hreq, hstatus, if_true, hend]
  rw [← stateAfter_succ]
  rfl

/-- A line without error that reaches the end of the text: the loop ends in
the state after that line. -/
theorem lineLoop_last (layout : Nat → line_answer) (x h : Int) (i_text_len fuel k : Nat)
    (hok : lineOk (layout k) = true) (hend : i_text_len ≤ (layout k).i_end) :
    lineLoop layout x i_text_len (fuel + 1) (stateAfter layout x h k) =
      some (stateAfter layout x h (k + 1)) := by
  have hstatus : (layout k).status = noErr ∨ (layout k).status = kATSULineBreakInWord := by
    simpa [lineOk] using hok
  have hreq : (stateAfter layout x h k).i_requests = k := rfl
  have hnot : ¬ (layout k).i_end < i_text_len := by omega
  rw [lineLoop]
  simp only [hreq, hstatus, if_true, hnot, if_false]
  rw [← stateAfter_succ]
  rfl

/-- A request that fails: the loop ends at once, in the state it was in,
with one more request counted. -/
theorem lineLoop_fail (layout : Nat → line_answer) (x h : Int) (i_text_len fuel k : Nat)
    (hfail : lineOk (layout k) = false) :
    lineLoop layout x i_text_len (fuel + 1) (stateAfter layout x h k) =
      some { stateAfter layout x h k with i_requests := k + 1 } := by
  have hstatus : ¬ ((layout k).status = noErr ∨ (layout k).status = kATSULineBreakInWord) := by
    simpa [lineOk] using hfail
  have hreq : (stateAfter layout x h k).i_requests = k := rfl
  rw [lineLoop]
  simp only [hreq, hstatus, if_false]

/-- The loop over `n` lines without error that all end before the end of
the text. -/
theorem lineLoop_lines (layout : Nat → line_answer) (x h : Int) (i_text_len : Nat) :
    ∀ (n fuel k : Nat),
      (∀ j, j < n → lineOk (layout (k + j)) = true ∧ (layout (k + j)).i_end < i_text_len) →
      lineLoop layout x i_text_len (fuel + n) (stateAfter layout x h k) =
        lineLoop layout x i_text_len fuel (stateAfter layout x h (k + n)) := by
  intro n
  induction n with
  | zero => intro fuel k _; rfl
  | succ n ih =>
    intro fuel k hall
    have h0 := hall 0 (by omega)
    have hstep := lineLoop_continue layout x h i_text_len (fuel + n) k h0.1 h0.2
    have hfuel : fuel + (n + 1) = fuel + n + 1 := by omega
    rw [hfuel, hstep, ih fuel (k + 1) ?_]
    · have hk : k + 1 + n = k + (n + 1) := by omega
      rw [hk]
    · intro j hj
      have := hall (j + 1) (by omega)
      have hk : k + 1 + j = k + (j + 1) := by omega
      rw [hk]
      exact this



theorem stateAfter_zero (layout : Nat → line_answer) (x h : Int) :
    ({ y := h, i_start := 0, draws := [], i_requests := 0 } : line_state) =
      stateAfter layout x h 0 := by
  simp [stateAfter, cursorAfter, lineStart]

/-- `Compose` when the context and the layout are obtained and the line
loop ends in the state `st`. -/
theorem Compose_of_lineLoop (fix : fixmath_t) (env : compose_env)
    (fuel i_text_len i_width i_height : Nat) (pi_textblock_height : Int) (st : line_state)
    (hctx : env.context_ok = true) (hlayout : env.layout_status = noErr)
    (hloop : lineLoop env.layout (fix.Long2Fix (HORIZONTAL_MARGIN : Int)) i_text_len fuel
      (stateAfter env.layout (fix.Long2Fix (HORIZONTAL_MARGIN : Int))
        (toFixed (fix.Long2Fix (i_height : Int))) 0) = some st) :
    Compose fix env fuel i_text_len i_width i_height pi_textblock_height =
      some { p_offScreen := CreateOffScreenContext env.p_data i_width
             pi_textblock_height := (i_height : Int) - fix.Fix2Long st.y
             lines := some st } := by
  unfold Compose
  simp only [hctx, hlayout, if_true]
  rw [stateAfter_zero env.layout (fix.Long2Fix (HORIZONTAL_MARGIN : Int)), hloop]

/-- The line loop over `n` lines without error, the last of which is the
first to reach the end of the text. -/
theorem lineLoop_complete (layout : Nat → line_answer) (x h : Int)
    (i_text_len fuel n : Nat) (hn : 0 < n) (hfuel : n ≤ fuel)
    (hok : ∀ k, k < n → lineOk (layout k) = true)
    (hcont : ∀ k, k + 1 < n → (layout k).i_end < i_text_len)
    (hlast : i_text_len ≤ (layout (n - 1)).i_end) :
    lineLoop layout x i_text_len fuel (stateAfter layout x h 0) =
      some (stateAfter layout x h n) := by
  obtain ⟨m, rfl⟩ : ∃ m, n = m + 1 := ⟨n - 1, by omega⟩
  obtain ⟨extra, rfl⟩ : ∃ extra, fuel = extra + 1 + m := ⟨fuel - (m + 1), by omega⟩
  rw [lineLoop_lines layout x h i_text_len m (extra + 1) 0 ?_]
  · have hm : 0 + m = m := by omega
    rw [hm]
    exact lineLoop_last layout x h i_text_len extra m (hok m (by omega)) (by simpa using hlast)
  · intro j hj
    have hj2 : 0 + j = j := by omega
    rw [hj2]
    exact ⟨hok j (by omega), hcont j (by omega)⟩

theorem extentSum_mono (layout : Nat → line_answer) (k : Nat)
    (ha : 0 ≤ (layout k).ascent) (hd : 0 ≤ (layout k).descent) :
    extentSum layout k ≤ extentSum layout (k + 1) := by
  simp only [extentSum]
  omega

/-- The line loop when the request after `m` good lines fails. -/
theorem lineLoop_break (layout : Nat → line_answer) (x h : Int) (i_text_len fuel m : Nat)
    (hfuel : m + 1 ≤ fuel)
    (hgood : ∀ j, j < m → lineOk (layout j) = true ∧ (layout j).i_end < i_text_len)
    (hfail : lineOk (layout m) = false) :
    lineLoop layout x i_text_len fuel (stateAfter layout x h 0) =
      some { stateAfter layout x h m with i_requests := m + 1 } := by
  obtain ⟨extra, rfl⟩ : ∃ extra, fuel = extra + 1 + m := ⟨fuel - (m + 1), by omega⟩
  rw [lineLoop_lines layout x h i_text_len m (extra + 1) 0 ?_]
  · have hm : 0 + m = m := by omega
    rw [hm]
    exact lineLoop_fail layout x h i_text_len extra m hfail
  · intro j hj
    have hj2 : 0 + j = j := by omega
    rw [hj2]
    exact hgood j hj

/-- `RenderYUVA` once `Compose` has returned: it returns as well, with
`VLC_SUCCESS` and the composited picture when the region is created, with
`VLC_EGENERIC` when it is not. -/
theorem RenderYUVA_of_Compose (fix : fixmath_t) (env : compose_env)
    (spu_CreateRegion : Nat → Int → Option picture_t)
    (fuel i_width i_height i_text_len : Nat) (composed : compose_result)
    (hc : Compose fix env fuel i_text_len i_width i_height 0 = some composed) :
    ∃ r : yuva_result,
      RenderYUVA fix env spu_CreateRegion fuel i_width i_height i_text_len = some r ∧
      r.i_textblock_height = composed.pi_textblock_height ∧
      r.lines = composed.lines ∧
      (∀ picture,
        spu_CreateRegion i_width
          (composed.pi_textblock_height + (VERTICAL_MARGIN : Int) * 2) = some picture →
        r.code = VLC_SUCCESS ∧
        r.picture = some (compositeLoop composed.p_offScreen i_width
          composed.pi_textblock_height picture)) ∧
      (spu_CreateRegion i_width
          (composed.pi_textblock_height + (VERTICAL_MARGIN : Int) * 2) = none →
        r.code = VLC_EGENERIC ∧ r.picture = none) := by
  unfold RenderYUVA
  simp only [hc]
  cases hspu : spu_CreateRegion i_width
      (composed.pi_textblock_height + (VERTICAL_MARGIN : Int) * 2) with
  | none =>
    refine ⟨_, rfl, rfl, rfl, ?_, ?_⟩
    · intro picture hp
      cases hp
    · intro _
      exact ⟨rfl, rfl⟩
  | some picture =>
    refine ⟨_, rfl, rfl, rfl, ?_, ?_⟩
    · intro picture2 hp
      cases hp
      exact ⟨rfl, rfl⟩
    · intro hp
      cases hp

/-! ## Input rejection -/

/-- C21: `RenderText` returns the failure code `VLC_EGENERIC` and leaves the
output region as it was (it copies no anchor and calls neither `CreateStyle`
nor `RenderYUVA`, so no picture is produced) whenever the input region, the
output region or the text is absent, or the text is the empty string. -/
theorem C21_RenderText_rejects_missing_text (fix : fixmath_t) (env : render_env)
    (fuel : Nat) (p_filter : filter_t) (p_region_out p_region_in : Option subpicture_region_t)
    (h : p_region_in = none ∨ p_region_out = none ∨
      ∃ region_in, p_region_in = some region_in ∧
        (region_in.psz_text = none ∨ region_in.psz_text = some "")) :
    ∃ res : render_result,
      RenderText fix env fuel p_filter p_region_out p_region_in = some res ∧
      res.code = VLC_EGENERIC ∧ res.code ≠ VLC_SUCCESS ∧
      res.p_region_out = p_region_out ∧
      res.psz_utf16_str = none ∧ res.pp_styles = [] ∧ res.yuva = none := by
  have hne : VLC_EGENERIC ≠ VLC_SUCCESS := by decide
  have key : RenderText fix env fuel p_filter p_region_out p_region_in =
      some { code := VLC_EGENERIC, p_region_out := p_region_out, psz_utf16_str := none,
             pi_run_lengths := [], pp_styles := [], yuva := none } := by
    cases p_region_in with
    | none => rfl
    | some region_in =>
      cases p_region_out with
      | none => rfl
      | some region_out =>
        rcases h with h | h | ⟨r, hr, htext⟩
        · cases h
        · cases h
        · cases hr
          rcases htext with htext | htext
          · simp only [RenderText, htext]
          · simp only [RenderText, htext]
            rfl
  exact ⟨_, key, rfl, hne, rfl, rfl, rfl, rfl⟩

/-- Witness of C21: an input region whose text is the empty string. -/
theorem C21_RenderText_rejects_missing_text_witness :
    ∃ res : render_result,
      RenderText fix16 (renderEnvOf twoLines []) 5 filter320 (some emptyRegion)
        (some emptyTextRegion) = some res ∧
      res.code = VLC_EGENERIC ∧ res.yuva = none := by
  obtain ⟨res, h1, h2, _, _, _, _, h7⟩ :=
    C21_RenderText_rejects_missing_text fix16 (renderEnvOf twoLines []) 5 filter320
      (some emptyRegion) (some emptyTextRegion)
      (Or.inr (Or.inr ⟨emptyTextRegion, rfl, Or.inr rfl⟩))
  exact ⟨res, h1, h2, h7⟩

/-- `RenderYUVA` returns when the line loop ends after `n` lines without
error, the last of which is the first to reach the end of the text. -/
theorem RenderYUVA_of_lines (fix : fixmath_t) (env : compose_env)
    (spu_CreateRegion : Nat → Int → Option picture_t)
    (fuel n i_text_len i_width i_height : Nat)
    (hctx : env.context_ok = true) (hlayout : env.layout_status = noErr)
    (hn : 0 < n) (hfuel : n ≤ fuel)
    (hok : ∀ k, k < n → lineOk (env.layout k) = true)
    (hcont : ∀ k, k + 1 < n → (env.layout k).i_end < i_text_len)
    (hlast : i_text_len ≤ (env.layout (n - 1)).i_end) :
    ∃ r : yuva_result,
      RenderYUVA fix env spu_CreateRegion fuel i_width i_height i_text_len = some r ∧
      r.i_textblock_height = (i_height : Int) -
        fix.Fix2Long (cursorAfter env.layout (toFixed (fix.Long2Fix (i_height : Int))) n) ∧
      (∀ picture,
        spu_CreateRegion i_width
          ((i_height : Int) -
            fix.Fix2Long (cursorAfter env.layout (toFixed (fix.Long2Fix (i_height : Int))) n) +
            (VERTICAL_MARGIN : Int) * 2) = some picture →
        r.code = VLC_SUCCESS ∧ r.picture.isSome = true) ∧
      (spu_CreateRegion i_width
          ((i_height : Int) -
            fix.Fix2Long (cursorAfter env.layout (toFixed (fix.Long2Fix (i_height : Int))) n) +
            (VERTICAL_MARGIN : Int) * 2) = none →
        r.code = VLC_EGENERIC ∧ r.picture = none) := by
  have hloop := lineLoop_complete env.layout (fix.Long2Fix (HORIZONTAL_MARGIN : Int))
    (toFixed (fix.Long2Fix (i_height : Int))) i_text_len fuel n hn hfuel hok hcont hlast
  have hcomp := Compose_of_lineLoop fix env fuel i_text_len i_width i_height 0 _ hctx
    hlayout hloop
  obtain ⟨r, hr, hheight, _, hsucc, hfail⟩ := RenderYUVA_of_Compose fix env spu_CreateRegion
    fuel i_width i_height i_text_len _ hcomp
  refine ⟨r, hr, hheight, ?_, hfail⟩
  intro picture hp
  obtain ⟨h1, h2⟩ := hsucc picture hp
  exact ⟨h1, by rw [h2]; rfl⟩

/-- `RenderHtml` on a present markup when the stream, the XML module, the
reader and the text buffer are obtained and `RenderYUVA` returns. -/
theorem RenderHtml_of_yuva (fix : fixmath_t) (env : render_env) (fuel : Nat)
    (p_filter : filter_t) (region_out region_in : subpicture_region_t) (psz_html : String)
    (hhtml : region_in.psz_html = some psz_html)
    (hok : (env.stream_ok && env.xml_ok && env.reader_ok && env.text_ok) = true)
    (processed : run_result)
    (hp : ProcessNodes p_filter.p_sys region_in.p_style env.nodes = some processed)
    (r : yuva_result)
    (hr : RenderYUVA fix env.compose env.spu_CreateRegion fuel p_filter.i_visible_width
      p_filter.i_visible_height processed.pi_len.toNat = some r) :
    RenderHtml fix env fuel p_filter region_out (some region_in) =
      some { code := VLC_SUCCESS
             p_region_out := some (storePicture
               { region_out with i_x := region_in.i_x, i_y := region_in.i_y } r)
             psz_utf16_str := some processed.psz_text
             pi_run_lengths := processed.pi_run_lengths
             pp_styles := processed.pp_styles
             yuva := some r } := by
  unfold RenderHtml
  simp only [hhtml, hok, if_true, hp, hr]

/-- C22, on the code: for a markup that is the empty string `RenderHtml`
does not fail.  When every outside call succeeds and the reader delivers no
node, it lets `RenderYUVA` create a region and returns `VLC_SUCCESS`; when the
reader cannot be created it returns `VLC_SUCCESS` as well.  Only an absent
input region or an absent markup gives `VLC_EGENERIC`. -/
theorem C22_RenderHtml_accepts_empty_markup :
    (∃ (res : render_result) (region : subpicture_region_t),
      RenderHtml fix16 (renderEnvOf secondFails []) 5 filter320 emptyRegion
        (some emptyHtmlRegion) = some res ∧
      res.code = VLC_SUCCESS ∧ res.code ≠ VLC_EGENERIC ∧
      res.p_region_out = some region ∧ region.picture.isSome = true) ∧
    (∀ (fix : fixmath_t) (env : render_env) (fuel : Nat) (p_filter : filter_t)
      (region_out : subpicture_region_t),
      RenderHtml fix { env with reader_ok := false } fuel p_filter region_out
          (some emptyHtmlRegion) =
        some { code := VLC_SUCCESS, p_region_out := some region_out,
               psz_utf16_str := none, pi_run_lengths := [], pp_styles := [],
               yuva := none }) ∧
    (∀ (fix : fixmath_t) (env : render_env) (fuel : Nat) (p_filter : filter_t)
      (region_out : subpicture_region_t),
      RenderHtml fix env fuel p_filter region_out (some emptyRegion) =
        some { code := VLC_EGENERIC, p_region_out := some region_out,
               psz_utf16_str := none, pi_run_lengths := [], pp_styles := [],
               yuva := none }) := by
  refine ⟨?_, ?_, ?_⟩
  · obtain ⟨r, hr, _, hsucc, _⟩ := RenderYUVA_of_lines fix16 (envOf secondFails) allocZero
      5 1 0 320 240 rfl rfl (by decide) (by decide)
      (fun k hk => by
        have hk2 : k = 0 := by omega
        subst hk2
        decide)
      (fun k hk => by omega) (by decide)
    obtain ⟨hcode, hpic⟩ := hsucc _ rfl
    have hlen : (traversalEffect filter320.p_sys emptyHtmlRegion.p_style
        (renderEnvOf secondFails []).nodes).pi_len.toNat = 0 := by decide
    have hp := ProcessNodes_returns filter320.p_sys emptyHtmlRegion.p_style
      (renderEnvOf secondFails []).nodes rfl rfl
    have hcall := RenderHtml_of_yuva fix16 (renderEnvOf secondFails []) 5 filter320
      emptyRegion emptyHtmlRegion "" rfl rfl _ hp r (by rw [hlen]; exact hr)
    have hne : VLC_SUCCESS ≠ VLC_EGENERIC := by decide
    refine ⟨_, _, hcall, rfl, hne, rfl, ?_⟩
    cases hp : r.picture with
    | none => rw [hp] at hpic; cases hpic
    | some picture => simp [storePicture, hp]
  · intro fix env fuel p_filter region_out
    simp [RenderHtml, emptyHtmlRegion, emptyRegion]
  · intro fix env fuel p_filter region_out
    simp [RenderHtml, emptyRegion]

/-! ## Resource failures -/

/-- `RenderText` on present regions and a non-empty text when a style is
obtained and `RenderYUVA` returns: one run, the whole converted text. -/
theorem RenderText_of_yuva (fix : fixmath_t) (env : render_env) (fuel : Nat)
    (p_filter : filter_t) (region_out region_in : subpicture_region_t) (psz_string : String)
    (htext : region_in.psz_text = some psz_string) (hne : psz_string.data ≠ [])
    (hstyle : env.style_ok = true) (r : yuva_result)
    (hr : RenderYUVA fix env.compose env.spu_CreateRegion fuel p_filter.i_visible_width
      p_filter.i_visible_height (ConvertToUTF16 (EliminateCRLF psz_string)).1 = some r) :
    ∃ res : render_result,
      RenderText fix env fuel p_filter (some region_out) (some region_in) = some res ∧
      res.code = VLC_SUCCESS ∧
      res.p_region_out = some (storePicture
        { region_out with i_x := region_in.i_x, i_y := region_in.i_y } r) ∧
      res.psz_utf16_str = some (ConvertToUTF16 (EliminateCRLF psz_string)).2 ∧
      res.pi_run_lengths = [(ConvertToUTF16 (EliminateCRLF psz_string)).1] ∧
      res.pp_styles.length = 1 ∧
      res.yuva = some r := by
  unfold RenderText
  simp only [htext, hne, if_false, hstyle, if_true, CreateStyle, hr]
  exact ⟨_, rfl, rfl, rfl, rfl, rfl, rfl, rfl⟩

/-- `RenderText` on present regions and a non-empty text when no style is
obtained. -/
theorem RenderText_without_style (fix : fixmath_t) (env : render_env) (fuel : Nat)
    (p_filter : filter_t) (region_out region_in : subpicture_region_t) (psz_string : String)
    (htext : region_in.psz_text = some psz_string) (hne : psz_string.data ≠ [])
    (hstyle : env.style_ok = false) :
    RenderText fix env fuel p_filter (some region_out) (some region_in) =
      some { code := VLC_SUCCESS
             p_region_out := some { region_out with i_x := region_in.i_x, i_y := region_in.i_y }
             psz_utf16_str := none, pi_run_lengths := [], pp_styles := [], yuva := none } := by
  unfold RenderText
  simp only [htext, hne, if_false, hstyle, Bool.false_eq_true]

/-- C23, on the code: when `spu_CreateRegion` gives `NULL`, `RenderYUVA`
returns `VLC_EGENERIC`, and `RenderText` and `RenderHtml`, which do not read
that result, return `VLC_SUCCESS` with an output region that has no picture;
when `CreateStyle` gives no style, `RenderText` returns `VLC_SUCCESS` without
having called `RenderYUVA`. -/
theorem C23_resource_failure_returns_success :
    (∃ (r : yuva_result) (res : render_result) (region : subpicture_region_t),
      RenderYUVA fix16 (envOf secondFails) allocNone 5 320 240 1 = some r ∧
      r.code = VLC_EGENERIC ∧
      RenderText fix16 (envNoRegion secondFails []) 5 filter320 (some emptyRegion)
        (some xRegion) = some res ∧
      res.yuva = some r ∧ res.code = VLC_SUCCESS ∧
      res.p_region_out = some region ∧ region.picture.isNone = true) ∧
    (∃ res : render_result,
      RenderText fix16 (envNoStyle secondFails []) 5 filter320 (some emptyRegion)
        (some xRegion) = some res ∧
      res.yuva = none ∧ res.pp_styles = [] ∧ res.code = VLC_SUCCESS) ∧
    (∃ (r : yuva_result) (res : render_result) (region : subpicture_region_t),
      RenderHtml fix16 (envNoRegion secondFails [xml_node.XML_READER_TEXT (some "x")]) 5
        filter320 emptyRegion (some xRegion) = some res ∧
      res.yuva = some r ∧ r.code = VLC_EGENERIC ∧ res.code = VLC_SUCCESS ∧
      res.p_region_out = some region ∧ region.picture.isNone = true) := by
  obtain ⟨r, hr, _, _, hfail⟩ := RenderYUVA_of_lines fix16 (envOf secondFails) allocNone
    5 1 1 320 240 rfl rfl (by decide) (by decide)
    (fun k hk => by
      have hk2 : k = 0 := by omega
      subst hk2
      decide)
    (fun k hk => by omega) (by decide)
  obtain ⟨hcode, hpic⟩ := hfail rfl
  have hstore : ∀ region : subpicture_region_t, storePicture region r = region := by
    intro region
    simp [storePicture, hpic]
  refine ⟨?_, ?_, ?_⟩
  · have hlen : (ConvertToUTF16 (EliminateCRLF "x")).1 = 1 := by decide
    obtain ⟨res, h1, h2, h3, _, _, _, h7⟩ := RenderText_of_yuva fix16
      (envNoRegion secondFails []) 5 filter320 emptyRegion xRegion "x" rfl (by decide) rfl r
      (by rw [hlen]; exact hr)
    rw [hstore] at h3
    exact ⟨r, res, _, hr, hcode, h1, h7, h2, h3, rfl⟩
  · exact ⟨_, RenderText_without_style fix16 (envNoStyle secondFails []) 5 filter320
      emptyRegion xRegion "x" rfl (by decide) rfl, rfl, rfl, rfl⟩
  · have hlen : (traversalEffect filter320.p_sys xRegion.p_style
        (envNoRegion secondFails [xml_node.XML_READER_TEXT (some "x")]).nodes).pi_len.toNat =
        1 := by decide
    have hp := ProcessNodes_returns filter320.p_sys xRegion.p_style
      (envNoRegion secondFails [xml_node.XML_READER_TEXT (some "x")]).nodes rfl rfl
    have hcall := RenderHtml_of_yuva fix16
      (envNoRegion secondFails [xml_node.XML_READER_TEXT (some "x")]) 5 filter320
      emptyRegion xRegion "x" rfl rfl _ hp r (by rw [hlen]; exact hr)
    rw [hstore] at hcall
    exact ⟨r, _, _, hcall, rfl, hcode, rfl, rfl, rfl⟩

/-! ## Line ends -/

theorem EliminateCRLFChars_eq (cs : List Char) :
    EliminateCRLFChars cs = dropCRBeforeLF cs := by
  induction cs using EliminateCRLFChars.induct with
  | case1 => rfl
  | case2 c => simp [EliminateCRLFChars, dropCRBeforeLF]
  | case3 c d rest h ih =>
    obtain ⟨hc, hd⟩ := h
    subst hc
    subst hd
    have hne : ¬ ('\n' = '\r' ∧ rest.head? = some '\n') := by
      intro hcontra
      exact absurd hcontra.1 (by decide)
    simp only [EliminateCRLFChars, dropCRBeforeLF, List.head?_cons, and_self, if_true, ih,
      hne, if_false]
  | case4 c d rest h ih =>
    have hne : ¬ (c = '\r' ∧ (d :: rest).head? = some '\n') := by
      simpa using h
    rw [EliminateCRLFChars, if_neg h, ih]
    conv_rhs => rw [dropCRBeforeLF, if_neg hne]

theorem dropCRBeforeLF_length (cs : List Char) :
    (dropCRBeforeLF cs).length + countCRLF cs = cs.length := by
  induction cs with
  | nil => rfl
  | cons c rest ih =>
    simp only [dropCRBeforeLF, countCRLF]
    split_ifs
    · simp only [List.length_cons]
      omega
    · simp only [List.length_cons]
      omega

/-- C24: for every string, `EliminateCRLF` gives the string with the
carriage return of every carriage return immediately followed by a line feed
deleted and every other character (a lone carriage return, a line feed,
anything else) kept in its place, so that its length is the length of the
string less the number of such pairs; `RenderText` hands the layout a single
run whose text is the whole of that normalised string. -/
theorem C24_EliminateCRLF_deletes_CR_before_LF (psz_string : String) :
    (EliminateCRLF psz_string).data = dropCRBeforeLF psz_string.data ∧
    (EliminateCRLF psz_string).data.length =
      psz_string.data.length - countCRLF psz_string.data ∧
    countCRLF psz_string.data ≤ psz_string.data.length ∧
    (∀ (fix : fixmath_t) (env : render_env) (fuel : Nat) (p_filter : filter_t)
      (region_out region_in : subpicture_region_t) (r : yuva_result),
      region_in.psz_text = some psz_string → psz_string.data ≠ [] →
      env.style_ok = true →
      RenderYUVA fix env.compose env.spu_CreateRegion fuel p_filter.i_visible_width
        p_filter.i_visible_height (ConvertToUTF16 (EliminateCRLF psz_string)).1 = some r →
      ∃ res : render_result,
        RenderText fix env fuel p_filter (some region_out) (some region_in) = some res ∧
        res.psz_utf16_str = some (utf16Encode (dropCRBeforeLF psz_string.data)) ∧
        res.pi_run_lengths = [(utf16Encode (dropCRBeforeLF psz_string.data)).length] ∧
        res.pp_styles.length = 1) ∧
    EliminateCRLF "Hello\r\nWorld" = "Hello\nWorld" ∧
    EliminateCRLF "a\rb\nc\r" = "a\rb\nc\r" ∧
    EliminateCRLF "\r\n\r\n" = "\n\n" := by
  have hdata : (EliminateCRLF psz_string).data = dropCRBeforeLF psz_string.data :=
    EliminateCRLFChars_eq psz_string.data
  have hlen := dropCRBeforeLF_length psz_string.data
  refine ⟨hdata, by rw [hdata]; omega, by omega, ?_, by decide, by decide, by decide⟩
  intro fix env fuel p_filter region_out region_in r htext hne hstyle hr
  obtain ⟨res, h1, _, _, h4, h5, h6, _⟩ := RenderText_of_yuva fix env fuel p_filter
    region_out region_in psz_string htext hne hstyle r hr
  refine ⟨res, h1, ?_, ?_, h6⟩
  · rw [h4]
    simp only [ConvertToUTF16, hdata]
  · rw [h5]
    simp only [ConvertToUTF16, hdata]

/-- Witness of C24: the text `Hello`, carriage return, line feed, `World`
rendered on one line. -/
theorem C24_EliminateCRLF_deletes_CR_before_LF_witness :
    ∃ res : render_result,
      RenderText fix16 (renderEnvOf oneLine []) 5 filter320 (some emptyRegion)
        (some helloRegion) = some res ∧
      res.psz_utf16_str = some [72, 101, 108, 108, 111, 10, 87, 111, 114, 108, 100] ∧
      res.pi_run_lengths = [11] := by
  obtain ⟨r, hr, _, _, _⟩ := RenderYUVA_of_lines fix16 (envOf oneLine) allocZero
    5 1 11 320 240 rfl rfl (by decide) (by decide)
    (fun _ _ => rfl) (fun k hk => by omega) (by decide)
  have hlen : (ConvertToUTF16 (EliminateCRLF "Hello\r\nWorld")).1 = 11 := by decide
  obtain ⟨res, h1, h2, h3, _⟩ :=
    (C24_EliminateCRLF_deletes_CR_before_LF "Hello\r\nWorld").2.2.2.1 fix16
      (renderEnvOf oneLine []) 5 filter320 emptyRegion helloRegion r rfl (by decide) rfl
      (by rw [hlen]; exact hr)
  refine ⟨res, h1, ?_, ?_⟩
  · rw [h2]
    decide
  · rw [h3]
    decide

theorem dropCRBeforeLF_head (cs : List Char) :
    (dropCRBeforeLF cs).head? =
      if cs.head? = some '\r' ∧ cs.tail.head? = some '\n' then some '\n' else cs.head? := by
  cases cs with
  | nil => rfl
  | cons d rest =>
    by_cases h : d = '\r' ∧ rest.head? = some '\n'
    · obtain ⟨hd, hrest⟩ := h
      subst hd
      cases rest with
      | nil => simp at hrest
      | cons e r3 =>
        have he : e = '\n' := by simpa using hrest
        subst he
        have hne : ¬ ('\n' = '\r' ∧ r3.head? = some '\n') := by
          intro hcontra
          exact absurd hcontra.1 (by decide)
        simp [dropCRBeforeLF, hne]
    · have h2 : ¬ ((d :: rest).head? = some d ∧ d = '\r' ∧ rest.head? = some '\n') := by
        intro hcontra
        exact h hcontra.2
      rw [dropCRBeforeLF, if_neg h]
      by_cases hd : d = '\r'
      · subst hd
        have hr : ¬ rest.head? = some '\n' := fun hcontra => h ⟨rfl, hcontra⟩
        simp [hr]
      · simp [hd]

/-- A pass leaves a carriage return before a line feed exactly where the
string had two carriage returns before a line feed. -/
theorem hasCRLF_dropCRBeforeLF (cs : List Char) :
    hasCRLF (dropCRBeforeLF cs) = hasCRCRLF cs := by
  induction cs with
  | nil => rfl
  | cons c rest ih =>
    by_cases h : c = '\r' ∧ rest.head? = some '\n'
    · obtain ⟨hc, hrest⟩ := h
      subst hc
      have hno : ¬ (rest.head? = some '\r' ∧ rest.tail.head? = some '\n') := by
        intro hcontra
        rw [hrest] at hcontra
        exact absurd hcontra.1 (by decide)
      have hstep : hasCRCRLF ('\r' :: rest) = hasCRCRLF rest := by
        simp only [hasCRCRLF, true_and, hno, decide_False, Bool.false_or]
      rw [hstep, ← ih]
      simp only [dropCRBeforeLF, hrest, and_self, if_true]
    · rw [dropCRBeforeLF, if_neg h]
      simp only [hasCRLF, hasCRCRLF, ih, dropCRBeforeLF_head]
      congr 1
      by_cases hc : c = '\r'
      · subst hc
        have hr : ¬ rest.head? = some '\n' := fun hcontra => h ⟨rfl, hcontra⟩
        by_cases h2 : rest.head? = some '\r' ∧ rest.tail.head? = some '\n'
        · simp [h2]
        · simp [h2, hr]
      · simp [hc]

/-- A string without a carriage return before a line feed is left as it is. -/
theorem dropCRBeforeLF_of_no_CRLF (cs : List Char) (h : hasCRLF cs = false) :
    dropCRBeforeLF cs = cs := by
  induction cs with
  | nil => rfl
  | cons c rest ih =>
    simp only [hasCRLF, Bool.or_eq_false_iff, decide_eq_false_iff_not] at h
    rw [dropCRBeforeLF, if_neg h.1, ih h.2]

/-- C28, at the input that refutes it: two carriage returns and a line feed.
One pass gives carriage return, line feed, which still holds the pair; a
second pass gives the line feed alone. -/
theorem C28_EliminateCRLF_not_idempotent :
    EliminateCRLF "\r\r\n" = "\r\n" ∧
    EliminateCRLF (EliminateCRLF "\r\r\n") = "\n" ∧
    EliminateCRLF (EliminateCRLF "\r\r\n") ≠ EliminateCRLF "\r\r\n" ∧
    hasCRLF (EliminateCRLF "\r\r\n").data = true := by
  refine ⟨by decide, by decide, by decide, by decide⟩

/-- C28, amended: the output of `EliminateCRLF` contains a carriage return
immediately followed by a line feed exactly when the input contains two
carriage returns in a row immediately followed by a line feed; for every
input without such a triple the output contains no such pair and a second
pass changes nothing. -/
theorem C28_EliminateCRLF_idempotent_without_CRCRLF (psz_string : String)
    (h : hasCRCRLF psz_string.data = false) :
    hasCRLF (EliminateCRLF psz_string).data = false ∧
    EliminateCRLF (EliminateCRLF psz_string) = EliminateCRLF psz_string ∧
    (∀ s : String, hasCRLF (EliminateCRLF s).data = hasCRCRLF s.data) := by
  have hgen : ∀ s : String, hasCRLF (EliminateCRLF s).data = hasCRCRLF s.data := by
    intro s
    show hasCRLF (EliminateCRLFChars s.data) = hasCRCRLF s.data
    rw [EliminateCRLFChars_eq, hasCRLF_dropCRBeforeLF]
  have hno : hasCRLF (EliminateCRLF psz_string).data = false := by
    rw [hgen, h]
  refine ⟨hno, ?_, hgen⟩
  show (⟨EliminateCRLFChars (EliminateCRLF psz_string).data⟩ : String) = EliminateCRLF psz_string
  rw [EliminateCRLFChars_eq, dropCRBeforeLF_of_no_CRLF _ hno]

/-- Witness of C28 (amended): `Hello`, carriage return, line feed, `World`. -/
theorem C28_EliminateCRLF_idempotent_without_CRCRLF_witness :
    hasCRCRLF ("Hello\r\nWorld" : String).data = false ∧
    EliminateCRLF (EliminateCRLF "Hello\r\nWorld") = EliminateCRLF "Hello\r\nWorld" :=
  ⟨by decide, (C28_EliminateCRLF_idempotent_without_CRCRLF "Hello\r\nWorld" (by decide)).2.1⟩

/-! ## The three flags -/

theorem nodesEffect_concat (p_sys : filter_sys_t) (nodes : List xml_node) (node : xml_node) :
    ∀ st : run_state,
      nodesEffect p_sys st (nodes ++ [node]) =
        nodeEffect p_sys (nodesEffect p_sys st nodes) node := by
  induction nodes with
  | nil => intro st; rfl
  | cons first rest ih =>
    intro st
    simp only [List.cons_append, nodesEffect]
    exact ih _

theorem lastFlagEvent_concat (key : String) (nodes : List xml_node) (node : xml_node) :
    lastFlagEvent key (nodes ++ [node]) =
      match flagEvent key node with
      | some v => some v
      | none => lastFlagEvent key nodes := by
  unfold lastFlagEvent
  rw [List.filterMap_append]
  cases h : flagEvent key node with
  | none => simp [List.filterMap, h]
  | some v => simp [List.filterMap, h]

/-- One event and the three flags: each flag becomes what the event says
for its element, or stays as it is. -/
theorem nodeEffect_flags (p_sys : filter_sys_t) (st : run_state) (node : xml_node) :
    (nodeEffect p_sys st node).b_bold = (flagEvent "b" node).getD st.b_bold ∧
    (nodeEffect p_sys st node).b_italic = (flagEvent "i" node).getD st.b_italic ∧
    (nodeEffect p_sys st node).b_uline = (flagEvent "u" node).getD st.b_uline := by
  cases node with
  | XML_READER_NONE => simp [nodeEffect, flagEvent]
  | XML_READER_TEXT value =>
    cases value with
    | none => simp [nodeEffect, flagEvent]
    | some v => simp [nodeEffect, flagEvent, appendedRun]
  | XML_READER_STARTELEM name attrs =>
    cases name with
    | none => simp [nodeEffect, flagEvent]
    | some n =>
      obtain ⟨eb, ei, eu⟩ := element_names_exclusive n
      by_cases hf : strcasecmp "font" n = 0
      · have hb : strcasecmp "b" n ≠ 0 := fun h => eb h hf
        have hi : strcasecmp "i" n ≠ 0 := fun h => (ei h).1 hf
        have hu : strcasecmp "u" n ≠ 0 := fun h => (eu h).1 hf
        simp [nodeEffect, flagEvent, hf, hb, hi, hu]
      · by_cases hb : strcasecmp "b" n = 0
        · have hi : strcasecmp "i" n ≠ 0 := fun h => (ei h).2 hb
          have hu : strcasecmp "u" n ≠ 0 := fun h => (eu h).2.1 hb
          simp [nodeEffect, flagEvent, hf, hb, hi, hu]
        · by_cases hi : strcasecmp "i" n = 0
          · have hu : strcasecmp "u" n ≠ 0 := fun h => (eu h).2.2 hi
            simp [nodeEffect, flagEvent, hf, hb, hi, hu]
          · by_cases hu : strcasecmp "u" n = 0
            · simp [nodeEffect, flagEvent, hf, hb, hi, hu]
            · by_cases hbr : strcasecmp "br" n = 0
              · simp [nodeEffect, flagEvent, hf, hb, hi, hu, hbr, appendedRun]
              · simp [nodeEffect, flagEvent, hf, hb, hi, hu, hbr]
  | XML_READER_ENDELEM name =>
    cases name with
    | none => simp [nodeEffect, flagEvent]
    | some n =>
      obtain ⟨eb, ei, eu⟩ := element_names_exclusive n
      by_cases hf : strcasecmp "font" n = 0
      · have hb : strcasecmp "b" n ≠ 0 := fun h => eb h hf
        have hi : strcasecmp "i" n ≠ 0 := fun h => (ei h).1 hf
        have hu : strcasecmp "u" n ≠ 0 := fun h => (eu h).1 hf
        simp [nodeEffect, flagEvent, hf, hb, hi, hu]
      · by_cases hb : strcasecmp "b" n = 0
        · have hi : strcasecmp "i" n ≠ 0 := fun h => (ei h).2 hb
          have hu : strcasecmp "u" n ≠ 0 := fun h => (eu h).2.1 hb
          simp [nodeEffect, flagEvent, hf, hb, hi, hu]
        · by_cases hi : strcasecmp "i" n = 0
          · have hu : strcasecmp "u" n ≠ 0 := fun h => (eu h).2.2 hi
            simp [nodeEffect, flagEvent, hf, hb, hi, hu]
          · by_cases hu : strcasecmp "u" n = 0
            · simp [nodeEffect, flagEvent, hf, hb, hi, hu]
            · simp [nodeEffect, flagEvent, hf, hb, hi, hu]

/-- The three flags after a sequence of events: each is what the most
recent event of its element says, or what it was before the sequence. -/
theorem nodesEffect_flags (p_sys : filter_sys_t) (st : run_state) (nodes : List xml_node) :
    (nodesEffect p_sys st nodes).b_bold = (lastFlagEvent "b" nodes).getD st.b_bold ∧
    (nodesEffect p_sys st nodes).b_italic = (lastFlagEvent "i" nodes).getD st.b_italic ∧
    (nodesEffect p_sys st nodes).b_uline = (lastFlagEvent "u" nodes).getD st.b_uline := by
  induction nodes using List.reverseRecOn with
  | nil => exact ⟨rfl, rfl, rfl⟩
  | append_singleton nodes node ih =>
    obtain ⟨i1, i2, i3⟩ := ih
    obtain ⟨f1, f2, f3⟩ := nodeEffect_flags p_sys (nodesEffect p_sys st nodes) node
    rw [nodesEffect_concat]
    simp only [lastFlagEvent_concat]
    refine ⟨?_, ?_, ?_⟩
    · rw [f1, i1]
      cases flagEvent "b" node <;> rfl
    · rw [f2, i2]
      cases flagEvent "i" node <;> rfl
    · rw [f3, i3]
      cases flagEvent "u" node <;> rfl

theorem styleFlags_resolvedStyle (p_sys : filter_sys_t) (s : FontStack) (b i u : Bool) :
    styleFlags (resolvedStyle p_sys s b i u) = (lastNode s).map fun _ => (b, i, u) := by
  unfold resolvedStyle
  cases h : lastNode s <;> simp [styleFlags]

/-- The flags of a run emitted after a sequence whose turns return are those
of the most recent `b`, `i`, `u` events, or the defaults. -/
theorem nodesEffect_flags_of_runs (p_sys : filter_sys_t)
    (p_font_style : Option text_style_t) (nodes : List xml_node) (t : String)
    (attrs : List (Option String × Option String)) :
    ((nodesEffect p_sys (initialState p_sys p_font_style) nodes).b_bold =
        (lastFlagEvent "b" nodes).getD (initialState p_sys p_font_style).b_bold ∧
      (nodesEffect p_sys (initialState p_sys p_font_style) nodes).b_italic =
        (lastFlagEvent "i" nodes).getD (initialState p_sys p_font_style).b_italic ∧
      (nodesEffect p_sys (initialState p_sys p_font_style) nodes).b_uline =
        (lastFlagEvent "u" nodes).getD (initialState p_sys p_font_style).b_uline) ∧
    ((nodeEffect p_sys (nodesEffect p_sys (initialState p_sys p_font_style) nodes)
        (xml_node.XML_READER_TEXT (some t))).pp_styles.getLast?).map styleFlags =
      some ((lastNode (nodesEffect p_sys (initialState p_sys p_font_style) nodes).p_fonts).map
        fun _ =>
          ((lastFlagEvent "b" nodes).getD (initialState p_sys p_font_style).b_bold,
           (lastFlagEvent "i" nodes).getD (initialState p_sys p_font_style).b_italic,
           (lastFlagEvent "u" nodes).getD (initialState p_sys p_font_style).b_uline)) ∧
    ((nodeEffect p_sys (nodesEffect p_sys (initialState p_sys p_font_style) nodes)
        (xml_node.XML_READER_STARTELEM (some "br") attrs)).pp_styles.getLast?).map
        styleFlags =
      some ((lastNode (nodesEffect p_sys (initialState p_sys p_font_style) nodes).p_fonts).map
        fun _ =>
          ((lastFlagEvent "b" nodes).getD (initialState p_sys p_font_style).b_bold,
           (lastFlagEvent "i" nodes).getD (initialState p_sys p_font_style).b_italic,
           (lastFlagEvent "u" nodes).getD (initialState p_sys p_font_style).b_uline)) ∧
    ((initialState p_sys p_font_style).b_bold =
        (match p_font_style with
          | some style => style.i_style_flags &&& STYLE_BOLD != 0
          | none => false) ∧
      (initialState p_sys p_font_style).b_italic =
        (match p_font_style with
          | some style => style.i_style_flags &&& STYLE_ITALIC != 0
          | none => false) ∧
      (initialState p_sys p_font_style).b_uline =
        (match p_font_style with
          | some style => style.i_style_flags &&& STYLE_UNDERLINE != 0
          | none => false)) ∧
    (traversalEffect sys20 none nodesNestedBold).pp_styles.map styleFlags =
      [some (true, false, false), some (false, false, false)] := by
  obtain ⟨h1, h2, h3⟩ := nodesEffect_flags p_sys (initialState p_sys p_font_style) nodes
  have hrun : ∀ s : String,
      ((appendedRun p_sys (nodesEffect p_sys (initialState p_sys p_font_style) nodes)
          s).pp_styles.getLast?).map styleFlags =
        some ((lastNode
          (nodesEffect p_sys (initialState p_sys p_font_style) nodes).p_fonts).map
          (fun _ =>
            ((lastFlagEvent "b" nodes).getD (initialState p_sys p_font_style).b_bold,
             (lastFlagEvent "i" nodes).getD (initialState p_sys p_font_style).b_italic,
             (lastFlagEvent "u" nodes).getD (initialState p_sys p_font_style).b_uline))) := by
    intro s
    simp only [appendedRun, List.getLast?_concat, Option.map_some', styleFlags_resolvedStyle, h1, h2,
      h3]
  refine ⟨⟨h1, h2, h3⟩, ?_, ?_, ?_, by decide⟩
  · rw [nodeEffect_text]
    exact hrun t
  · rw [nodeEffect_br p_sys _ "br" attrs (by decide)]
    exact hrun "\n"
  · cases p_font_style <;> exact ⟨rfl, rfl, rfl⟩

/-! ## Termination of the line loop -/

/-- When every request without error ends beyond its start, the loop entered
after `k` lines ends within `fuel` turns as soon as `fuel` covers what is left
of the text: its last request, the `m`-th, either reaches the end of the text
or fails, and every request before it gave a line short of the end. -/
theorem lineLoop_terminates (layout : Nat → line_answer) (x h : Int) (i_text_len bound : Nat)
    (hadv : ∀ k, k < bound → lineOk (layout k) = true →
      lineStart layout k < (layout k).i_end) :
    ∀ (fuel k : Nat), 1 ≤ fuel → k + fuel ≤ bound →
      i_text_len ≤ fuel + lineStart layout k →
      ∃ m, k ≤ m ∧ m < k + fuel ∧
        (∀ j, k ≤ j → j < m → lineOk (layout j) = true ∧ (layout j).i_end < i_text_len) ∧
        ((lineOk (layout m) = true ∧ i_text_len ≤ (layout m).i_end ∧
            lineLoop layout x i_text_len fuel (stateAfter layout x h k) =
              some (stateAfter layout x h (m + 1))) ∨
          (lineOk (layout m) = false ∧
            lineLoop layout x i_text_len fuel (stateAfter layout x h k) =
              some { stateAfter layout x h m with i_requests := m + 1 })) := by
  intro fuel
  induction fuel with
  | zero => intro k h1 _ _; omega
  | succ f ih =>
    intro k _ hbound hlen
    by_cases hok : lineOk (layout k) = true
    · by_cases hend : (layout k).i_end < i_text_len
      · have hstep := hadv k (by omega) hok
        have hnext : lineStart layout (k + 1) = (layout k).i_end := rfl
        obtain ⟨m, hm1, hm2, hgood, hres⟩ := ih (k + 1) (by omega) (by omega) (by omega)
        refine ⟨m, by omega, by omega, ?_, ?_⟩
        · intro j hj1 hj2
          by_cases hjk : j = k
          · subst hjk
            exact ⟨hok, hend⟩
          · exact hgood j (by omega) hj2
        · rw [lineLoop_continue layout x h i_text_len f k hok hend]
          exact hres
      · refine ⟨k, by omega, by omega, fun j hj1 hj2 => by omega, Or.inl ⟨hok, by omega, ?_⟩⟩
        exact lineLoop_last layout x h i_text_len f k hok (by omega)
    · have hfail : lineOk (layout k) = false := by simpa using hok
      exact ⟨k, by omega, by omega, fun j hj1 hj2 => by omega,
        Or.inr ⟨hfail, lineLoop_fail layout x h i_text_len f k hfail⟩⟩

/-- The draws of the state after `m` lines that each end beyond their start:
the first starts at 0 and each other starts where the one before it ends. -/
theorem stateAfter_contiguous (layout : Nat → line_answer) (x h : Int) (m : Nat)
    (hadv : ∀ j, j < m → lineStart layout j < (layout j).i_end)
    (hrange : ∀ k, k < m → (layout k).i_end < 4294967296) :
    (∀ d, (stateAfter layout x h m).draws[0]? = some d → d.i_start = 0) ∧
    (∀ j d1 d2, (stateAfter layout x h m).draws[j]? = some d1 →
      (stateAfter layout x h m).draws[j + 1]? = some d2 →
      d2.i_start = d1.i_start + d1.i_length) ∧
    (∀ j d, (stateAfter layout x h m).draws[j]? = some d →
      d.i_start + d.i_length = (layout j).i_end) := by
  have hget : ∀ j d, (stateAfter layout x h m).draws[j]? = some d →
      j < m ∧ d = expectedDraw layout x h j := by
    intro j d hd
    simp only [stateAfter, List.getElem?_map, List.getElem?_range, Option.map_eq_some'] at hd
    obtain ⟨a, ha, hda⟩ := hd
    by_cases hj : j < m
    · rw [List.getElem?_range hj] at ha
      cases ha
      exact ⟨hj, hda.symm⟩
    · rw [List.getElem?_eq_none (by simpa using hj)] at ha
      cases ha
  have hlen : ∀ j, j < m →
      (expectedDraw layout x h j).i_start + (expectedDraw layout x h j).i_length =
        (layout j).i_end := by
    intro j hj
    have h1 := hadv j hj
    have h2 := hrange j hj
    simp only [expectedDraw]
    omega
  refine ⟨?_, ?_, ?_⟩
  · intro d hd
    obtain ⟨_, rfl⟩ := hget 0 d hd
    rfl
  · intro j d1 d2 hd1 hd2
    obtain ⟨hj, rfl⟩ := hget j d1 hd1
    obtain ⟨_, rfl⟩ := hget (j + 1) d2 hd2
    rw [hlen j hj]
    rfl
  · intro j d hd
    obtain ⟨hj, rfl⟩ := hget j d hd
    exact hlen j hj

/-! ## The rows the compositor reads -/

/-- C27, on the code: on a surface 240 rows high, a text that the layout
engine breaks into 20 lines of 16 rows makes `Compose` report a text block of
320 rows.  The compositing loop then visits the row 240, whose first pixel is
read at an offset that is not below `i_height * bytesPerRow`, the size of the
raster `CreateOffScreenContext` allocates. -/
theorem C27_text_block_exceeds_surface :
    ∃ result : compose_result,
      Compose fix16 (envOf manyLines) 20 20 320 240 0 = some result ∧
      result.pi_textblock_height = 320 ∧
      (240 : Int) < result.pi_textblock_height ∧
      result.p_offScreen.i_bytesPerRow = 1280 ∧
      result.p_offScreen.i_bytesPerPixel = 4 ∧
      ¬ (240 * result.p_offScreen.i_bytesPerRow + 0 * result.p_offScreen.i_bytesPerPixel + 3 <
        240 * result.p_offScreen.i_bytesPerRow) ∧
      (∀ plane : plane_id,
        planeOf plane (compositeLoop result.p_offScreen 320 result.pi_textblock_height
            (filledPicture 0 320 320 320 320))
            ((VERTICAL_MARGIN + 240) * (filledPicture 0 320 320 320 320).A_PITCH + 0) =
          sourceValue plane result.p_offScreen 0 240) := by
  have hloop := lineLoop_complete manyLines (fix16.Long2Fix (HORIZONTAL_MARGIN : Int))
    (toFixed (fix16.Long2Fix ((240 : Nat) : Int))) 20 20 20 (by decide) (by decide)
    (fun _ _ => rfl)
    (fun k hk => by
      show k + 1 < 20
      exact hk)
    (by decide)
  have hcomp := Compose_of_lineLoop fix16 (envOf manyLines) 20 20 320 240 0 _ rfl rfl hloop
  have hrange : cursorInRange manyLines (toFixed (fix16.Long2Fix ((240 : Nat) : Int))) 20 := by
    decide
  have hheight : ((240 : Nat) : Int) - fix16.Fix2Long
      (stateAfter (envOf manyLines).layout (fix16.Long2Fix (HORIZONTAL_MARGIN : Int))
        (toFixed (fix16.Long2Fix ((240 : Nat) : Int))) 20).y = 320 := by
    show ((240 : Nat) : Int) - fix16.Fix2Long
      (cursorAfter manyLines (toFixed (fix16.Long2Fix ((240 : Nat) : Int))) 20) = 320
    rw [cursorAfter_exact manyLines _ 20 hrange 20 (le_refl 20)]
    decide
  refine ⟨_, hcomp, hheight, ?_, rfl, rfl, by decide, ?_⟩
  · show (240 : Int) < ((240 : Nat) : Int) - fix16.Fix2Long
      (stateAfter (envOf manyLines).layout (fix16.Long2Fix (HORIZONTAL_MARGIN : Int))
        (toFixed (fix16.Long2Fix ((240 : Nat) : Int))) 20).y
    rw [hheight]
    decide
  · intro plane
    apply compositeLoop_written
    · decide
    · decide
    · show ((240 : Nat) : Int) < ((240 : Nat) : Int) - fix16.Fix2Long
        (stateAfter (envOf manyLines).layout (fix16.Long2Fix (HORIZONTAL_MARGIN : Int))
          (toFixed (fix16.Long2Fix ((240 : Nat) : Int))) 20).y
      rw [hheight]
      decide

/-! ## The flags of a run -/

theorem nodeEffect_emitsRun (p_sys : filter_sys_t) (st : run_state) (node : xml_node)
    (h : emitsRun node = true) :
    ∃ s : String, nodeEffect p_sys st node = appendedRun p_sys st s := by
  cases node with
  | XML_READER_NONE => simp [emitsRun, isBrStart] at h
  | XML_READER_ENDELEM name => simp [emitsRun, isBrStart] at h
  | XML_READER_STARTELEM name attrs =>
    cases name with
    | none => simp [emitsRun, isBrStart] at h
    | some n =>
      have hn : strcasecmp "br" n = 0 := by simpa [emitsRun, isBrStart] using h
      exact ⟨"\n", nodeEffect_br p_sys st n attrs hn⟩
  | XML_READER_TEXT value =>
    cases value with
    | none => simp [emitsRun, isBrStart] at h
    | some v => exact ⟨v, rfl⟩

/-- C19, at the input that refutes it: nine lines of ascent 4000 and descent
0, reported without error on a surface 240 rows high.  The position claimed
for the cursor after them, H less the nine ascents, is below the smallest
value of `Fixed`, so the 32-bit cursor of `Compose` does not hold it: the
loop ends after nine requests with a cursor that is a `Fixed` and differs
from the claimed value. -/
theorem C19_cursor_leaves_fixed_range :
    (∀ k, k < 9 → lineOk (tallLines k) = true) ∧
    fix16.Long2Fix ((240 : Nat) : Int) - extentSum tallLines 9 = -2343567360 ∧
    ¬ inFixed (fix16.Long2Fix ((240 : Nat) : Int) - extentSum tallLines 9) ∧
    ∃ (result : compose_result) (st : line_state),
      Compose fix16 (envOf tallLines) 9 9 320 240 0 = some result ∧
      result.lines = some st ∧ st.i_requests = 9 ∧
      inFixed st.y ∧
      st.y ≠ fix16.Long2Fix ((240 : Nat) : Int) - extentSum tallLines 9 := by
  have hloop := lineLoop_complete tallLines (fix16.Long2Fix (HORIZONTAL_MARGIN : Int))
    (toFixed (fix16.Long2Fix ((240 : Nat) : Int))) 9 9 9 (by decide) (by decide)
    (fun _ _ => rfl)
    (fun k hk => by
      show k + 1 < 9
      exact hk)
    (by decide)
  have hcomp := Compose_of_lineLoop fix16 (envOf tallLines) 9 9 320 240 0 _ rfl rfl hloop
  have hnot : ¬ inFixed (fix16.Long2Fix ((240 : Nat) : Int) - extentSum tallLines 9) := by
    decide
  have hin : inFixed (stateAfter tallLines (fix16.Long2Fix (HORIZONTAL_MARGIN : Int))
      (toFixed (fix16.Long2Fix ((240 : Nat) : Int))) 9).y := inFixed_toFixed _
  refine ⟨fun _ _ => rfl, by decide, hnot, _, _, hcomp, rfl, rfl, hin, ?_⟩
  intro heq
  rw [heq] at hin
  exact hnot hin

/-- C19, amended: for every sequence of `n` lines the layout engine reports
without error, such that the fixed-point surface height H, and for every line
what is left of H above its baseline and below it, are values of the 32-bit
type `Fixed`, the loop of `Compose` ends after `n` requests; it has painted
the line `k` at the horizontal position HORIZONTAL_MARGIN and the vertical
position H less the ascents and descents of the lines before it less its own
ascent; the cursor ends at H less all ascents and descents; the text-block
height reported is the surface height less the integer value of that cursor;
with non-negative ascents and descents neither the painting position nor
the cursor increases from one line to the next. -/
theorem C19_lines_painted_top_down (fix : fixmath_t) (env : compose_env)
    (fuel n i_text_len i_width i_height : Nat) (pi_textblock_height : Int)
    (hctx : env.context_ok = true) (hlayout : env.layout_status = noErr)
    (hn : 0 < n) (hfuel : n ≤ fuel)
    (hok : ∀ k, k < n → lineOk (env.layout k) = true)
    (hcont : ∀ k, k + 1 < n → (env.layout k).i_end < i_text_len)
    (hlast : i_text_len ≤ (env.layout (n - 1)).i_end)
    (hrange : cursorInRange env.layout (fix.Long2Fix (i_height : Int)) n) :
    ∃ (result : compose_result) (st : line_state),
      Compose fix env fuel i_text_len i_width i_height pi_textblock_height = some result ∧
      result.lines = some st ∧
      st.i_requests = n ∧
      st.draws = (List.range n).map (fun k =>
        ({ i_start := lineStart env.layout k
           i_length := ((env.layout k).i_end + 4294967296 - lineStart env.layout k) %
             4294967296
           x := fix.Long2Fix (HORIZONTAL_MARGIN : Int)
           y := fix.Long2Fix (i_height : Int) - extentSum env.layout k -
             (env.layout k).ascent } : draw_call)) ∧
      st.y = fix.Long2Fix (i_height : Int) - extentSum env.layout n ∧
      result.pi_textblock_height = (i_height : Int) - fix.Fix2Long st.y ∧
      ((∀ k, k < n → 0 ≤ (env.layout k).ascent ∧ 0 ≤ (env.layout k).descent) →
        ∀ k, k + 1 < n →
          fix.Long2Fix (i_height : Int) - extentSum env.layout (k + 1) -
              (env.layout (k + 1)).ascent ≤
            fix.Long2Fix (i_height : Int) - extentSum env.layout k -
              (env.layout k).ascent ∧
          fix.Long2Fix (i_height : Int) - extentSum env.layout (k + 1) ≤
            fix.Long2Fix (i_height : Int) - extentSum env.layout k) := by
  have hH := toFixed_of_inFixed hrange.1
  have hloop := lineLoop_complete env.layout (fix.Long2Fix (HORIZONTAL_MARGIN : Int))
    (fix.Long2Fix (i_height : Int)) i_text_len fuel n hn hfuel hok hcont hlast
  have hcomp := Compose_of_lineLoop fix env fuel i_text_len i_width i_height
    pi_textblock_height _ hctx hlayout (by rw [hH]; exact hloop)
  refine ⟨_, _, hcomp, rfl, rfl, ?_, ?_, rfl, ?_⟩
  · show (List.range n).map (expectedDraw env.layout (fix.Long2Fix (HORIZONTAL_MARGIN : Int))
      (fix.Long2Fix (i_height : Int))) = _
    apply List.map_congr_left
    intro k hk
    exact expectedDraw_exact env.layout _ _ n k hrange (List.mem_range.mp hk)
  · exact cursorAfter_exact env.layout _ n hrange n (le_refl n)
  · intro hpos k hk
    have h1 := hpos k (by omega)
    have h2 := hpos (k + 1) hk
    have hs : extentSum env.layout (k + 1) =
        extentSum env.layout k + (env.layout k).ascent + (env.layout k).descent := rfl
    constructor <;> omega

/-- Witness of C19 (amended): a text of 10 code units broken into two lines,
on a surface 240 high. -/
theorem C19_lines_painted_top_down_witness :
    cursorInRange (envOf twoLines).layout (fix16.Long2Fix ((240 : Nat) : Int)) 2 ∧
    ∃ (result : compose_result) (st : line_state),
      Compose fix16 (envOf twoLines) 5 10 320 240 0 = some result ∧
      result.lines = some st ∧
      st.draws = [⟨0, 6, 655360, 14942208⟩, ⟨6, 4, 655360, 13893632⟩] ∧
      st.y = 13631488 ∧
      result.pi_textblock_height = 32 := by
  obtain ⟨result, st, h1, h2, _, h4, h5, h6, _⟩ :=
    C19_lines_painted_top_down fix16 (envOf twoLines) 5 2 10 320 240 0 rfl rfl
      (by decide) (by decide)
      (fun k hk => by
        have hk2 : k = 0 ∨ k = 1 := by omega
        rcases hk2 with hk2 | hk2 <;> subst hk2 <;> decide)
      (fun k hk => by
        have hk2 : k = 0 := by omega
        subst hk2
        decide)
      (by decide) (by decide)
  refine ⟨by decide, result, st, h1, h2, ?_, ?_, ?_⟩
  · rw [h4]
    decide
  · rw [h5]
    decide
  · rw [h6, h5]
    decide

/-! ## A line break that fails -/

theorem storePicture_of_picture (region : subpicture_region_t) (r : yuva_result)
    (picture : picture_t) (h : r.picture = some picture) :
    storePicture region r =
      { region with
        fmt_i_height := r.i_textblock_height + (VERTICAL_MARGIN : Int) * 2
        picture := some picture } := by
  simp [storePicture, h]

/-- C26: for every text length `n` and every layout engine whose requests
without error end beyond their start (offsets being 32-bit), the line loop of
`Compose` ends after at least one and at most max(n, 1) turns; every request
but the last was answered without error, with an end before `n`; the ranges
it paints are contiguous, the first starting at 0 and each other where the
one before it ends; and when none of the requests made fails, every request
has painted a range and the last range ends at or beyond `n`. -/
theorem C26_line_loop_terminates (fix : fixmath_t) (env : compose_env)
    (n i_width i_height : Nat) (pi_textblock_height : Int)
    (hctx : env.context_ok = true) (hlayout : env.layout_status = noErr)
    (hadv : ∀ k, k < max n 1 → lineOk (env.layout k) = true →
      lineStart env.layout k < (env.layout k).i_end)
    (hrange : ∀ k, k < max n 1 → (env.layout k).i_end < 4294967296) :
    ∃ (result : compose_result) (st : line_state),
      Compose fix env (max n 1) n i_width i_height pi_textblock_height = some result ∧
      result.lines = some st ∧
      1 ≤ st.i_requests ∧ st.i_requests ≤ max n 1 ∧
      (∀ k, k + 1 < st.i_requests →
        lineOk (env.layout k) = true ∧ (env.layout k).i_end < n) ∧
      (∀ d, st.draws[0]? = some d → d.i_start = 0) ∧
      (∀ j d1 d2, st.draws[j]? = some d1 → st.draws[j + 1]? = some d2 →
        d2.i_start = d1.i_start + d1.i_length) ∧
      ((∀ k, k < st.i_requests → lineOk (env.layout k) = true) →
        st.draws.length = st.i_requests ∧
        ∃ d, st.draws.getLast? = some d ∧ n ≤ d.i_start + d.i_length) := by
  obtain ⟨m, _, hm, hgood, hres⟩ := lineLoop_terminates env.layout
    (fix.Long2Fix (HORIZONTAL_MARGIN : Int)) (toFixed (fix.Long2Fix (i_height : Int))) n
    (max n 1) hadv (max n 1) 0 (by omega) (by omega) (by simp [lineStart])
  rcases hres with ⟨hok, hend, hloop⟩ | ⟨hfail, hloop⟩
  · have hcomp := Compose_of_lineLoop fix env (max n 1) n i_width i_height
      pi_textblock_height _ hctx hlayout hloop
    have hadv2 : ∀ j, j < m + 1 → lineStart env.layout j < (env.layout j).i_end := by
      intro j hj
      by_cases hjm : j = m
      · subst hjm
        exact hadv j (by omega) hok
      · exact hadv j (by omega) (hgood j (by omega) (by omega)).1
    obtain ⟨c1, c2, c3⟩ := stateAfter_contiguous env.layout
      (fix.Long2Fix (HORIZONTAL_MARGIN : Int)) (toFixed (fix.Long2Fix (i_height : Int)))
      (m + 1) hadv2 (fun k hk => hrange k (by omega))
    refine ⟨_, _, hcomp, rfl, ?_, ?_, ?_, c1, c2, ?_⟩
    · show 1 ≤ m + 1
      omega
    · show m + 1 ≤ max n 1
      omega
    · intro k hk
      have hk2 : k + 1 < m + 1 := hk
      exact hgood k (by omega) (by omega)
    · intro _
      have hlast : (stateAfter env.layout (fix.Long2Fix (HORIZONTAL_MARGIN : Int))
          (toFixed (fix.Long2Fix (i_height : Int))) (m + 1)).draws[m]? =
          some (expectedDraw env.layout (fix.Long2Fix (HORIZONTAL_MARGIN : Int))
            (toFixed (fix.Long2Fix (i_height : Int))) m) := by
        simp [stateAfter, List.getElem?_range]
      refine ⟨?_, expectedDraw env.layout (fix.Long2Fix (HORIZONTAL_MARGIN : Int))
        (toFixed (fix.Long2Fix (i_height : Int))) m, ?_, ?_⟩
      · show ((List.range (m + 1)).map _).length = m + 1
        simp
      · show (stateAfter env.layout (fix.Long2Fix (HORIZONTAL_MARGIN : Int))
          (toFixed (fix.Long2Fix (i_height : Int))) (m + 1)).draws.getLast? = _
        simp only [stateAfter, List.range_succ, List.map_append, List.map_cons, List.map_nil,
          List.getLast?_concat]
      · rw [c3 m _ hlast]
        exact hend
  · have hcomp := Compose_of_lineLoop fix env (max n 1) n i_width i_height
      pi_textblock_height _ hctx hlayout hloop
    have hadv2 : ∀ j, j < m → lineStart env.layout j < (env.layout j).i_end :=
      fun j hj => hadv j (by omega) (hgood j (by omega) hj).1
    obtain ⟨c1, c2, _⟩ := stateAfter_contiguous env.layout
      (fix.Long2Fix (HORIZONTAL_MARGIN : Int)) (toFixed (fix.Long2Fix (i_height : Int))) m
      hadv2 (fun k hk => hrange k (by omega))
    refine ⟨_, _, hcomp, rfl, ?_, ?_, ?_, c1, c2, ?_⟩
    · show 1 ≤ m + 1
      omega
    · show m + 1 ≤ max n 1
      omega
    · intro k hk
      have hk2 : k + 1 < m + 1 := hk
      exact hgood k (by omega) (by omega)
    · intro hall
      have hm2 : lineOk (env.layout m) = true := hall m (show m < m + 1 by omega)
      rw [hm2] at hfail
      cases hfail

/-- Witness of C26: a text of 10 code units and the layout engine that breaks
it at offsets 6 and 10; no request made fails, and the last range painted
ends at 10. -/
theorem C26_line_loop_terminates_witness :
    ∃ (result : compose_result) (st : line_state) (d : draw_call),
      Compose fix16 (envOf twoLines) (max 10 1) 10 320 240 0 = some result ∧
      result.lines = some st ∧ st.i_requests ≤ 2 ∧
      st.draws.getLast? = some d ∧ 10 ≤ d.i_start + d.i_length := by
  obtain ⟨result, st, h1, h2, _, _, h5, _, _, h8⟩ :=
    C26_line_loop_terminates fix16 (envOf twoLines) 10 320 240 0 rfl rfl
      (fun k _ hk => by
        match k, hk with
        | 0, _ => decide
        | 1, _ => decide
        | k + 2, hk =>
          have hanswer : (envOf twoLines).layout (k + 2) = ⟨-1, 0, 0, 0⟩ := rfl
          rw [hanswer] at hk
          exact absurd hk (by decide))
      (fun k _ => by
        match k with
        | 0 => decide
        | 1 => decide
        | k + 2 =>
          have hanswer : (envOf twoLines).layout (k + 2) = ⟨-1, 0, 0, 0⟩ := rfl
          rw [hanswer]
          decide)
  have hreq : st.i_requests ≤ 2 := by
    by_contra hgt
    have := (h5 1 (by omega)).2
    exact absurd this (by decide)
  have hall : ∀ k, k < st.i_requests → lineOk ((envOf twoLines).layout k) = true := by
    intro k hk
    have hk2 : k = 0 ∨ k = 1 := by omega
    rcases hk2 with hk2 | hk2 <;> subst hk2 <;> decide
  obtain ⟨_, d, hd1, hd2⟩ := h8 hall
  exact ⟨result, st, d, h1, h2, hreq, hd1, hd2⟩

end QuartzText
